import Mathlib

/-! Analog-pixel digital clock: angle arithmetic, digit table and hand interpolation.

A shallow embedding of `src/main.c`.

Modelling conventions
* C `int` is modelled by `Int`; `/` and `%` on `int` are the truncating
  `Int.tdiv` and `Int.tmod`.
* The fixed-size arrays `analog_clocks[4][6]` and `cells[6]` are total maps from
  `Fin 4`, `Fin 6`; an assignment to an array element is `Function.update`.
* `for` loops over a fixed index range are left folds over `List.finRange`.
* The fields of `struct tm` read by `UpdateDigitalClock` are parameters.
* The C types `float` and `double` are embedded twice.
  - Exact arithmetic (`NormalizeAngle`, `GetAngleDifference`, `InterpolateHand`,
    `GetClockToDraw`, `mainLoopBody`): a floating value is a rational, every
    operation is the exact one, the conversions between the two floating types
    are the identity and every `while` loop ends.  The statements about structure
    copies, integer fields, loop guards, the digit table and the loop state are
    made on these functions.
  - IEEE 754 arithmetic (namespace `IEEE`): a floating value is an `FP`, a finite
    rational, an infinity or a NaN (the two zeros are not distinguished).  Every
    `float` operation is rounded to binary32 and every `double` operation to
    binary64, to nearest with ties to even; each operation is evaluated in the
    type of its operands.  The conversion of a `double` to `float` rounds; the
    conversion of a `float` or an `int` to `double` is exact.  A `while` loop
    takes a bound on its number of iterations and yields `none` when the bound is
    reached, so that a loop that never ends is one that yields `none` for every
    bound.  The `double` fields of `AnalogClock` hold finite values; a frame with
    a hand that is not finite yields `none`.  The statements about the values
    that the angle arithmetic produces are made on these functions.
  On the values on which no operation rounds, such as the angles 0, 90, 180, 225
  and 270 of the digit table, the functions of the second embedding return the
  values of the first (theorems `ieee_InterpolateHand_exact`,
  `ieee_GetClockToDraw_exact`, `ieee_mainRun_exact`).
-/

namespace Clock

/-! ## Data model (main.c lines 8-22) -/

/-- The constant `ANIM_DURATION` (20.0f). -/
def ANIM_DURATION : ℚ := 20

/-- The C conversion `(int)` of a floating value: truncation toward zero. -/
def castInt (q : ℚ) : Int := if 0 ≤ q then ⌊q⌋ else ⌈q⌉

/-- The struct `AnalogClock`: the two hand angles of one miniature clock. -/
structure AnalogClock where
  hours_hand_angle : ℚ
  minutes_hand_angle : ℚ
deriving DecidableEq

/-- The struct `Cell`: a digit value and its 4 by 6 grid of miniature clocks. -/
structure Cell where
  value : Int
  analog_clocks : Fin 4 → Fin 6 → AnalogClock

/-- The struct `DigitalClock`: the six cells of an HH:MM:SS display. -/
structure DigitalClock where
  cells : Fin 6 → Cell

/-- The zero initialiser of an `AnalogClock`. -/
def AnalogClock.zero : AnalogClock := ⟨0, 0⟩

/-- The zero initialiser of a `Cell`. -/
def Cell.zero : Cell := ⟨0, fun _ _ => AnalogClock.zero⟩

/-- The zero initialiser `{0}` of a `DigitalClock`. -/
def DigitalClock.zero : DigitalClock := ⟨fun _ => Cell.zero⟩

/-- The assignment `cell.analog_clocks[x][y] = a`. -/
def Cell.setAC (c : Cell) (x : Fin 4) (y : Fin 6) (a : AnalogClock) : Cell :=
  { c with analog_clocks :=
      Function.update c.analog_clocks x (Function.update (c.analog_clocks x) y a) }

/-- The assignment `cell.analog_clocks[x][y].hours_hand_angle = v`. -/
def Cell.setHours (c : Cell) (x : Fin 4) (y : Fin 6) (v : ℚ) : Cell :=
  c.setAC x y { c.analog_clocks x y with hours_hand_angle := v }

/-- The assignment `cell.analog_clocks[x][y].minutes_hand_angle = v`. -/
def Cell.setMinutes (c : Cell) (x : Fin 4) (y : Fin 6) (v : ℚ) : Cell :=
  c.setAC x y { c.analog_clocks x y with minutes_hand_angle := v }

/-- The assignment `clock.cells[i] = c`. -/
def DigitalClock.setCell (clock : DigitalClock) (i : Fin 6) (c : Cell) : DigitalClock :=
  { cells := Function.update clock.cells i c }

/-! ## Angle arithmetic in exact arithmetic (main.c lines 26-32 and 59-68) -/

/-- First loop of `NormalizeAngle`: `while (angle < 0) angle += 360;`. -/
def NormalizeAngle.loopUp (angle : ℚ) : ℚ :=
  if angle < 0 then NormalizeAngle.loopUp (angle + 360) else angle
termination_by (⌈-angle / 360⌉).toNat
decreasing_by
  have h1 : -(angle + 360) / 360 = -angle / 360 - 1 := by ring
  have h2 : (0 : ℚ) < -angle / 360 := by
    apply div_pos <;> linarith
  have h3 : 0 < ⌈-angle / 360⌉ := Int.ceil_pos.mpr h2
  rw [h1, Int.ceil_sub_one]
  omega

/-- Second loop of `NormalizeAngle`: `while (angle >= 360) angle -= 360;`. -/
def NormalizeAngle.loopDown (angle : ℚ) : ℚ :=
  if angle ≥ 360 then NormalizeAngle.loopDown (angle - 360) else angle
termination_by (⌊angle / 360⌋).toNat
decreasing_by
  have h1 : (angle - 360) / 360 = angle / 360 - 1 := by ring
  have h2 : (1 : ℚ) ≤ angle / 360 := by
    rw [le_div_iff₀ (by norm_num)]; linarith
  have h3 : 1 ≤ ⌊angle / 360⌋ := Int.le_floor.mpr (by exact_mod_cast h2)
  rw [h1, Int.floor_sub_one]
  omega

/-- The function `NormalizeAngle` of main.c in exact arithmetic: no operation rounds and
both loops end.  The function on `double` is `IEEE.NormalizeAngle`. -/
def NormalizeAngle (angle : ℚ) : ℚ :=
  NormalizeAngle.loopDown (NormalizeAngle.loopUp angle)

/-- First loop of `GetAngleDifference`: `while (d <= 0.0f) d += 360.0f;`. -/
def GetAngleDifference.loopUp (d : ℚ) : ℚ :=
  if d ≤ 0 then GetAngleDifference.loopUp (d + 360) else d
termination_by (⌊-d / 360⌋ + 1).toNat
decreasing_by
  have h1 : -(d + 360) / 360 = -d / 360 - 1 := by ring
  have h2 : (0 : ℚ) ≤ -d / 360 := by
    apply div_nonneg <;> linarith
  have h3 : 0 ≤ ⌊-d / 360⌋ := Int.floor_nonneg.mpr h2
  rw [h1, Int.floor_sub_one]
  omega

/-- Second loop of `GetAngleDifference`: `while (d > 360.0f) d -= 360.0f;`. -/
def GetAngleDifference.loopDown (d : ℚ) : ℚ :=
  if d > 360 then GetAngleDifference.loopDown (d - 360) else d
termination_by (⌈d / 360⌉).toNat
decreasing_by
  have h1 : (d - 360) / 360 = d / 360 - 1 := by ring
  have h2 : (1 : ℚ) < d / 360 := by
    rw [lt_div_iff₀ (by norm_num)]; linarith
  have h3 : 1 < ⌈d / 360⌉ := Int.lt_ceil.mpr (by exact_mod_cast h2)
  rw [h1, Int.ceil_sub_one]
  omega

/-- The function `GetAngleDifference` of main.c in exact arithmetic: no operation rounds and
both loops end.  The function on `float` is `IEEE.GetAngleDifference`. -/
def GetAngleDifference (src dst : ℚ) : ℚ :=
  if src = dst then 0
  else
    let d := dst - src
    GetAngleDifference.loopDown (GetAngleDifference.loopUp d)

/-! ## Interpolation in exact arithmetic (main.c lines 70-109) -/

/-- The function `InterpolateHand` of main.c in exact arithmetic: the constant `0.001f` is
1/1000, no operation rounds and the conversions between `float` and `double` are the
identity.  The function on `float` is `IEEE.InterpolateHand`. -/
def InterpolateHand (old_angle new_angle : ℚ) (frame : Int) : ℚ :=
  let diff := GetAngleDifference old_angle new_angle
  if diff < 1 / 1000 then new_angle
  else
    let step := diff / ANIM_DURATION
    let moved := step * (frame : ℚ)
    NormalizeAngle (old_angle + moved)

/-- Body of the two inner `for` loops of `GetClockToDraw` at grid position `x`, `y`. -/
def GetClockToDraw.body (oldCell newCell : Cell) (frame : Int)
    (interpolated : Cell) (x : Fin 4) (y : Fin 6) : Cell :=
  let oldAC := oldCell.analog_clocks x y
  let newAC := newCell.analog_clocks x y
  let interpolated := interpolated.setHours x y
    (InterpolateHand oldAC.hours_hand_angle newAC.hours_hand_angle frame)
  interpolated.setMinutes x y
    (InterpolateHand oldAC.minutes_hand_angle newAC.minutes_hand_angle frame)

/-- The function `GetClockToDraw` of main.c, with `InterpolateHand` in exact arithmetic.  The
function with `InterpolateHand` on `float` is `IEEE.GetClockToDraw`. -/
def GetClockToDraw (old_clock new_clock : DigitalClock) (frame : Int) : DigitalClock :=
  if frame ≥ castInt ANIM_DURATION then new_clock
  else
    (List.finRange 6).foldl
      (fun result cellIdx =>
        let oldCell := old_clock.cells cellIdx
        let newCell := new_clock.cells cellIdx
        let interpolated : Cell := { Cell.zero with value := newCell.value }
        let interpolated :=
          (List.finRange 4).foldl
            (fun c x =>
              (List.finRange 6).foldl
                (fun c y => GetClockToDraw.body oldCell newCell frame c x y) c)
            interpolated
        result.setCell cellIdx interpolated)
      DigitalClock.zero

/-! ## Digit table and display construction (main.c lines 36-51 and 198-450) -/

/-- The assignments made by the `switch (num)` of `GetCellForNumber`, in source order:
each entry `(x, y, a)` is `cell.analog_clocks[x][y] = a`.  No case and no default
exists for other values of `num`. -/
def GetCellForNumber.switchBody (num : Int) : List (Fin 4 × Fin 6 × AnalogClock) :=
  match num with
  | 0 =>
    [ (0, 0, ⟨0, 270⟩), (1, 0, ⟨0, 180⟩), (2, 0, ⟨0, 180⟩), (3, 0, ⟨180, 270⟩),
      (0, 1, ⟨90, 270⟩), (1, 1, ⟨0, 270⟩), (2, 1, ⟨180, 270⟩), (3, 1, ⟨90, 270⟩),
      (0, 2, ⟨90, 270⟩), (1, 2, ⟨90, 270⟩), (2, 2, ⟨90, 270⟩), (3, 2, ⟨90, 270⟩),
      (0, 3, ⟨90, 270⟩), (1, 3, ⟨90, 270⟩), (2, 3, ⟨90, 270⟩), (3, 3, ⟨90, 270⟩),
      (0, 4, ⟨90, 270⟩), (1, 4, ⟨0, 90⟩), (2, 4, ⟨90, 180⟩), (3, 4, ⟨90, 270⟩),
      (0, 5, ⟨0, 90⟩), (1, 5, ⟨0, 180⟩), (2, 5, ⟨0, 180⟩), (3, 5, ⟨90, 180⟩) ]
  | 1 =>
    [ (0, 0, ⟨0, 270⟩), (1, 0, ⟨0, 180⟩), (2, 0, ⟨180, 270⟩), (0, 1, ⟨0, 90⟩),
      (1, 1, ⟨180, 270⟩), (2, 1, ⟨90, 270⟩), (1, 2, ⟨90, 270⟩), (2, 2, ⟨90, 270⟩),
      (1, 3, ⟨90, 270⟩), (2, 3, ⟨90, 270⟩), (0, 4, ⟨0, 270⟩), (1, 4, ⟨90, 180⟩),
      (2, 4, ⟨0, 90⟩), (3, 4, ⟨180, 270⟩), (0, 5, ⟨0, 90⟩), (1, 5, ⟨0, 180⟩),
      (2, 5, ⟨0, 180⟩), (3, 5, ⟨90, 180⟩) ]
  | 2 =>
    [ (0, 0, ⟨0, 270⟩), (1, 0, ⟨0, 180⟩), (2, 0, ⟨0, 180⟩), (3, 0, ⟨180, 270⟩),
      (0, 1, ⟨0, 90⟩), (1, 1, ⟨0, 180⟩), (2, 1, ⟨180, 270⟩), (3, 1, ⟨90, 270⟩),
      (0, 2, ⟨0, 270⟩), (1, 2, ⟨0, 180⟩), (2, 2, ⟨90, 180⟩), (3, 2, ⟨90, 270⟩),
      (0, 3, ⟨90, 270⟩), (1, 3, ⟨0, 270⟩), (2, 3, ⟨0, 180⟩), (3, 3, ⟨90, 180⟩),
      (0, 4, ⟨90, 270⟩), (1, 4, ⟨0, 90⟩), (2, 4, ⟨0, 180⟩), (3, 4, ⟨180, 270⟩),
      (0, 5, ⟨0, 90⟩), (1, 5, ⟨0, 180⟩), (2, 5, ⟨0, 180⟩), (3, 5, ⟨90, 180⟩) ]
  | 3 =>
    [ (0, 0, ⟨0, 270⟩), (1, 0, ⟨0, 180⟩), (2, 0, ⟨0, 180⟩), (3, 0, ⟨180, 270⟩),
      (0, 1, ⟨0, 90⟩), (1, 1, ⟨0, 180⟩), (2, 1, ⟨180, 270⟩), (3, 1, ⟨90, 270⟩),
      (1, 2, ⟨0, 270⟩), (2, 2, ⟨90, 180⟩), (3, 2, ⟨90, 270⟩), (1, 3, ⟨0, 90⟩),
      (2, 3, ⟨180, 270⟩), (3, 3, ⟨90, 270⟩), (0, 4, ⟨0, 270⟩), (1, 4, ⟨0, 180⟩),
      (2, 4, ⟨90, 180⟩), (3, 4, ⟨90, 270⟩), (0, 5, ⟨0, 90⟩), (1, 5, ⟨0, 180⟩),
      (2, 5, ⟨0, 180⟩), (3, 5, ⟨90, 180⟩) ]
  | 4 =>
    [ (0, 0, ⟨0, 270⟩), (1, 0, ⟨180, 270⟩), (2, 0, ⟨0, 270⟩), (3, 0, ⟨180, 270⟩),
      (0, 1, ⟨90, 270⟩), (1, 1, ⟨90, 270⟩), (2, 1, ⟨90, 270⟩), (3, 1, ⟨90, 270⟩),
      (0, 2, ⟨90, 270⟩), (1, 2, ⟨0, 90⟩), (2, 2, ⟨90, 180⟩), (3, 2, ⟨90, 270⟩),
      (0, 3, ⟨0, 90⟩), (1, 3, ⟨0, 180⟩), (2, 3, ⟨180, 270⟩), (3, 3, ⟨90, 270⟩),
      (2, 4, ⟨90, 270⟩), (3, 4, ⟨90, 270⟩), (2, 5, ⟨0, 90⟩), (3, 5, ⟨90, 180⟩) ]
  | 5 =>
    [ (0, 0, ⟨0, 270⟩), (1, 0, ⟨0, 180⟩), (2, 0, ⟨0, 180⟩), (3, 0, ⟨180, 270⟩),
      (0, 1, ⟨90, 270⟩), (1, 1, ⟨0, 270⟩), (2, 1, ⟨0, 180⟩), (3, 1, ⟨90, 180⟩),
      (0, 2, ⟨90, 270⟩), (1, 2, ⟨0, 90⟩), (2, 2, ⟨0, 180⟩), (3, 2, ⟨180, 270⟩),
      (0, 3, ⟨0, 90⟩), (1, 3, ⟨0, 180⟩), (2, 3, ⟨180, 270⟩), (3, 3, ⟨90, 270⟩),
      (0, 4, ⟨0, 270⟩), (1, 4, ⟨0, 180⟩), (2, 4, ⟨90, 180⟩), (3, 4, ⟨90, 270⟩),
      (0, 5, ⟨0, 90⟩), (1, 5, ⟨0, 180⟩), (2, 5, ⟨0, 180⟩), (3, 5, ⟨90, 180⟩) ]
  | 6 =>
    [ (0, 0, ⟨0, 270⟩), (1, 0, ⟨0, 180⟩), (2, 0, ⟨0, 180⟩), (3, 0, ⟨180, 270⟩),
      (0, 1, ⟨90, 270⟩), (1, 1, ⟨0, 270⟩), (2, 1, ⟨0, 180⟩), (3, 1, ⟨90, 180⟩),
      (0, 2, ⟨90, 270⟩), (1, 2, ⟨0, 90⟩), (2, 2, ⟨0, 180⟩), (3, 2, ⟨180, 270⟩),
      (0, 3, ⟨90, 270⟩), (1, 3, ⟨0, 270⟩), (2, 3, ⟨180, 270⟩), (3, 3, ⟨90, 270⟩),
      (0, 4, ⟨90, 270⟩), (1, 4, ⟨0, 90⟩), (2, 4, ⟨90, 180⟩), (3, 4, ⟨90, 270⟩),
      (0, 5, ⟨0, 90⟩), (1, 5, ⟨0, 180⟩), (2, 5, ⟨0, 180⟩), (3, 5, ⟨90, 180⟩) ]
  | 7 =>
    [ (0, 0, ⟨0, 270⟩), (1, 0, ⟨0, 180⟩), (2, 0, ⟨0, 180⟩), (3, 0, ⟨180, 270⟩),
      (0, 1, ⟨0, 90⟩), (1, 1, ⟨0, 180⟩), (2, 1, ⟨180, 270⟩), (3, 1, ⟨90, 270⟩),
      (2, 2, ⟨90, 270⟩), (3, 2, ⟨90, 270⟩), (2, 3, ⟨90, 270⟩), (3, 3, ⟨90, 270⟩),
      (2, 4, ⟨90, 270⟩), (3, 4, ⟨90, 270⟩), (2, 5, ⟨0, 90⟩), (3, 5, ⟨90, 180⟩) ]
  | 8 =>
    [ (0, 0, ⟨0, 270⟩), (1, 0, ⟨0, 180⟩), (2, 0, ⟨0, 180⟩), (3, 0, ⟨180, 270⟩),
      (0, 1, ⟨90, 270⟩), (1, 1, ⟨0, 270⟩), (2, 1, ⟨180, 270⟩), (3, 1, ⟨90, 270⟩),
      (0, 2, ⟨90, 270⟩), (1, 2, ⟨0, 90⟩), (2, 2, ⟨90, 180⟩), (3, 2, ⟨90, 270⟩),
      (0, 3, ⟨90, 270⟩), (1, 3, ⟨0, 270⟩), (2, 3, ⟨180, 270⟩), (3, 3, ⟨90, 270⟩),
      (0, 4, ⟨90, 270⟩), (1, 4, ⟨0, 90⟩), (2, 4, ⟨90, 180⟩), (3, 4, ⟨90, 270⟩),
      (0, 5, ⟨0, 90⟩), (1, 5, ⟨0, 180⟩), (2, 5, ⟨0, 180⟩), (3, 5, ⟨90, 180⟩) ]
  | 9 =>
    [ (0, 0, ⟨0, 270⟩), (1, 0, ⟨0, 180⟩), (2, 0, ⟨0, 180⟩), (3, 0, ⟨180, 270⟩),
      (0, 1, ⟨90, 270⟩), (1, 1, ⟨0, 270⟩), (2, 1, ⟨180, 270⟩), (3, 1, ⟨90, 270⟩),
      (0, 2, ⟨90, 270⟩), (1, 2, ⟨0, 90⟩), (2, 2, ⟨90, 180⟩), (3, 2, ⟨90, 270⟩),
      (0, 3, ⟨0, 90⟩), (1, 3, ⟨0, 180⟩), (2, 3, ⟨180, 270⟩), (3, 3, ⟨90, 270⟩),
      (0, 4, ⟨0, 270⟩), (1, 4, ⟨0, 180⟩), (2, 4, ⟨90, 180⟩), (3, 4, ⟨90, 270⟩),
      (0, 5, ⟨0, 90⟩), (1, 5, ⟨0, 180⟩), (2, 5, ⟨0, 180⟩), (3, 5, ⟨90, 180⟩) ]
  | _ => []

/-- The function `GetCellForNumber` of main.c. -/
def GetCellForNumber (num : Int) : Cell :=
  let cell : Cell := { Cell.zero with value := num }
  let cell :=
    (List.finRange 4).foldl
      (fun c x =>
        (List.finRange 6).foldl
          (fun c y => (c.setHours x y 225).setMinutes x y 225) c)
      cell
  (GetCellForNumber.switchBody num).foldl (fun c e => c.setAC e.1 e.2.1 e.2.2) cell

/-- The state of `cell` in `GetCellForNumber` when its initialisation loops (lines 199-204)
have run: the value `num` and both hands of every position at 225. -/
def restingCell (num : Int) : Cell :=
  { value := num, analog_clocks := fun _ _ => ⟨225, 225⟩ }

/-- The array `digits[6]` of `UpdateDigitalClock`. -/
def UpdateDigitalClock.digits (hours minutes seconds : Int) : Fin 6 → Int :=
  ![Int.tdiv hours 10, Int.tmod hours 10, Int.tdiv minutes 10,
    Int.tmod minutes 10, Int.tdiv seconds 10, Int.tmod seconds 10]

/-- The function `UpdateDigitalClock` of main.c; the fields `tm_hour`, `tm_min`,
`tm_sec` of the local time it reads are the parameters `hours`, `minutes`, `seconds`. -/
def UpdateDigitalClock (clock : DigitalClock) (hours minutes seconds : Int) : DigitalClock :=
  let digits := UpdateDigitalClock.digits hours minutes seconds
  (List.finRange 6).foldl (fun clock i => clock.setCell i (GetCellForNumber (digits i))) clock

/-- A display built from time fields the way `main` builds `current_clock`
(lines 163 and 167): a zero-initialised `DigitalClock` passed to `UpdateDigitalClock`. -/
def build (hours minutes seconds : Int) : DigitalClock :=
  UpdateDigitalClock DigitalClock.zero hours minutes seconds

/-- The digit values of the six cells of a display, in order. -/
def DigitalClock.values (clock : DigitalClock) : List Int :=
  (List.finRange 6).map (fun i => (clock.cells i).value)

/-! ## The render loop of `main` (main.c lines 163-192) -/

/-- The variables of `main` that live across the iterations of its `while` loop
(lines 163-172).  The counter `frame_counter` is an unbounded integer: the loop resets it at
every change of second. -/
structure LoopState where
  current_clock : DigitalClock
  old_clock : DigitalClock
  draw_clock : DigitalClock
  last_second : Int
  frame_counter : Int

/-- What one iteration of the loop reads from the system clock: `cur_sec` is the field
`tm_sec` read by the loop itself (line 177); `tm_hour`, `tm_min`, `tm_sec` are the fields
read by `UpdateDigitalClock` when the iteration calls it (line 181). -/
structure LoopInput where
  cur_sec : Int
  tm_hour : Int
  tm_min : Int
  tm_sec : Int

/-- The state of `main` when it enters its loop (lines 163-172); the parameters are the time
fields read by the first call of `UpdateDigitalClock`. -/
def mainInit (tm_hour tm_min tm_sec : Int) : LoopState :=
  let current_clock := UpdateDigitalClock DigitalClock.zero tm_hour tm_min tm_sec
  { current_clock := current_clock
    old_clock := current_clock
    draw_clock := current_clock
    last_second := -1
    frame_counter := 0 }

/-- One iteration of the `while` loop of `main` (lines 175-191); drawing has no effect on
the state. -/
def mainLoopBody (s : LoopState) (inp : LoopInput) : LoopState :=
  let s : LoopState :=
    if inp.cur_sec ≠ s.last_second then
      { s with
        old_clock := s.current_clock
        current_clock := UpdateDigitalClock s.current_clock inp.tm_hour inp.tm_min inp.tm_sec
        frame_counter := 0
        last_second := inp.cur_sec }
    else s
  let s : LoopState :=
    { s with draw_clock := GetClockToDraw s.old_clock s.current_clock s.frame_counter }
  { s with frame_counter := s.frame_counter + 1 }

/-- The state of `main` after the iterations whose clock readings are `inputs`, in order. -/
def mainRun (s : LoopState) (inputs : List LoopInput) : LoopState :=
  inputs.foldl mainLoopBody s

/-! ## IEEE 754 arithmetic (binary32 for `float`, binary64 for `double`) -/

/-- A binary floating-point format: precision in bits, smallest and largest exponent of a
normal number. -/
structure Fmt where
  prec : Nat
  emin : Int
  emax : Int

/-- The format of `float`. -/
def binary32 : Fmt := ⟨24, -126, 127⟩

/-- The format of `double`. -/
def binary64 : Fmt := ⟨53, -1022, 1023⟩

/-- Rounding of a rational to the nearest integer, ties to the even one. -/
def roundNE (x : ℚ) : Int :=
  if x - ⌊x⌋ < 1 / 2 then ⌊x⌋
  else if 1 / 2 < x - ⌊x⌋ then ⌊x⌋ + 1
  else if ⌊x⌋ % 2 = 0 then ⌊x⌋ else ⌊x⌋ + 1

/-- A floating-point datum: a finite value (the two zeros are not distinguished), an
infinity with its sign, or a NaN. -/
inductive FP where
  | fin (q : ℚ)
  | inf (negative : Bool)
  | nan
deriving DecidableEq

/-- The spacing of the format around `q`: `2 ^ (e - (prec - 1))` where `e` is the exponent of
`q`, not below `emin` (subnormal range). -/
def Fmt.ulp (fmt : Fmt) (q : ℚ) : ℚ :=
  (2 : ℚ) ^ (max (Int.log 2 |q|) fmt.emin - ((fmt.prec : Int) - 1))

/-- Rounding to nearest, ties to even, of an exact result `q`; overflow gives an infinity. -/
def Fmt.round (fmt : Fmt) (q : ℚ) : FP :=
  let r : ℚ := (roundNE (q / fmt.ulp q) : ℚ) * fmt.ulp q
  if (2 : ℚ) ^ (fmt.emax + 1) ≤ |r| then FP.inf (decide (q < 0)) else FP.fin r

/-- Unary minus. -/
def FP.neg : FP → FP
  | FP.fin q => FP.fin (-q)
  | FP.inf s => FP.inf (!s)
  | FP.nan => FP.nan

/-- Addition in the format `fmt`. -/
def FP.add (fmt : Fmt) : FP → FP → FP
  | FP.fin a, FP.fin b => fmt.round (a + b)
  | FP.fin _, FP.inf s => FP.inf s
  | FP.inf s, FP.fin _ => FP.inf s
  | FP.inf s, FP.inf t => if s = t then FP.inf s else FP.nan
  | _, _ => FP.nan

/-- Subtraction in the format `fmt`. -/
def FP.sub (fmt : Fmt) (a b : FP) : FP := FP.add fmt a b.neg

/-- Multiplication in the format `fmt`. -/
def FP.mul (fmt : Fmt) : FP → FP → FP
  | FP.fin a, FP.fin b => fmt.round (a * b)
  | FP.fin a, FP.inf s => if a = 0 then FP.nan else FP.inf (xor s (decide (a < 0)))
  | FP.inf s, FP.fin b => if b = 0 then FP.nan else FP.inf (xor s (decide (b < 0)))
  | FP.inf s, FP.inf t => FP.inf (xor s t)
  | _, _ => FP.nan

/-- Division in the format `fmt`.  A zero divisor is taken as positive zero; the only divisor
in the program is the constant 20. -/
def FP.div (fmt : Fmt) : FP → FP → FP
  | FP.fin a, FP.fin b =>
    if b = 0 then (if a = 0 then FP.nan else FP.inf (decide (a < 0))) else fmt.round (a / b)
  | FP.fin _, FP.inf _ => FP.fin 0
  | FP.inf s, FP.fin b => FP.inf (xor s (decide (b < 0)))
  | _, _ => FP.nan

/-- The comparison `a < b`; false when an operand is a NaN. -/
def FP.lt : FP → FP → Bool
  | FP.fin a, FP.fin b => decide (a < b)
  | FP.fin _, FP.inf s => !s
  | FP.inf s, FP.fin _ => s
  | FP.inf s, FP.inf t => s && !t
  | _, _ => false

/-- The comparison `a == b`; false when an operand is a NaN. -/
def FP.eq : FP → FP → Bool
  | FP.fin a, FP.fin b => decide (a = b)
  | FP.inf s, FP.inf t => decide (s = t)
  | _, _ => false

/-- The comparison `a <= b`; false when an operand is a NaN. -/
def FP.le (a b : FP) : Bool := FP.lt a b || FP.eq a b

/-- The conversion of a `double` to `float`. -/
def FP.toFloat : FP → FP
  | FP.fin q => binary32.round q
  | FP.inf s => FP.inf s
  | FP.nan => FP.nan

/-- The finite value of a datum, as the fields of `AnalogClock` hold it in this development;
no value for an infinity or a NaN. -/
def FP.toRat : FP → Option ℚ
  | FP.fin q => some q
  | FP.inf _ => none
  | FP.nan => none

/-! ## The arithmetic functions of main.c in IEEE arithmetic

Every `float` operation is rounded to binary32 and every `double` operation to binary64.
A `while` loop takes a bound on its number of iterations and yields no value when the bound
is reached. -/

namespace IEEE

/-- First loop of `NormalizeAngle` (line 27): `while (angle < 0) angle += 360;`. -/
def NormalizeAngle.loopUp : Nat → FP → Option FP
  | 0, _ => none
  | fuel + 1, angle =>
    if FP.lt angle (FP.fin 0) then
      NormalizeAngle.loopUp fuel (FP.add binary64 angle (FP.fin 360))
    else some angle

/-- Second loop of `NormalizeAngle` (line 29): `while (angle >= 360) angle -= 360;`. -/
def NormalizeAngle.loopDown : Nat → FP → Option FP
  | 0, _ => none
  | fuel + 1, angle =>
    if FP.le (FP.fin 360) angle then
      NormalizeAngle.loopDown fuel (FP.sub binary64 angle (FP.fin 360))
    else some angle

/-- The function `NormalizeAngle` of main.c on `double`. -/
def NormalizeAngle (fuel : Nat) (angle : FP) : Option FP :=
  (NormalizeAngle.loopUp fuel angle).bind (NormalizeAngle.loopDown fuel)

/-- First loop of `GetAngleDifference` (line 63): `while (d <= 0.0f) d += 360.0f;`. -/
def GetAngleDifference.loopUp : Nat → FP → Option FP
  | 0, _ => none
  | fuel + 1, d =>
    if FP.le d (FP.fin 0) then
      GetAngleDifference.loopUp fuel (FP.add binary32 d (FP.fin 360))
    else some d

/-- Second loop of `GetAngleDifference` (line 65): `while (d > 360.0f) d -= 360.0f;`. -/
def GetAngleDifference.loopDown : Nat → FP → Option FP
  | 0, _ => none
  | fuel + 1, d =>
    if FP.lt (FP.fin 360) d then
      GetAngleDifference.loopDown fuel (FP.sub binary32 d (FP.fin 360))
    else some d

/-- The function `GetAngleDifference` of main.c on `float`. -/
def GetAngleDifference (fuel : Nat) (src dst : FP) : Option FP :=
  if FP.eq src dst then some (FP.fin 0)
  else
    let d := FP.sub binary32 dst src
    (GetAngleDifference.loopUp fuel d).bind (GetAngleDifference.loopDown fuel)

/-- The function `InterpolateHand` of main.c on `float`: the constants `0.001f` and `20.0f`,
the conversion of `frame` to `float`, the sum `old_angle + moved` computed in `float` and
passed as a `double`, and the `double` result returned as a `float`. -/
def InterpolateHand (fuel : Nat) (old_angle new_angle : FP) (frame : Int) : Option FP :=
  (GetAngleDifference fuel old_angle new_angle).bind fun diff =>
    if FP.lt diff (binary32.round (1 / 1000)) then some new_angle
    else
      let step := FP.div binary32 diff (FP.fin 20)
      let moved := FP.mul binary32 step (binary32.round (frame : ℚ))
      (NormalizeAngle fuel (FP.add binary32 old_angle moved)).map FP.toFloat

/-- One call of `InterpolateHand` from `GetClockToDraw` (lines 99-103): the two `double`
fields are converted to `float`, the `float` result is stored in a `double` field. -/
def drawHand (fuel : Nat) (old_angle new_angle : ℚ) (frame : Int) : Option ℚ :=
  (InterpolateHand fuel (FP.toFloat (FP.fin old_angle)) (FP.toFloat (FP.fin new_angle))
    frame).bind FP.toRat

/-- Body of the two inner `for` loops of `GetClockToDraw` at grid position `x`, `y`. -/
def GetClockToDraw.body (fuel : Nat) (oldCell newCell : Cell) (frame : Int)
    (interpolated : Cell) (x : Fin 4) (y : Fin 6) : Option Cell :=
  let oldAC := oldCell.analog_clocks x y
  let newAC := newCell.analog_clocks x y
  (drawHand fuel oldAC.hours_hand_angle newAC.hours_hand_angle frame).bind fun h =>
    let interpolated := interpolated.setHours x y h
    (drawHand fuel oldAC.minutes_hand_angle newAC.minutes_hand_angle frame).bind fun m =>
      some (interpolated.setMinutes x y m)

/-- Body of the outer `for` loop of `GetClockToDraw` (lines 89-105): the interpolated cell. -/
def GetClockToDraw.cell (fuel : Nat) (oldCell newCell : Cell) (frame : Int) : Option Cell :=
  (List.finRange 4).foldlM
    (fun c x =>
      (List.finRange 6).foldlM
        (fun c y => GetClockToDraw.body fuel oldCell newCell frame c x y) c)
    { Cell.zero with value := newCell.value }

/-- The function `GetClockToDraw` of main.c in IEEE arithmetic. -/
def GetClockToDraw (fuel : Nat) (old_clock new_clock : DigitalClock) (frame : Int) :
    Option DigitalClock :=
  if frame ≥ castInt ANIM_DURATION then some new_clock
  else
    (List.finRange 6).foldlM
      (fun result cellIdx =>
        (GetClockToDraw.cell fuel (old_clock.cells cellIdx) (new_clock.cells cellIdx)
          frame).map fun interpolated => result.setCell cellIdx interpolated)
      DigitalClock.zero

/-- One iteration of the `while` loop of `main` in IEEE arithmetic. -/
def mainLoopBody (fuel : Nat) (s : LoopState) (inp : LoopInput) : Option LoopState :=
  let s : LoopState :=
    if inp.cur_sec ≠ s.last_second then
      { s with
        old_clock := s.current_clock
        current_clock := UpdateDigitalClock s.current_clock inp.tm_hour inp.tm_min inp.tm_sec
        frame_counter := 0
        last_second := inp.cur_sec }
    else s
  (GetClockToDraw fuel s.old_clock s.current_clock s.frame_counter).map fun draw =>
    { s with draw_clock := draw, frame_counter := s.frame_counter + 1 }

/-- The state of `main` after the iterations whose clock readings are `inputs`. -/
def mainRun (fuel : Nat) (s : LoopState) (inputs : List LoopInput) : Option LoopState :=
  inputs.foldlM (mainLoopBody fuel) s

end IEEE

/-! ## Predicates and reference definitions used by the statements -/

/-- An angle of the half-open interval `[0, 360)`. -/
def normalised (a : ℚ) : Prop := 0 ≤ a ∧ a < 360

/-- Every hand angle of the display lies in `[0, 360)`. -/
def DigitalClock.normalised (clock : DigitalClock) : Prop :=
  ∀ (i : Fin 6) (x : Fin 4) (y : Fin 6),
    Clock.normalised ((clock.cells i).analog_clocks x y).hours_hand_angle ∧
    Clock.normalised ((clock.cells i).analog_clocks x y).minutes_hand_angle

/-- Whether the `switch` of `GetCellForNumber` assigns position `[x][y]` for `num`. -/
def explicitlySet (num : Int) (x : Fin 4) (y : Fin 6) : Bool :=
  (GetCellForNumber.switchBody num).any (fun e => decide (e.1 = x ∧ e.2.1 = y))

/-- A lit position: two distinct hand angles out of 0, 90, 180, 270, the hours hand at the
smaller one. -/
def onPose (a : AnalogClock) : Prop :=
  (a.hours_hand_angle = 0 ∨ a.hours_hand_angle = 90 ∨ a.hours_hand_angle = 180 ∨
    a.hours_hand_angle = 270) ∧
  (a.minutes_hand_angle = 0 ∨ a.minutes_hand_angle = 90 ∨ a.minutes_hand_angle = 180 ∨
    a.minutes_hand_angle = 270) ∧
  a.hours_hand_angle < a.minutes_hand_angle

/-- One of the two hands of a miniature clock: the minutes hand for `true`, the hours hand
for `false`. -/
def AnalogClock.hand (a : AnalogClock) (minutes : Bool) : ℚ :=
  if minutes then a.minutes_hand_angle else a.hours_hand_angle

/-- The angle that `GetClockToDraw` produces at frame `f` for one hand of the display. -/
def handOut (previous target : DigitalClock) (i : Fin 6) (x : Fin 4) (y : Fin 6)
    (minutes : Bool) (f : Int) : ℚ :=
  (((GetClockToDraw previous target f).cells i).analog_clocks x y).hand minutes

/-- The forward distance, as the program computes it in IEEE arithmetic, from `p` to the
angle interpolated at frame `frame` between `p` and `t`. -/
def IEEE.arc (fuel : Nat) (p t : FP) (frame : Int) : Option FP :=
  (IEEE.InterpolateHand fuel p t frame).bind (IEEE.GetAngleDifference fuel p)

/-- The angle that `GetClockToDraw` produces in IEEE arithmetic at frame `f` for one hand of
the display. -/
def IEEE.handOut (fuel : Nat) (previous target : DigitalClock) (i : Fin 6) (x : Fin 4)
    (y : Fin 6) (minutes : Bool) (f : Int) : Option ℚ :=
  (IEEE.GetClockToDraw fuel previous target f).map fun out =>
    ((out.cells i).analog_clocks x y).hand minutes

/-- An angle on which the interpolation is exact in binary32: an integer multiple of 5/4096
in `[0, 360)`.  The angles 0, 90, 180, 225, 270 of the digit table are of this kind. -/
def exactAngle (a : ℚ) : Prop := ∃ m : ℤ, 0 ≤ m ∧ m < 294912 ∧ a = 5 * (m : ℚ) / 4096

/-- Every hand angle of the display is an integer multiple of 5/4096 in `[0, 360)`. -/
def DigitalClock.exact (clock : DigitalClock) : Prop :=
  ∀ (i : Fin 6) (x : Fin 4) (y : Fin 6),
    exactAngle ((clock.cells i).analog_clocks x y).hours_hand_angle ∧
    exactAngle ((clock.cells i).analog_clocks x y).minutes_hand_angle

/-- The two displays that the loop passes to `GetClockToDraw` have exact angles and the frame
counter is not negative. -/
def LoopState.exact (s : LoopState) : Prop :=
  s.current_clock.exact ∧ s.old_clock.exact ∧ 0 ≤ s.frame_counter

/-- The value is a `float`: rounding to binary32 leaves it unchanged. -/
def isFloat (q : ℚ) : Prop := binary32.round q = FP.fin q

/-- The value is a `double`: rounding to binary64 leaves it unchanged. -/
def isDouble (q : ℚ) : Prop := binary64.round q = FP.fin q

/-- The display with the hours hand at position `[0][0]` of its last cell moved to `v`. -/
def DigitalClock.withHand (clock : DigitalClock) (v : ℚ) : DigitalClock :=
  clock.setCell 5 ((clock.cells 5).setHours 0 0 v)

/-- Clock readings of a slow run of the loop started at 10:00:00: one iteration in second 0,
then eleven iterations in second 1 (frames 0 to 10 of the animation toward 10:00:01). -/
def slowRunInputs : List LoopInput :=
  ⟨0, 10, 0, 0⟩ :: List.replicate 11 ⟨1, 10, 0, 1⟩

/-- The state of `main` after the slow run: the animation toward 10:00:01 is in flight. -/
def slowRunState : LoopState := mainRun (mainInit 10 0 0) slowRunInputs

/-- The clock reading of the iteration that follows the slow run: second 2 has begun. -/
def slowRunNext : LoopInput := ⟨2, 10, 0, 2⟩

/-- The three displays held by the loop have only angles of `[0, 360)`. -/
def LoopState.normalised (s : LoopState) : Prop :=
  s.current_clock.normalised ∧ s.old_clock.normalised ∧ s.draw_clock.normalised

/-- The angles that occur in the digit table. -/
def tableAngle (a : ℚ) : Prop := a = 0 ∨ a = 90 ∨ a = 180 ∨ a = 225 ∨ a = 270

/-- The two defensive errors named by the specification (section 7). -/
inductive CoreError where
  | InvalidDigit
  | InvalidTimeComponent
deriving DecidableEq

/-- The lookup of the specification (section 4.2), written from its words: the table cell
of a digit in 0..9, the error `InvalidDigit` for any other input.  The code it is compared
with is `GetCellForNumber`. -/
def specLookup (digit : Int) : Except CoreError Cell :=
  if 0 ≤ digit ∧ digit ≤ 9 then Except.ok (GetCellForNumber digit)
  else Except.error CoreError.InvalidDigit

/-- The construction of the specification (section 4.3), written from its words: the error
`InvalidTimeComponent` unless hours is in 0..23 and minutes, seconds are in 0..59.  The code
it is compared with is `build`. -/
def specBuild (hours minutes seconds : Int) : Except CoreError DigitalClock :=
  if 0 ≤ hours ∧ hours ≤ 23 ∧ 0 ≤ minutes ∧ minutes ≤ 59 ∧ 0 ≤ seconds ∧ seconds ≤ 59 then
    Except.ok (build hours minutes seconds)
  else Except.error CoreError.InvalidTimeComponent

/-! ## Closed forms of the angle loops -/

theorem NormalizeAngle.loopUp_of_nonneg {x : ℚ} (h : 0 ≤ x) :
    NormalizeAngle.loopUp x = x := by
  rw [NormalizeAngle.loopUp, if_neg (not_lt.mpr h)]

theorem NormalizeAngle.loopDown_of_lt {x : ℚ} (h : x < 360) :
    NormalizeAngle.loopDown x = x := by
  rw [NormalizeAngle.loopDown, if_neg (not_le.mpr h)]

theorem NormalizeAngle.loopUp_sub (n : ℕ) (r : ℚ) (h0 : 0 ≤ r) (h1 : r < 360) :
    NormalizeAngle.loopUp (r - 360 * n) = r := by
  induction n with
  | zero => simpa using NormalizeAngle.loopUp_of_nonneg h0
  | succ m ih =>
    have hm : (0 : ℚ) ≤ m := Nat.cast_nonneg m
    have hneg : r - 360 * ((m + 1 : ℕ) : ℚ) < 0 := by push_cast; linarith
    rw [NormalizeAngle.loopUp, if_pos hneg]
    have e : r - 360 * ((m + 1 : ℕ) : ℚ) + 360 = r - 360 * m := by push_cast; ring
    rw [e, ih]

theorem NormalizeAngle.loopDown_add (n : ℕ) (r : ℚ) (h0 : 0 ≤ r) (h1 : r < 360) :
    NormalizeAngle.loopDown (r + 360 * n) = r := by
  induction n with
  | zero => simpa using NormalizeAngle.loopDown_of_lt h1
  | succ m ih =>
    have hm : (0 : ℚ) ≤ m := Nat.cast_nonneg m
    have hge : r + 360 * ((m + 1 : ℕ) : ℚ) ≥ 360 := by push_cast; linarith
    rw [NormalizeAngle.loopDown, if_pos hge]
    have e : r + 360 * ((m + 1 : ℕ) : ℚ) - 360 = r + 360 * m := by push_cast; ring
    rw [e, ih]

/-- The remainder of `x` modulo 360 lies in `[0, 360)`. -/
theorem floor_rem_bounds (x : ℚ) :
    0 ≤ x - 360 * (⌊x / 360⌋ : ℚ) ∧ x - 360 * (⌊x / 360⌋ : ℚ) < 360 := by
  have h1 : (⌊x / 360⌋ : ℚ) ≤ x / 360 := Int.floor_le _
  have h2 : x / 360 < (⌊x / 360⌋ : ℚ) + 1 := Int.lt_floor_add_one _
  rw [le_div_iff₀ (by norm_num)] at h1
  rw [div_lt_iff₀ (by norm_num)] at h2
  constructor <;> linarith

/-- Closed form of `NormalizeAngle`: the remainder of the angle modulo 360. -/
theorem NormalizeAngle_eq (x : ℚ) : NormalizeAngle x = x - 360 * (⌊x / 360⌋ : ℚ) := by
  obtain ⟨h0, h1⟩ := floor_rem_bounds x
  generalize hr : x - 360 * (⌊x / 360⌋ : ℚ) = r at h0 h1
  unfold NormalizeAngle
  rcases le_or_lt 0 ⌊x / 360⌋ with hk | hk
  · obtain ⟨n, hn⟩ := Int.eq_ofNat_of_zero_le hk
    have hx : x = r + 360 * (n : ℚ) := by rw [← hr, hn]; push_cast; ring
    have hn0 : (0 : ℚ) ≤ n := Nat.cast_nonneg n
    rw [NormalizeAngle.loopUp_of_nonneg (by rw [hx]; linarith), hx]
    exact NormalizeAngle.loopDown_add n r h0 h1
  · obtain ⟨n, hn⟩ := Int.eq_ofNat_of_zero_le (le_of_lt (neg_pos.mpr hk))
    have hk2 : ⌊x / 360⌋ = -(n : ℤ) := by omega
    have hx : x = r - 360 * (n : ℚ) := by rw [← hr, hk2]; push_cast; ring
    rw [hx, NormalizeAngle.loopUp_sub n r h0 h1]
    exact NormalizeAngle.loopDown_of_lt h1

theorem NormalizeAngle_bounds (x : ℚ) : 0 ≤ NormalizeAngle x ∧ NormalizeAngle x < 360 := by
  rw [NormalizeAngle_eq]; exact floor_rem_bounds x

theorem NormalizeAngle_of_mem {r : ℚ} (h0 : 0 ≤ r) (h1 : r < 360) : NormalizeAngle r = r := by
  unfold NormalizeAngle
  rw [NormalizeAngle.loopUp_of_nonneg h0, NormalizeAngle.loopDown_of_lt h1]

/-- Two values of `[0, 360)` that differ by a multiple of 360 are equal. -/
theorem eq_of_congr_mem {r s : ℚ} (hr0 : 0 ≤ r) (hr1 : r < 360) (hs0 : 0 ≤ s) (hs1 : s < 360)
    (k : ℤ) (h : r - s = 360 * (k : ℚ)) : r = s := by
  have hk1 : (-1 : ℚ) < (k : ℚ) := by linarith
  have hk2 : (k : ℚ) < 1 := by linarith
  have hk1i : (-1 : ℤ) < k := by exact_mod_cast hk1
  have hk2i : k < (1 : ℤ) := by exact_mod_cast hk2
  have hk0 : k = 0 := by omega
  rw [hk0] at h
  simp at h
  linarith

theorem GetAngleDifference.dLoopUp_of_pos {d : ℚ} (h : 0 < d) :
    GetAngleDifference.loopUp d = d := by
  rw [GetAngleDifference.loopUp, if_neg (not_le.mpr h)]

theorem GetAngleDifference.dLoopDown_of_le {d : ℚ} (h : d ≤ 360) :
    GetAngleDifference.loopDown d = d := by
  rw [GetAngleDifference.loopDown, if_neg (not_lt.mpr h)]

theorem GetAngleDifference.dLoopUp_sub (n : ℕ) (r : ℚ) (h0 : 0 < r) (h1 : r ≤ 360) :
    GetAngleDifference.loopUp (r - 360 * n) = r := by
  induction n with
  | zero => simpa using GetAngleDifference.dLoopUp_of_pos h0
  | succ m ih =>
    have hm : (0 : ℚ) ≤ m := Nat.cast_nonneg m
    have hneg : r - 360 * ((m + 1 : ℕ) : ℚ) ≤ 0 := by push_cast; linarith
    rw [GetAngleDifference.loopUp, if_pos hneg]
    have e : r - 360 * ((m + 1 : ℕ) : ℚ) + 360 = r - 360 * m := by push_cast; ring
    rw [e, ih]

theorem GetAngleDifference.dLoopDown_add (n : ℕ) (r : ℚ) (h0 : 0 < r) (h1 : r ≤ 360) :
    GetAngleDifference.loopDown (r + 360 * n) = r := by
  induction n with
  | zero => simpa using GetAngleDifference.dLoopDown_of_le h1
  | succ m ih =>
    have hm : (0 : ℚ) ≤ m := Nat.cast_nonneg m
    have hgt : r + 360 * ((m + 1 : ℕ) : ℚ) > 360 := by push_cast; linarith
    rw [GetAngleDifference.loopDown, if_pos hgt]
    have e : r + 360 * ((m + 1 : ℕ) : ℚ) - 360 = r + 360 * m := by push_cast; ring
    rw [e, ih]

/-- The two loops of `GetAngleDifference` send `r + 360 * k` to `r` when `r` is in `(0, 360]`. -/
theorem GetAngleDifference.loops_congr (r : ℚ) (h0 : 0 < r) (h1 : r ≤ 360) (k : ℤ) :
    GetAngleDifference.loopDown (GetAngleDifference.loopUp (r + 360 * (k : ℚ))) = r := by
  rcases le_or_lt 0 k with hk | hk
  · obtain ⟨n, hn⟩ := Int.eq_ofNat_of_zero_le hk
    have hn0 : (0 : ℚ) ≤ n := Nat.cast_nonneg n
    have hx : r + 360 * (k : ℚ) = r + 360 * (n : ℚ) := by rw [hn]; push_cast; ring
    rw [hx, GetAngleDifference.dLoopUp_of_pos (by linarith)]
    exact GetAngleDifference.dLoopDown_add n r h0 h1
  · obtain ⟨n, hn⟩ := Int.eq_ofNat_of_zero_le (le_of_lt (neg_pos.mpr hk))
    have hk2 : k = -(n : ℤ) := by omega
    have hx : r + 360 * (k : ℚ) = r - 360 * (n : ℚ) := by rw [hk2]; push_cast; ring
    rw [hx, GetAngleDifference.dLoopUp_sub n r h0 h1]
    exact GetAngleDifference.dLoopDown_of_le h1

/-- The representative of `d` modulo 360 in `(0, 360]`. -/
theorem ceil_rem_bounds (d : ℚ) :
    0 < d - 360 * ((⌈d / 360⌉ : ℚ) - 1) ∧ d - 360 * ((⌈d / 360⌉ : ℚ) - 1) ≤ 360 := by
  have h1 : d / 360 ≤ (⌈d / 360⌉ : ℚ) := Int.le_ceil _
  have h2 : (⌈d / 360⌉ : ℚ) < d / 360 + 1 := Int.ceil_lt_add_one _
  rw [div_le_iff₀ (by norm_num)] at h1
  rw [← sub_lt_iff_lt_add, lt_div_iff₀ (by norm_num)] at h2
  constructor <;> linarith

/-- Closed form of `GetAngleDifference` on distinct arguments. -/
theorem GetAngleDifference_eq {a b : ℚ} (h : a ≠ b) :
    GetAngleDifference a b = (b - a) - 360 * ((⌈(b - a) / 360⌉ : ℚ) - 1) := by
  obtain ⟨h0, h1⟩ := ceil_rem_bounds (b - a)
  unfold GetAngleDifference
  rw [if_neg h]
  have e : b - a = ((b - a) - 360 * ((⌈(b - a) / 360⌉ : ℚ) - 1))
      + 360 * (((⌈(b - a) / 360⌉ - 1 : ℤ)) : ℚ) := by push_cast; ring
  conv_lhs => rw [e]
  exact GetAngleDifference.loops_congr _ h0 h1 _

theorem GetAngleDifference_self (a : ℚ) : GetAngleDifference a a = 0 := by
  unfold GetAngleDifference; rw [if_pos rfl]

/-- Forward distance when the difference `b - a` is known modulo 360. -/
theorem GetAngleDifference_of_congr {a b r : ℚ} (h : a ≠ b) (h0 : 0 < r) (h1 : r ≤ 360)
    (k : ℤ) (hk : b - a = r + 360 * (k : ℚ)) : GetAngleDifference a b = r := by
  unfold GetAngleDifference
  rw [if_neg h]
  show GetAngleDifference.loopDown (GetAngleDifference.loopUp (b - a)) = r
  rw [hk]
  exact GetAngleDifference.loops_congr r h0 h1 k

/-! ## Array assignments and the `for` loops -/

theorem Cell.eq_of_fields {c d : Cell} (hv : c.value = d.value)
    (ha : ∀ i j, c.analog_clocks i j = d.analog_clocks i j) : c = d := by
  cases c with
  | mk cv ca =>
    cases d with
    | mk dv da =>
      simp only at hv ha
      subst hv
      have : ca = da := funext fun i => funext fun j => ha i j
      rw [this]

theorem Cell.setAC_value (c : Cell) (x : Fin 4) (y : Fin 6) (a : AnalogClock) :
    (c.setAC x y a).value = c.value := rfl

theorem Cell.setAC_apply (c : Cell) (x : Fin 4) (y : Fin 6) (a : AnalogClock)
    (i : Fin 4) (j : Fin 6) :
    (c.setAC x y a).analog_clocks i j = if i = x ∧ j = y then a else c.analog_clocks i j := by
  unfold Cell.setAC
  by_cases hi : i = x
  · subst hi
    by_cases hj : j = y
    · subst hj; simp
    · simp [Function.update_noteq hj, hj]
  · simp [Function.update_noteq hi, hi]

/-- Writing the hours field and then the minutes field of one position. -/
theorem Cell.setHours_setMinutes_apply (c : Cell) (x : Fin 4) (y : Fin 6) (h m : ℚ)
    (i : Fin 4) (j : Fin 6) :
    ((c.setHours x y h).setMinutes x y m).analog_clocks i j =
      if i = x ∧ j = y then ⟨h, m⟩ else c.analog_clocks i j := by
  unfold Cell.setMinutes Cell.setHours
  rw [Cell.setAC_apply, Cell.setAC_apply, Cell.setAC_apply]
  by_cases hij : i = x ∧ j = y
  · simp [hij]
  · simp [hij]

theorem Cell.setHours_setMinutes_value (c : Cell) (x : Fin 4) (y : Fin 6) (h m : ℚ) :
    ((c.setHours x y h).setMinutes x y m).value = c.value := rfl

/-- A loop over grid rows `ys` of column `x` whose body writes `g x y` at position `x`, `y`. -/
theorem fold_rows (f : Cell → Fin 4 → Fin 6 → Cell) (g : Fin 4 → Fin 6 → AnalogClock)
    (hv : ∀ c x y, (f c x y).value = c.value)
    (ha : ∀ c x y i j, (f c x y).analog_clocks i j =
      if i = x ∧ j = y then g x y else c.analog_clocks i j)
    (x : Fin 4) (ys : List (Fin 6)) (c : Cell) :
    (ys.foldl (fun c y => f c x y) c).value = c.value ∧
    ∀ i j, (ys.foldl (fun c y => f c x y) c).analog_clocks i j =
      if i = x ∧ j ∈ ys then g i j else c.analog_clocks i j := by
  induction ys generalizing c with
  | nil => simp
  | cons y ys ih =>
    obtain ⟨ihv, iha⟩ := ih (f c x y)
    refine ⟨by rw [List.foldl_cons, ihv, hv], fun i j => ?_⟩
    rw [List.foldl_cons, iha, ha]
    by_cases hi : i = x
    · subst hi
      by_cases hj : j ∈ ys
      · simp [hj]
      · by_cases hjy : j = y
        · subst hjy; simp [hj]
        · simp [hj, hjy]
    · simp [hi]

/-- The nested loops over columns `xs` and rows `ys`. -/
theorem fold_grid (f : Cell → Fin 4 → Fin 6 → Cell) (g : Fin 4 → Fin 6 → AnalogClock)
    (hv : ∀ c x y, (f c x y).value = c.value)
    (ha : ∀ c x y i j, (f c x y).analog_clocks i j =
      if i = x ∧ j = y then g x y else c.analog_clocks i j)
    (xs : List (Fin 4)) (ys : List (Fin 6)) (c : Cell) :
    (xs.foldl (fun c x => ys.foldl (fun c y => f c x y) c) c).value = c.value ∧
    ∀ i j, (xs.foldl (fun c x => ys.foldl (fun c y => f c x y) c) c).analog_clocks i j =
      if i ∈ xs ∧ j ∈ ys then g i j else c.analog_clocks i j := by
  induction xs generalizing c with
  | nil => simp
  | cons x xs ih =>
    obtain ⟨ihv, iha⟩ := ih (ys.foldl (fun c y => f c x y) c)
    obtain ⟨rv, ra⟩ := fold_rows f g hv ha x ys c
    refine ⟨by rw [List.foldl_cons, ihv, rv], fun i j => ?_⟩
    rw [List.foldl_cons, iha, ra]
    by_cases hj : j ∈ ys
    · by_cases hi : i ∈ xs
      · simp [hi, hj]
      · by_cases hix : i = x
        · subst hix; simp [hj]
        · simp [hi, hix, hj]
    · simp [hj]

/-- The nested loops over the whole grid write every position. -/
theorem fold_grid_full (f : Cell → Fin 4 → Fin 6 → Cell) (g : Fin 4 → Fin 6 → AnalogClock)
    (hv : ∀ c x y, (f c x y).value = c.value)
    (ha : ∀ c x y i j, (f c x y).analog_clocks i j =
      if i = x ∧ j = y then g x y else c.analog_clocks i j) (c : Cell) :
    (List.finRange 4).foldl (fun c x => (List.finRange 6).foldl (fun c y => f c x y) c) c
      = { value := c.value, analog_clocks := g } := by
  obtain ⟨v, a⟩ := fold_grid f g hv ha (List.finRange 4) (List.finRange 6) c
  refine Cell.eq_of_fields v fun i j => ?_
  rw [a]
  simp [List.mem_finRange]

/-- A loop over cell indices `l` whose body assigns `h i` to `cells[i]`. -/
theorem fold_cells (h : Fin 6 → Cell) (l : List (Fin 6)) (clock : DigitalClock) (j : Fin 6) :
    (l.foldl (fun clock i => clock.setCell i (h i)) clock).cells j =
      if j ∈ l then h j else clock.cells j := by
  induction l generalizing clock with
  | nil => simp
  | cons i l ih =>
    rw [List.foldl_cons, ih]
    by_cases hj : j ∈ l
    · simp [hj]
    · by_cases hji : j = i
      · subst hji; simp [hj, DigitalClock.setCell]
      · simp [hj, hji, DigitalClock.setCell, Function.update_noteq hji]

theorem fold_cells_full (h : Fin 6 → Cell) (clock : DigitalClock) (j : Fin 6) :
    ((List.finRange 6).foldl (fun clock i => clock.setCell i (h i)) clock).cells j = h j := by
  rw [fold_cells]
  simp [List.mem_finRange]

/-! ## Pointwise characterisations -/

theorem castInt_ANIM_DURATION : castInt ANIM_DURATION = 20 := by
  simp [castInt, ANIM_DURATION]

/-- Each cell of `GetClockToDraw` before the end of the animation. -/
theorem GetClockToDraw_cells (old_clock new_clock : DigitalClock) (frame : Int)
    (hf : frame < 20) (i : Fin 6) :
    (GetClockToDraw old_clock new_clock frame).cells i =
      { value := (new_clock.cells i).value,
        analog_clocks := fun x y =>
          ⟨InterpolateHand ((old_clock.cells i).analog_clocks x y).hours_hand_angle
              ((new_clock.cells i).analog_clocks x y).hours_hand_angle frame,
           InterpolateHand ((old_clock.cells i).analog_clocks x y).minutes_hand_angle
              ((new_clock.cells i).analog_clocks x y).minutes_hand_angle frame⟩ } := by
  have hc : ¬ frame ≥ castInt ANIM_DURATION := by
    rw [castInt_ANIM_DURATION]; omega
  unfold GetClockToDraw
  rw [if_neg hc]
  refine (fold_cells_full _ _ i).trans ?_
  exact fold_grid_full (GetClockToDraw.body (old_clock.cells i) (new_clock.cells i) frame) _
    (fun c x y => Cell.setHours_setMinutes_value c x y _ _)
    (fun c x y a b => Cell.setHours_setMinutes_apply c x y _ _ a b) _

theorem GetCellForNumber_eq (num : Int) :
    GetCellForNumber num =
      (GetCellForNumber.switchBody num).foldl (fun c e => c.setAC e.1 e.2.1 e.2.2)
        (restingCell num) := by
  unfold GetCellForNumber
  have h := fold_grid_full (fun c x y => (c.setHours x y 225).setMinutes x y 225)
    (fun _ _ => ⟨225, 225⟩)
    (fun c x y => Cell.setHours_setMinutes_value c x y _ _)
    (fun c x y a b => Cell.setHours_setMinutes_apply c x y _ _ a b)
    { Cell.zero with value := num }
  simp only [h]
  rfl

theorem foldl_setAC_value (l : List (Fin 4 × Fin 6 × AnalogClock)) (c : Cell) :
    (l.foldl (fun c e => c.setAC e.1 e.2.1 e.2.2) c).value = c.value := by
  induction l generalizing c with
  | nil => rfl
  | cons e l ih => rw [List.foldl_cons, ih, Cell.setAC_value]

theorem GetCellForNumber_value (num : Int) : (GetCellForNumber num).value = num := by
  rw [GetCellForNumber_eq, foldl_setAC_value]
  rfl

theorem switchBody_of_not_digit (num : Int) (h : num < 0 ∨ 9 < num) :
    GetCellForNumber.switchBody num = [] := by
  unfold GetCellForNumber.switchBody
  split <;> first | rfl | omega

/-- Each cell of `UpdateDigitalClock` is the table cell of the corresponding digit. -/
theorem UpdateDigitalClock_cells (clock : DigitalClock) (hours minutes seconds : Int)
    (i : Fin 6) :
    (UpdateDigitalClock clock hours minutes seconds).cells i =
      GetCellForNumber (UpdateDigitalClock.digits hours minutes seconds i) := by
  unfold UpdateDigitalClock
  exact fold_cells_full _ _ i

theorem build_cells (hours minutes seconds : Int) (i : Fin 6) :
    (build hours minutes seconds).cells i =
      GetCellForNumber (UpdateDigitalClock.digits hours minutes seconds i) :=
  UpdateDigitalClock_cells _ _ _ _ i

theorem InterpolateHand_self (a : ℚ) (frame : Int) : InterpolateHand a a frame = a := by
  unfold InterpolateHand
  simp only [GetAngleDifference_self]
  rw [if_pos (by norm_num)]

/-- The clamp branch of `GetClockToDraw`. -/
theorem GetClockToDraw_of_ge (old_clock new_clock : DigitalClock) (frame : Int) (hf : 20 ≤ frame) :
    GetClockToDraw old_clock new_clock frame = new_clock := by
  unfold GetClockToDraw
  rw [castInt_ANIM_DURATION, if_pos hf]

theorem InterpolateHand_of_lt {p t : ℚ} (frame : Int) (h : GetAngleDifference p t < 1 / 1000) :
    InterpolateHand p t frame = t := by
  unfold InterpolateHand
  simp only
  rw [if_pos h]

theorem InterpolateHand_of_ge {p t : ℚ} (frame : Int) (h : 1 / 1000 ≤ GetAngleDifference p t) :
    InterpolateHand p t frame =
      NormalizeAngle (p + GetAngleDifference p t / 20 * (frame : ℚ)) := by
  unfold InterpolateHand ANIM_DURATION
  simp only
  rw [if_neg (not_lt.mpr h)]

/-- Forward distance between two distinct normalised angles. -/
theorem GetAngleDifference_of_mem {a b : ℚ} (ha0 : 0 ≤ a) (ha1 : a < 360) (hb0 : 0 ≤ b)
    (hb1 : b < 360) (h : a ≠ b) :
    GetAngleDifference a b = if a < b then b - a else b - a + 360 := by
  by_cases hab : a < b
  · rw [if_pos hab]
    exact GetAngleDifference_of_congr h (by linarith) (by linarith) 0 (by simp)
  · rw [if_neg hab]
    have hlt : b < a := lt_of_le_of_ne (not_lt.mp hab) (Ne.symm h)
    exact GetAngleDifference_of_congr h (by linarith) (by linarith) (-1) (by push_cast; ring)

/-- Forward distance from `p` to the normalised angle `p + m`, for `0 < m < 360`. -/
theorem GetAngleDifference_NormalizeAngle_add (p m : ℚ) (hm0 : 0 < m) (hm1 : m < 360) :
    GetAngleDifference p (NormalizeAngle (p + m)) = m := by
  have hne : p ≠ NormalizeAngle (p + m) := by
    intro hp
    rw [NormalizeAngle_eq] at hp
    have h1 : (0 : ℚ) < (⌊(p + m) / 360⌋ : ℚ) := by linarith
    have h2 : (⌊(p + m) / 360⌋ : ℚ) < 1 := by linarith
    have h1i : (0 : ℤ) < ⌊(p + m) / 360⌋ := by exact_mod_cast h1
    have h2i : ⌊(p + m) / 360⌋ < (1 : ℤ) := by exact_mod_cast h2
    omega
  refine GetAngleDifference_of_congr hne hm0 hm1.le (-⌊(p + m) / 360⌋) ?_
  rw [NormalizeAngle_eq]
  push_cast
  ring

/-- Forward distance covered at frame `f` of an animation that is not snapped. -/
theorem GetAngleDifference_InterpolateHand {p t : ℚ} (hp0 : 0 ≤ p) (hp1 : p < 360)
    (ht0 : 0 ≤ t) (ht1 : t < 360) (hne : p ≠ t) (heps : 1 / 1000 ≤ GetAngleDifference p t)
    (f : Int) (hf0 : 0 ≤ f) (hf1 : f ≤ 20) :
    GetAngleDifference p (InterpolateHand p t f) = GetAngleDifference p t / 20 * (f : ℚ) := by
  have hD : GetAngleDifference p t < 360 := by
    rw [GetAngleDifference_of_mem hp0 hp1 ht0 ht1 hne]
    rcases lt_or_gt_of_ne hne with h | h
    · rw [if_pos h]; linarith
    · rw [if_neg (not_lt.mpr h.le)]; linarith
  have hD0 : 0 < GetAngleDifference p t := by linarith
  rw [InterpolateHand_of_ge f heps]
  have hf0q : (0 : ℚ) ≤ (f : ℚ) := by exact_mod_cast hf0
  have hf1q : (f : ℚ) ≤ 20 := by exact_mod_cast hf1
  rcases eq_or_lt_of_le hf0 with h0 | hpos
  · rw [← h0]
    simp only [Int.cast_zero, mul_zero, add_zero]
    rw [NormalizeAngle_of_mem hp0 hp1, GetAngleDifference_self]
  · have hposq : (0 : ℚ) < (f : ℚ) := by exact_mod_cast hpos
    apply GetAngleDifference_NormalizeAngle_add
    · positivity
    · nlinarith

/-! ## Facts about the digit table -/

theorem foldl_setAC_invariant (Q : AnalogClock → Prop) (l : List (Fin 4 × Fin 6 × AnalogClock))
    (c : Cell) (hl : ∀ e ∈ l, Q e.2.2) (hc : ∀ i j, Q (c.analog_clocks i j)) (i : Fin 4)
    (j : Fin 6) : Q ((l.foldl (fun c e => c.setAC e.1 e.2.1 e.2.2) c).analog_clocks i j) := by
  induction l generalizing c with
  | nil => exact hc i j
  | cons e l ih =>
    rw [List.foldl_cons]
    refine ih _ (fun e2 h2 => hl e2 (List.mem_cons_of_mem _ h2)) (fun a b => ?_)
    rw [Cell.setAC_apply]
    split
    · exact hl e (List.mem_cons_self _ _)
    · exact hc a b

theorem switchBody_tableAngle (num : Int) :
    ∀ e ∈ GetCellForNumber.switchBody num,
      tableAngle e.2.2.hours_hand_angle ∧ tableAngle e.2.2.minutes_hand_angle := by
  unfold GetCellForNumber.switchBody
  split <;>
    simp only [List.forall_mem_cons, List.not_mem_nil, false_implies, implies_true, and_true] <;>
    norm_num [tableAngle]

/-- Every hand angle of every table cell is one of 0, 90, 180, 225, 270. -/
theorem GetCellForNumber_tableAngle (num : Int) (x : Fin 4) (y : Fin 6) :
    tableAngle ((GetCellForNumber num).analog_clocks x y).hours_hand_angle ∧
    tableAngle ((GetCellForNumber num).analog_clocks x y).minutes_hand_angle := by
  rw [GetCellForNumber_eq]
  exact foldl_setAC_invariant
    (fun a => tableAngle a.hours_hand_angle ∧ tableAngle a.minutes_hand_angle) _ _
    (switchBody_tableAngle num) (fun _ _ => by simp [restingCell, tableAngle]) x y

theorem tableAngle_mem {a : ℚ} (h : tableAngle a) : 0 ≤ a ∧ a < 360 := by
  rcases h with h | h | h | h | h <;> subst h <;> norm_num

theorem GetCellForNumber_normalised (num : Int) (x : Fin 4) (y : Fin 6) :
    normalised ((GetCellForNumber num).analog_clocks x y).hours_hand_angle ∧
    normalised ((GetCellForNumber num).analog_clocks x y).minutes_hand_angle :=
  ⟨tableAngle_mem (GetCellForNumber_tableAngle num x y).1,
   tableAngle_mem (GetCellForNumber_tableAngle num x y).2⟩

/-- Every display produced by `build` has only angles of `[0, 360)`. -/
theorem build_normalised (hours minutes seconds : Int) :
    (build hours minutes seconds).normalised := by
  intro i x y
  rw [build_cells]
  exact GetCellForNumber_normalised _ x y

theorem GetCellForNumber_of_not_digit (num : Int) (h : num < 0 ∨ 9 < num) :
    GetCellForNumber num = restingCell num := by
  rw [GetCellForNumber_eq, switchBody_of_not_digit num h]
  rfl

theorem build_values (hours minutes seconds : Int) :
    (build hours minutes seconds).values =
      [Int.tdiv hours 10, Int.tmod hours 10, Int.tdiv minutes 10, Int.tmod minutes 10,
        Int.tdiv seconds 10, Int.tmod seconds 10] := by
  simp [DigitalClock.values, List.finRange, build_cells, GetCellForNumber_value,
    UpdateDigitalClock.digits]

theorem zero_3_0 : (GetCellForNumber 0).analog_clocks 3 0 = ⟨180, 270⟩ := by
  simp [GetCellForNumber_eq, GetCellForNumber.switchBody, Cell.setAC_apply, restingCell]

theorem one_3_0 : (GetCellForNumber 1).analog_clocks 3 0 = ⟨225, 225⟩ := by
  simp [GetCellForNumber_eq, GetCellForNumber.switchBody, Cell.setAC_apply, restingCell]

theorem build_10_0_0_cell5 : (build 10 0 0).cells 5 = GetCellForNumber 0 := by
  rw [build_cells]; exact congrArg GetCellForNumber (by decide)

theorem build_10_0_1_cell5 : (build 10 0 1).cells 5 = GetCellForNumber 1 := by
  rw [build_cells]; exact congrArg GetCellForNumber (by decide)

theorem GetAngleDifference_180_225 : GetAngleDifference 180 225 = 45 := by
  rw [GetAngleDifference_of_mem (by norm_num) (by norm_num) (by norm_num) (by norm_num)
    (by norm_num)]
  norm_num

theorem GetAngleDifference_270_225 : GetAngleDifference 270 225 = 315 := by
  rw [GetAngleDifference_of_mem (by norm_num) (by norm_num) (by norm_num) (by norm_num)
    (by norm_num)]
  norm_num

/-- A value of `[0, 360)` shifted by a multiple of 360 normalises to itself. -/
theorem NormalizeAngle_of_congr (r : ℚ) (k : ℤ) (h0 : 0 ≤ r) (h1 : r < 360) :
    NormalizeAngle (r + 360 * (k : ℚ)) = r := by
  obtain ⟨b0, b1⟩ := NormalizeAngle_bounds (r + 360 * (k : ℚ))
  refine eq_of_congr_mem b0 b1 h0 h1 (k - ⌊(r + 360 * (k : ℚ)) / 360⌋) ?_
  rw [NormalizeAngle_eq]
  push_cast
  ring

/-- At frame 10 a hand that is not snapped has covered half of its forward arc. -/
theorem halfway_of_ge {p t : ℚ} (hp : normalised p) (ht : normalised t) (hne : p ≠ t)
    (heps : 1 / 1000 ≤ GetAngleDifference p t) :
    GetAngleDifference p (InterpolateHand p t 10) = GetAngleDifference p t / 2 := by
  rw [GetAngleDifference_InterpolateHand hp.1 hp.2 ht.1 ht.2 hne heps 10 (by decide)
    (by decide)]
  push_cast
  ring

/-- A position that no entry of the list assigns keeps its content. -/
theorem foldl_setAC_unset (l : List (Fin 4 × Fin 6 × AnalogClock)) (c : Cell) (x : Fin 4)
    (y : Fin 6) (h : l.any (fun e => decide (e.1 = x ∧ e.2.1 = y)) = false) :
    (l.foldl (fun c e => c.setAC e.1 e.2.1 e.2.2) c).analog_clocks x y = c.analog_clocks x y := by
  induction l generalizing c with
  | nil => rfl
  | cons e l ih =>
    rw [List.any_cons, Bool.or_eq_false_iff] at h
    rw [List.foldl_cons, ih _ h.2, Cell.setAC_apply]
    have hne : ¬ (x = e.1 ∧ y = e.2.1) := by
      intro hxy
      have := h.1
      simp [hxy.1, hxy.2] at this
    rw [if_neg hne]

/-- A position that some entry of the list assigns holds the value of one of the entries. -/
theorem foldl_setAC_set (Q : AnalogClock → Prop) (l : List (Fin 4 × Fin 6 × AnalogClock))
    (c : Cell) (x : Fin 4) (y : Fin 6) (hl : ∀ e ∈ l, Q e.2.2)
    (h : l.any (fun e => decide (e.1 = x ∧ e.2.1 = y)) = true) :
    Q ((l.foldl (fun c e => c.setAC e.1 e.2.1 e.2.2) c).analog_clocks x y) := by
  induction l generalizing c with
  | nil => simp at h
  | cons e l ih =>
    rw [List.foldl_cons]
    by_cases hrest : l.any (fun e => decide (e.1 = x ∧ e.2.1 = y)) = true
    · exact ih _ (fun e2 h2 => hl e2 (List.mem_cons_of_mem _ h2)) hrest
    · have hrest2 : l.any (fun e => decide (e.1 = x ∧ e.2.1 = y)) = false :=
        Bool.eq_false_iff.mpr hrest
      rw [foldl_setAC_unset l _ x y hrest2, Cell.setAC_apply]
      rw [List.any_cons, hrest2, Bool.or_false] at h
      have he : e.1 = x ∧ e.2.1 = y := by simpa using h
      rw [if_pos ⟨he.1.symm, he.2.symm⟩]
      exact hl e (List.mem_cons_self _ _)

/-- A position that the `switch` does not assign holds the initial pose. -/
theorem GetCellForNumber_of_unset (num : Int) (x : Fin 4) (y : Fin 6)
    (h : explicitlySet num x y = false) :
    (GetCellForNumber num).analog_clocks x y = ⟨225, 225⟩ := by
  rw [GetCellForNumber_eq, foldl_setAC_unset _ _ x y h]
  rfl

theorem switchBody_onPose (num : Int) :
    ∀ e ∈ GetCellForNumber.switchBody num, onPose e.2.2 := by
  unfold GetCellForNumber.switchBody
  split <;>
    simp only [List.forall_mem_cons, List.not_mem_nil, false_implies, implies_true, and_true] <;>
    norm_num [onPose]

/-- A position that the `switch` assigns holds a lit pose. -/
theorem GetCellForNumber_of_set (num : Int) (x : Fin 4) (y : Fin 6)
    (h : explicitlySet num x y = true) :
    onPose ((GetCellForNumber num).analog_clocks x y) := by
  rw [GetCellForNumber_eq]
  exact foldl_setAC_set onPose _ _ x y (switchBody_onPose num) h

/-- The digit value of a drawn cell is that of the target cell, at every frame. -/
theorem GetClockToDraw_value (old_clock new_clock : DigitalClock) (frame : Int) (i : Fin 6) :
    ((GetClockToDraw old_clock new_clock frame).cells i).value = (new_clock.cells i).value := by
  rcases le_or_lt 20 frame with hf | hf
  · rw [GetClockToDraw_of_ge old_clock new_clock frame hf]
  · rw [GetClockToDraw_cells old_clock new_clock frame hf i]

/-! ## Facts about the render loop -/

theorem DigitalClock.eq_of_cells {c d : DigitalClock} (h : ∀ i, c.cells i = d.cells i) :
    c = d := by
  cases c with
  | mk cc =>
    cases d with
    | mk dc =>
      have : cc = dc := funext h
      rw [this]

/-- The function `UpdateDigitalClock` overwrites all six cells. -/
theorem UpdateDigitalClock_eq_build (clock : DigitalClock) (hours minutes seconds : Int) :
    UpdateDigitalClock clock hours minutes seconds = build hours minutes seconds :=
  DigitalClock.eq_of_cells fun i => by rw [UpdateDigitalClock_cells, build_cells]

/-- An iteration that observes a new second. -/
theorem mainLoopBody_of_change (s : LoopState) (inp : LoopInput)
    (h : inp.cur_sec ≠ s.last_second) :
    mainLoopBody s inp =
      { current_clock := build inp.tm_hour inp.tm_min inp.tm_sec
        old_clock := s.current_clock
        draw_clock :=
          GetClockToDraw s.current_clock (build inp.tm_hour inp.tm_min inp.tm_sec) 0
        last_second := inp.cur_sec
        frame_counter := 1 } := by
  unfold mainLoopBody
  simp only [if_pos h, UpdateDigitalClock_eq_build]
  rfl

/-- An iteration that observes the same second as the one before. -/
theorem mainLoopBody_of_same (s : LoopState) (inp : LoopInput)
    (h : inp.cur_sec = s.last_second) :
    mainLoopBody s inp =
      { current_clock := s.current_clock
        old_clock := s.old_clock
        draw_clock := GetClockToDraw s.old_clock s.current_clock s.frame_counter
        last_second := s.last_second
        frame_counter := s.frame_counter + 1 } := by
  unfold mainLoopBody
  simp only [ne_eq, h, not_true_eq_false, if_false]

theorem mainRun_cons (s : LoopState) (inp : LoopInput) (l : List LoopInput) :
    mainRun s (inp :: l) = mainRun (mainLoopBody s inp) l := rfl

/-- After `n + 1` iterations in the same second the counter has grown by `n + 1` and the last
frame drawn is the one of the counter plus `n`. -/
theorem mainRun_same_second (n : ℕ) (s : LoopState) (inp : LoopInput)
    (h : inp.cur_sec = s.last_second) :
    mainRun s (List.replicate (n + 1) inp) =
      { current_clock := s.current_clock
        old_clock := s.old_clock
        draw_clock := GetClockToDraw s.old_clock s.current_clock (s.frame_counter + n)
        last_second := s.last_second
        frame_counter := s.frame_counter + n + 1 } := by
  induction n generalizing s with
  | zero =>
    rw [List.replicate_succ, List.replicate_zero, mainRun_cons, mainLoopBody_of_same s inp h]
    simp [mainRun]
  | succ m ih =>
    rw [List.replicate_succ, mainRun_cons, mainLoopBody_of_same s inp h]
    refine (ih _ ?_).trans ?_
    · exact h
    · simp only [Nat.cast_add, Nat.cast_one]
      congr 2 <;> ring

theorem InterpolateHand_normalised (p : ℚ) {t : ℚ} (ht : normalised t) (frame : Int) :
    normalised (InterpolateHand p t frame) := by
  by_cases h : GetAngleDifference p t < 1 / 1000
  · rw [InterpolateHand_of_lt frame h]; exact ht
  · rw [InterpolateHand_of_ge frame (not_lt.mp h)]
    exact NormalizeAngle_bounds _

/-- A frame drawn toward a target with angles of `[0, 360)` has only such angles. -/
theorem GetClockToDraw_normalised (old_clock : DigitalClock) {new_clock : DigitalClock}
    (hn : new_clock.normalised) (frame : Int) :
    (GetClockToDraw old_clock new_clock frame).normalised := by
  rcases le_or_lt 20 frame with hf | hf
  · rw [GetClockToDraw_of_ge old_clock new_clock frame hf]; exact hn
  · intro i x y
    rw [GetClockToDraw_cells old_clock new_clock frame hf i]
    exact ⟨InterpolateHand_normalised _ (hn i x y).1 frame,
      InterpolateHand_normalised _ (hn i x y).2 frame⟩

theorem mainInit_normalised (hours minutes seconds : Int) :
    (mainInit hours minutes seconds).normalised := by
  unfold mainInit LoopState.normalised
  simp only [UpdateDigitalClock_eq_build]
  exact ⟨build_normalised _ _ _, build_normalised _ _ _, build_normalised _ _ _⟩

theorem mainLoopBody_normalised (s : LoopState) (inp : LoopInput) (hs : s.normalised) :
    (mainLoopBody s inp).normalised := by
  by_cases h : inp.cur_sec = s.last_second
  · rw [mainLoopBody_of_same s inp h]
    exact ⟨hs.1, hs.2.1, GetClockToDraw_normalised s.old_clock hs.1 s.frame_counter⟩
  · rw [mainLoopBody_of_change s inp h]
    exact ⟨build_normalised inp.tm_hour inp.tm_min inp.tm_sec, hs.1,
      GetClockToDraw_normalised s.current_clock
        (build_normalised inp.tm_hour inp.tm_min inp.tm_sec) 0⟩

theorem mainRun_normalised (inputs : List LoopInput) (s : LoopState) (hs : s.normalised) :
    (mainRun s inputs).normalised := by
  induction inputs generalizing s with
  | nil => exact hs
  | cons inp l ih =>
    rw [mainRun_cons]
    exact ih _ (mainLoopBody_normalised s inp hs)

/-- The state reached by the slow run: frame 10 of the animation from 10:00:00 to 10:00:01
has been drawn and the counter stands at 11. -/
theorem slowRunState_eq :
    slowRunState =
      { current_clock := build 10 0 1
        old_clock := build 10 0 0
        draw_clock := GetClockToDraw (build 10 0 0) (build 10 0 1) 10
        last_second := 1
        frame_counter := 11 } := by
  unfold slowRunState slowRunInputs
  rw [mainRun_cons, mainLoopBody_of_change _ _ (by decide)]
  have e : (11 : ℕ) = 10 + 1 := rfl
  rw [e, List.replicate_succ, mainRun_cons, mainLoopBody_of_change _ _ (by decide),
    mainRun_same_second 9 _ _ rfl]
  simp only [mainInit, UpdateDigitalClock_eq_build]
  norm_num

/-! ## Facts about the velocity of a hand -/

theorem NormalizeAngle_add_mul (x : ℚ) (k : ℤ) :
    NormalizeAngle (x + 360 * (k : ℚ)) = NormalizeAngle x := by
  rw [NormalizeAngle_eq, NormalizeAngle_eq]
  have e : (x + 360 * (k : ℚ)) / 360 = x / 360 + (k : ℚ) := by ring
  rw [e, Int.floor_add_int]
  push_cast
  ring

/-- Normalising before or after adding an amount gives the same normalised sum. -/
theorem NormalizeAngle_add_left (x m : ℚ) :
    NormalizeAngle (NormalizeAngle x + m) = NormalizeAngle (x + m) := by
  have e : NormalizeAngle x + m = (x + m) + 360 * ((-⌊x / 360⌋ : ℤ) : ℚ) := by
    rw [NormalizeAngle_eq]
    push_cast
    ring
  rw [e, NormalizeAngle_add_mul]

/-- Adding the whole forward distance to the start angle reaches the target angle. -/
theorem NormalizeAngle_add_distance {p t : ℚ} (hp : normalised p) (ht : normalised t)
    (hne : p ≠ t) : NormalizeAngle (p + GetAngleDifference p t) = t := by
  rw [GetAngleDifference_of_mem hp.1 hp.2 ht.1 ht.2 hne]
  split
  · have e : p + (t - p) = t := by ring
    rw [e, NormalizeAngle_of_mem ht.1 ht.2]
  · have e : p + (t - p + 360) = t + 360 * ((1 : ℤ) : ℚ) := by push_cast; ring
    rw [e, NormalizeAngle_of_congr t 1 ht.1 ht.2]

/-- Two consecutive positions of the unclamped linear motion are one step apart. -/
theorem GetAngleDifference_step (p d : ℚ) (f : Int) (hd0 : 0 < d) (hd1 : d < 360) :
    GetAngleDifference (NormalizeAngle (p + d * (f : ℚ)))
      (NormalizeAngle (p + d * ((f + 1 : Int) : ℚ))) = d := by
  have e : p + d * ((f + 1 : Int) : ℚ) = (p + d * (f : ℚ)) + d := by push_cast; ring
  rw [e, ← NormalizeAngle_add_left (p + d * (f : ℚ)) d]
  exact GetAngleDifference_NormalizeAngle_add _ d hd0 hd1

theorem handOut_of_lt (previous target : DigitalClock) (i : Fin 6) (x : Fin 4) (y : Fin 6)
    (minutes : Bool) (f : Int) (hf : f < 20) :
    handOut previous target i x y minutes f =
      InterpolateHand (((previous.cells i).analog_clocks x y).hand minutes)
        (((target.cells i).analog_clocks x y).hand minutes) f := by
  unfold handOut
  rw [GetClockToDraw_cells previous target f hf i]
  cases minutes <;> simp [AnalogClock.hand]

theorem handOut_of_ge (previous target : DigitalClock) (i : Fin 6) (x : Fin 4) (y : Fin 6)
    (minutes : Bool) (f : Int) (hf : 20 ≤ f) :
    handOut previous target i x y minutes f =
      ((target.cells i).analog_clocks x y).hand minutes := by
  unfold handOut
  rw [GetClockToDraw_of_ge previous target f hf]

/-! ## Rounding -/

theorem roundNE_intCast (n : ℤ) : roundNE (n : ℚ) = n := by
  unfold roundNE
  simp

theorem log_two_lt {q : ℚ} (hq : 0 < q) {x : ℤ} (h : q < (2 : ℚ) ^ x) : Int.log 2 q < x :=
  (Int.lt_zpow_iff_log_lt (R := ℚ) (b := 2) (by norm_num) (x := x) hq).mp (by simpa using h)

theorem le_log_two {q : ℚ} (hq : 0 < q) {x : ℤ} (h : (2 : ℚ) ^ x ≤ q) : x ≤ Int.log 2 q :=
  (Int.zpow_le_iff_le_log (R := ℚ) (b := 2) (by norm_num) (x := x) hq).mp (by simpa using h)

theorem log_two_eq {q : ℚ} {e : ℤ} (h1 : (2 : ℚ) ^ e ≤ q) (h2 : q < (2 : ℚ) ^ (e + 1)) :
    Int.log 2 q = e := by
  have hq : 0 < q := lt_of_lt_of_le (by positivity) h1
  have a := log_two_lt hq h2
  have b := le_log_two hq h1
  omega

/-- A value `m * 2 ^ j` whose significand `m` fits the precision and whose exponent is in
range is rounded to itself. -/
theorem Fmt.round_exact (fmt : Fmt) (m j : ℤ) (hm : |m| < 2 ^ fmt.prec)
    (hj : fmt.emin - ((fmt.prec : ℤ) - 1) ≤ j) (hmax : j + (fmt.prec : ℤ) ≤ fmt.emax + 1) :
    fmt.round ((m : ℚ) * 2 ^ j) = FP.fin ((m : ℚ) * 2 ^ j) := by
  have h2 : (2 : ℚ) ≠ 0 := by norm_num
  have hmq : |(m : ℚ)| < 2 ^ (fmt.prec : ℤ) := by
    rw [zpow_natCast]
    exact_mod_cast hm
  have habs : |(m : ℚ) * 2 ^ j| < (2 : ℚ) ^ (j + (fmt.prec : ℤ)) := by
    rw [abs_mul, abs_of_pos (by positivity : (0 : ℚ) < 2 ^ j), zpow_add₀ h2, mul_comm]
    exact mul_lt_mul_of_pos_left hmq (by positivity)
  have hbig : |(m : ℚ) * 2 ^ j| < (2 : ℚ) ^ (fmt.emax + 1) :=
    lt_of_lt_of_le habs (zpow_le_zpow_right₀ (by norm_num) hmax)
  by_cases hm0 : m = 0
  · subst hm0
    have hz : ¬ ((2 : ℚ) ^ (fmt.emax + 1) ≤ 0) := not_le.mpr (by positivity)
    simp [Fmt.round, roundNE, hz]
  have hpos : 0 < |(m : ℚ) * 2 ^ j| := by
    apply abs_pos.mpr
    exact mul_ne_zero (by exact_mod_cast hm0) (by positivity)
  have he : max (Int.log 2 |(m : ℚ) * 2 ^ j|) fmt.emin - ((fmt.prec : ℤ) - 1) ≤ j := by
    have := log_two_lt hpos habs
    rcases le_total (Int.log 2 |(m : ℚ) * 2 ^ j|) fmt.emin with h | h
    · rw [max_eq_right h]; omega
    · rw [max_eq_left h]; omega
  unfold Fmt.round Fmt.ulp
  generalize max (Int.log 2 |(m : ℚ) * 2 ^ j|) fmt.emin - ((fmt.prec : ℤ) - 1) = s at he
  obtain ⟨t, ht⟩ := Int.eq_ofNat_of_zero_le (sub_nonneg.mpr he)
  have hdiv : (m : ℚ) * 2 ^ j / 2 ^ s = ((m * 2 ^ t : ℤ) : ℚ) := by
    have hj2 : j = s + (t : ℤ) := by omega
    rw [hj2, zpow_add₀ h2, zpow_natCast]
    push_cast
    field_simp
    ring
  have hback : ((m * 2 ^ t : ℤ) : ℚ) * 2 ^ s = (m : ℚ) * 2 ^ j := by
    rw [← hdiv]
    field_simp
  simp only [hdiv, roundNE_intCast, hback]
  rw [if_neg (not_le.mpr hbig)]

/-- An integer multiple of `2 ^ (-k)` with a numerator of fewer than 24 bits is a `float`. -/
theorem round32_grid (k : ℕ) (m : ℤ) (hk : k ≤ 149) (hm : |m| < 2 ^ 24) :
    binary32.round ((m : ℚ) / 2 ^ k) = FP.fin ((m : ℚ) / 2 ^ k) := by
  have e : (m : ℚ) / 2 ^ k = (m : ℚ) * 2 ^ (-(k : ℤ)) := by
    rw [zpow_neg, zpow_natCast, div_eq_mul_inv]
  rw [e]
  exact Fmt.round_exact binary32 m (-(k : ℤ)) hm (by simp only [binary32]; omega)
    (by simp only [binary32]; omega)

/-- An integer multiple of `2 ^ (-k)` with a numerator of fewer than 53 bits is a `double`. -/
theorem round64_grid (k : ℕ) (m : ℤ) (hk : k ≤ 1074) (hm : |m| < 2 ^ 53) :
    binary64.round ((m : ℚ) / 2 ^ k) = FP.fin ((m : ℚ) / 2 ^ k) := by
  have e : (m : ℚ) / 2 ^ k = (m : ℚ) * 2 ^ (-(k : ℤ)) := by
    rw [zpow_neg, zpow_natCast, div_eq_mul_inv]
  rw [e]
  exact Fmt.round_exact binary64 m (-(k : ℤ)) hm (by simp only [binary64]; omega)
    (by simp only [binary64]; omega)

/-- Rounding of a value whose exponent `e` and nearest multiple `n` of the spacing are
given. -/
theorem Fmt.round_of_bounds (fmt : Fmt) (q : ℚ) (e n : ℤ) (hlo : (2 : ℚ) ^ e ≤ |q|)
    (hhi : |q| < (2 : ℚ) ^ (e + 1)) (hmin : fmt.emin ≤ e)
    (hn : roundNE (q / 2 ^ (e - ((fmt.prec : ℤ) - 1))) = n)
    (hov : |(n : ℚ) * 2 ^ (e - ((fmt.prec : ℤ) - 1))| < 2 ^ (fmt.emax + 1)) :
    fmt.round q = FP.fin ((n : ℚ) * 2 ^ (e - ((fmt.prec : ℤ) - 1))) := by
  unfold Fmt.round Fmt.ulp
  rw [log_two_eq hlo hhi, max_eq_left hmin]
  simp only [hn]
  rw [if_neg (not_le.mpr hov)]

theorem FP.le_fin (a b : ℚ) : FP.le (FP.fin a) (FP.fin b) = decide (a ≤ b) := by
  by_cases h : a ≤ b
  · rcases lt_or_eq_of_le h with h1 | h1
    · simp [FP.le, FP.lt, FP.eq, h, h1]
    · simp [FP.le, FP.lt, FP.eq, h1]
  · have h1 : ¬ a < b := fun hlt => h hlt.le
    have h2 : ¬ a = b := fun heq => h heq.le
    simp [FP.le, FP.lt, FP.eq, h, h1, h2]

theorem FP.lt_fin (a b : ℚ) : FP.lt (FP.fin a) (FP.fin b) = decide (a < b) := rfl

theorem FP.eq_fin (a b : ℚ) : FP.eq (FP.fin a) (FP.fin b) = decide (a = b) := rfl

theorem FP.add_fin (fmt : Fmt) (a b : ℚ) :
    FP.add fmt (FP.fin a) (FP.fin b) = fmt.round (a + b) := rfl

theorem FP.sub_fin (fmt : Fmt) (a b : ℚ) :
    FP.sub fmt (FP.fin a) (FP.fin b) = fmt.round (a - b) := by
  rw [sub_eq_add_neg]
  rfl

theorem FP.mul_fin (fmt : Fmt) (a b : ℚ) :
    FP.mul fmt (FP.fin a) (FP.fin b) = fmt.round (a * b) := rfl

theorem FP.div_fin (fmt : Fmt) (a b : ℚ) (hb : b ≠ 0) :
    FP.div fmt (FP.fin a) (FP.fin b) = fmt.round (a / b) := by
  simp [FP.div, hb]

/-! ## The loops in IEEE arithmetic on exactly representable values -/

theorem grid_le (k : ℕ) (m n : ℤ) : (m : ℚ) / 2 ^ k ≤ (n : ℚ) / 2 ^ k ↔ m ≤ n := by
  rw [div_le_div_iff_of_pos_right (by positivity : (0 : ℚ) < 2 ^ k)]
  exact Int.cast_le

theorem grid_lt (k : ℕ) (m n : ℤ) : (m : ℚ) / 2 ^ k < (n : ℚ) / 2 ^ k ↔ m < n := by
  rw [div_lt_div_iff_of_pos_right (by positivity : (0 : ℚ) < 2 ^ k)]
  exact Int.cast_lt

/-- The first loop of `GetAngleDifference` on a multiple of `2 ^ (-k)`: `n` exact additions
of 360. -/
theorem IEEE.GetAngleDifference.distUp_grid (k : ℕ) (hk : k ≤ 149) (C : ℤ)
    (hCq : (C : ℚ) / 2 ^ k = 360) (hC1 : C < 2 ^ 24) (mr : ℤ) (h0 : 0 < mr) (h1 : mr ≤ C)
    (n : ℕ) (hb : -(2 ^ 24 : ℤ) < mr - C * n) (fuel : ℕ) (hf : n + 1 ≤ fuel) :
    IEEE.GetAngleDifference.loopUp fuel (FP.fin (((mr - C * n : ℤ) : ℚ) / 2 ^ k)) =
      some (FP.fin ((mr : ℚ) / 2 ^ k)) := by
  induction n generalizing fuel with
  | zero =>
    obtain ⟨f, rfl⟩ : ∃ f, fuel = f + 1 := ⟨fuel - 1, by omega⟩
    have hpos : ¬ ((mr : ℚ) / 2 ^ k ≤ 0) := not_le.mpr (div_pos (by exact_mod_cast h0) (by positivity))
    simp [IEEE.GetAngleDifference.loopUp, FP.le_fin, hpos]
  | succ n ih =>
    obtain ⟨f, rfl⟩ : ∃ f, fuel = f + 1 := ⟨fuel - 1, by omega⟩
    have hCn : (0 : ℤ) ≤ C * n := mul_nonneg (by omega) (Int.natCast_nonneg n)
    have hexp : C * ((n + 1 : ℕ) : ℤ) = C * n + C := by push_cast; ring
    have hle : (((mr - C * ((n + 1 : ℕ) : ℤ) : ℤ) : ℚ)) / 2 ^ k ≤ 0 := by
      apply div_nonpos_of_nonpos_of_nonneg _ (by positivity)
      have : mr - C * ((n + 1 : ℕ) : ℤ) ≤ 0 := by rw [hexp]; omega
      exact_mod_cast this
    have hsum : (((mr - C * ((n + 1 : ℕ) : ℤ) : ℤ) : ℚ)) / 2 ^ k + 360 =
        (((mr - C * n : ℤ) : ℚ)) / 2 ^ k := by
      rw [← hCq, hexp]; push_cast; ring
    rw [IEEE.GetAngleDifference.loopUp, FP.le_fin, decide_eq_true hle, if_pos rfl, FP.add_fin,
      hsum, round32_grid k _ hk (by rw [abs_lt]; rw [hexp] at hb; omega)]
    exact ih (by rw [hexp] at hb; omega) f (by omega)

/-- The second loop of `GetAngleDifference` on a multiple of `2 ^ (-k)`: `n` exact
subtractions of 360. -/
theorem IEEE.GetAngleDifference.distDown_grid (k : ℕ) (hk : k ≤ 149) (C : ℤ)
    (hCq : (C : ℚ) / 2 ^ k = 360) (mr : ℤ) (h0 : 0 < mr) (h1 : mr ≤ C)
    (n : ℕ) (hb : mr + C * n < 2 ^ 24) (fuel : ℕ) (hf : n + 1 ≤ fuel) :
    IEEE.GetAngleDifference.loopDown fuel (FP.fin (((mr + C * n : ℤ) : ℚ) / 2 ^ k)) =
      some (FP.fin ((mr : ℚ) / 2 ^ k)) := by
  induction n generalizing fuel with
  | zero =>
    obtain ⟨f, rfl⟩ : ∃ f, fuel = f + 1 := ⟨fuel - 1, by omega⟩
    have hle : ¬ (360 < (mr : ℚ) / 2 ^ k) := by
      rw [← hCq, grid_lt]; omega
    simp [IEEE.GetAngleDifference.loopDown, FP.lt_fin, hle]
  | succ n ih =>
    obtain ⟨f, rfl⟩ : ∃ f, fuel = f + 1 := ⟨fuel - 1, by omega⟩
    have hCn : (0 : ℤ) ≤ C * n := mul_nonneg (by omega) (Int.natCast_nonneg n)
    have hexp : C * ((n + 1 : ℕ) : ℤ) = C * n + C := by push_cast; ring
    have hgt : 360 < (((mr + C * ((n + 1 : ℕ) : ℤ) : ℤ) : ℚ)) / 2 ^ k := by
      rw [← hCq, grid_lt, hexp]; omega
    have hdiff : (((mr + C * ((n + 1 : ℕ) : ℤ) : ℤ) : ℚ)) / 2 ^ k - 360 =
        (((mr + C * n : ℤ) : ℚ)) / 2 ^ k := by
      rw [← hCq, hexp]; push_cast; ring
    rw [IEEE.GetAngleDifference.loopDown, FP.lt_fin, decide_eq_true hgt, if_pos rfl, FP.sub_fin,
      hdiff, round32_grid k _ hk (by rw [abs_lt]; rw [hexp] at hb; omega)]
    exact ih (by rw [hexp] at hb; omega) f (by omega)

/-- The first loop of `NormalizeAngle` on a multiple of `2 ^ (-k)`: `n` exact additions of
360. -/
theorem IEEE.NormalizeAngle.normUp_grid (k : ℕ) (hk : k ≤ 1074) (C : ℤ)
    (hCq : (C : ℚ) / 2 ^ k = 360) (hC1 : C < 2 ^ 53) (mr : ℤ) (h0 : 0 ≤ mr) (h1 : mr < C)
    (n : ℕ) (hb : -(2 ^ 53 : ℤ) < mr - C * n) (fuel : ℕ) (hf : n + 1 ≤ fuel) :
    IEEE.NormalizeAngle.loopUp fuel (FP.fin (((mr - C * n : ℤ) : ℚ) / 2 ^ k)) =
      some (FP.fin ((mr : ℚ) / 2 ^ k)) := by
  induction n generalizing fuel with
  | zero =>
    obtain ⟨f, rfl⟩ : ∃ f, fuel = f + 1 := ⟨fuel - 1, by omega⟩
    have hpos : ¬ ((mr : ℚ) / 2 ^ k < 0) :=
      not_lt.mpr (div_nonneg (by exact_mod_cast h0) (by positivity))
    simp [IEEE.NormalizeAngle.loopUp, FP.lt_fin, hpos]
  | succ n ih =>
    obtain ⟨f, rfl⟩ : ∃ f, fuel = f + 1 := ⟨fuel - 1, by omega⟩
    have hCn : (0 : ℤ) ≤ C * n := mul_nonneg (by omega) (Int.natCast_nonneg n)
    have hexp : C * ((n + 1 : ℕ) : ℤ) = C * n + C := by push_cast; ring
    have hlt : (((mr - C * ((n + 1 : ℕ) : ℤ) : ℤ) : ℚ)) / 2 ^ k < 0 := by
      apply div_neg_of_neg_of_pos _ (by positivity)
      have : mr - C * ((n + 1 : ℕ) : ℤ) < 0 := by rw [hexp]; omega
      exact_mod_cast this
    have hsum : (((mr - C * ((n + 1 : ℕ) : ℤ) : ℤ) : ℚ)) / 2 ^ k + 360 =
        (((mr - C * n : ℤ) : ℚ)) / 2 ^ k := by
      rw [← hCq, hexp]; push_cast; ring
    rw [IEEE.NormalizeAngle.loopUp, FP.lt_fin, decide_eq_true hlt, if_pos rfl, FP.add_fin,
      hsum, round64_grid k _ hk (by rw [abs_lt]; rw [hexp] at hb; omega)]
    exact ih (by rw [hexp] at hb; omega) f (by omega)

/-- The second loop of `NormalizeAngle` on a multiple of `2 ^ (-k)`: `n` exact subtractions
of 360. -/
theorem IEEE.NormalizeAngle.normDown_grid (k : ℕ) (hk : k ≤ 1074) (C : ℤ)
    (hCq : (C : ℚ) / 2 ^ k = 360) (mr : ℤ) (h0 : 0 ≤ mr) (h1 : mr < C)
    (n : ℕ) (hb : mr + C * n < 2 ^ 53) (fuel : ℕ) (hf : n + 1 ≤ fuel) :
    IEEE.NormalizeAngle.loopDown fuel (FP.fin (((mr + C * n : ℤ) : ℚ) / 2 ^ k)) =
      some (FP.fin ((mr : ℚ) / 2 ^ k)) := by
  induction n generalizing fuel with
  | zero =>
    obtain ⟨f, rfl⟩ : ∃ f, fuel = f + 1 := ⟨fuel - 1, by omega⟩
    have hle : ¬ (360 ≤ (mr : ℚ) / 2 ^ k) := by
      rw [← hCq, grid_le]; omega
    simp [IEEE.NormalizeAngle.loopDown, FP.le_fin, hle]
  | succ n ih =>
    obtain ⟨f, rfl⟩ : ∃ f, fuel = f + 1 := ⟨fuel - 1, by omega⟩
    have hCn : (0 : ℤ) ≤ C * n := mul_nonneg (by omega) (Int.natCast_nonneg n)
    have hexp : C * ((n + 1 : ℕ) : ℤ) = C * n + C := by push_cast; ring
    have hge : 360 ≤ (((mr + C * ((n + 1 : ℕ) : ℤ) : ℤ) : ℚ)) / 2 ^ k := by
      rw [← hCq, grid_le, hexp]; omega
    have hdiff : (((mr + C * ((n + 1 : ℕ) : ℤ) : ℤ) : ℚ)) / 2 ^ k - 360 =
        (((mr + C * n : ℤ) : ℚ)) / 2 ^ k := by
      rw [← hCq, hexp]; push_cast; ring
    rw [IEEE.NormalizeAngle.loopDown, FP.le_fin, decide_eq_true hge, if_pos rfl, FP.sub_fin,
      hdiff, round64_grid k _ hk (by rw [abs_lt]; rw [hexp] at hb; omega)]
    exact ih (by rw [hexp] at hb; omega) f (by omega)

theorem IEEE.NormalizeAngle.normUp_of_nonneg (fuel : ℕ) (x : ℚ) (hx : 0 ≤ x) :
    IEEE.NormalizeAngle.loopUp (fuel + 1) (FP.fin x) = some (FP.fin x) := by
  simp [IEEE.NormalizeAngle.loopUp, FP.lt_fin, not_lt.mpr hx]

theorem IEEE.GetAngleDifference.loopUp_of_pos (fuel : ℕ) (x : ℚ) (hx : 0 < x) :
    IEEE.GetAngleDifference.loopUp (fuel + 1) (FP.fin x) = some (FP.fin x) := by
  simp [IEEE.GetAngleDifference.loopUp, FP.le_fin, not_le.mpr hx]

theorem turn_grid_lt (k : ℕ) (hk : k ≤ 44) : (360 * 2 ^ k : ℤ) < 2 ^ 53 := by
  have h : (2 : ℤ) ^ k ≤ 2 ^ 44 := pow_le_pow_right₀ (by norm_num) hk
  have e : (2 : ℤ) ^ 44 = 17592186044416 := by norm_num
  have e2 : (2 : ℤ) ^ 53 = 9007199254740992 := by norm_num
  omega

theorem turn_grid_lt_float (k : ℕ) (hk : k ≤ 15) : (360 * 2 ^ k : ℤ) < 2 ^ 24 := by
  have h : (2 : ℤ) ^ k ≤ 2 ^ 15 := pow_le_pow_right₀ (by norm_num) hk
  have e : (2 : ℤ) ^ 15 = 32768 := by norm_num
  have e2 : (2 : ℤ) ^ 24 = 16777216 := by norm_num
  omega

theorem turn_grid_cast (k : ℕ) : ((360 * 2 ^ k : ℤ) : ℚ) / 2 ^ k = 360 := by
  push_cast
  field_simp

/-- On a `double` that is an integer multiple of `2 ^ (-k)`, `k ≤ 44`, every operation of
`NormalizeAngle` is exact: with enough iterations allowed the IEEE function returns the
exact remainder modulo 360. -/
theorem ieee_NormalizeAngle_grid (k : ℕ) (hk : k ≤ 44) (m : ℤ) (hm : |m| < 2 ^ 53) (fuel : ℕ)
    (hf : (⌊(m : ℚ) / 2 ^ k / 360⌋).natAbs + 1 ≤ fuel) :
    IEEE.NormalizeAngle fuel (FP.fin ((m : ℚ) / 2 ^ k)) =
      some (FP.fin (NormalizeAngle ((m : ℚ) / 2 ^ k))) := by
  have hC1 := turn_grid_lt k hk
  have hCq := turn_grid_cast k
  generalize (360 * 2 ^ k : ℤ) = C at hC1 hCq
  obtain ⟨b0, b1⟩ := floor_rem_bounds ((m : ℚ) / 2 ^ k)
  rw [NormalizeAngle_eq]
  generalize ⌊(m : ℚ) / 2 ^ k / 360⌋ = j at hf b0 b1 ⊢
  have hr : (m : ℚ) / 2 ^ k - 360 * (j : ℚ) = ((m - C * j : ℤ) : ℚ) / 2 ^ k := by
    rw [← hCq]; push_cast; field_simp
  rw [hr] at b0 b1 ⊢
  have h0 : 0 ≤ m - C * j := by
    have := (grid_le k 0 (m - C * j)).mp (by simpa using b0)
    exact this
  have h1 : m - C * j < C := by
    have := (grid_lt k (m - C * j) C).mp (by rw [hCq]; exact b1)
    exact this
  rw [abs_lt] at hm
  obtain ⟨f, rfl⟩ : ∃ f, fuel = f + 1 := ⟨fuel - 1, by omega⟩
  unfold IEEE.NormalizeAngle
  rcases le_or_lt 0 j with hj | hj
  · obtain ⟨n, rfl⟩ := Int.eq_ofNat_of_zero_le hj
    have hx : (0 : ℚ) ≤ (m : ℚ) / 2 ^ k := by
      apply div_nonneg _ (by positivity)
      have hCn : (0 : ℤ) ≤ C * n := mul_nonneg (by omega) (Int.natCast_nonneg n)
      have : (0 : ℤ) ≤ m := by omega
      exact_mod_cast this
    rw [IEEE.NormalizeAngle.normUp_of_nonneg f _ hx, Option.some_bind]
    have e : (m : ℚ) / 2 ^ k = (((m - C * n) + C * n : ℤ) : ℚ) / 2 ^ k := by
      congr 2; ring
    rw [e]
    exact IEEE.NormalizeAngle.normDown_grid k (by omega) C hCq (m - C * n) h0 h1 n (by omega)
      (f + 1) (by simp at hf; omega)
  · obtain ⟨n, hn⟩ := Int.eq_ofNat_of_zero_le (le_of_lt (neg_pos.mpr hj))
    have hjn : j = -(n : ℤ) := by omega
    subst hjn
    have hmr : m - C * -(n : ℤ) = m + C * n := by ring
    rw [hmr] at h0 h1 ⊢
    have e : (m : ℚ) / 2 ^ k = (((m + C * n) - C * n : ℤ) : ℚ) / 2 ^ k := by
      congr 2; ring
    rw [e, IEEE.NormalizeAngle.normUp_grid k (by omega) C hCq hC1 (m + C * n) h0 h1 n
      (by have : m + C * n - C * n = m := by ring
          omega) (f + 1) (by simp at hf; omega), Option.some_bind]
    have e2 : ((m + C * n : ℤ) : ℚ) / 2 ^ k
        = (((m + C * n) + C * (0 : ℕ) : ℤ) : ℚ) / 2 ^ k := by simp
    rw [e2]
    have := IEEE.NormalizeAngle.normDown_grid k (by omega) C hCq (m + C * n) h0 h1 0
      (by simp; omega) (f + 1) (by omega)
    simpa using this

theorem IEEE.GetAngleDifference.loopDown_of_le (fuel : ℕ) (x : ℚ) (hx : x ≤ 360) :
    IEEE.GetAngleDifference.loopDown (fuel + 1) (FP.fin x) = some (FP.fin x) := by
  simp [IEEE.GetAngleDifference.loopDown, FP.lt_fin, not_lt.mpr hx]

/-- On two values that are integer multiples of `2 ^ (-k)`, `k ≤ 15`, and whose difference
has a numerator of fewer than 24 bits, every operation of `GetAngleDifference` is exact: with
enough iterations allowed the IEEE function returns the exact forward distance. -/
theorem ieee_GetAngleDifference_grid (k : ℕ) (hk : k ≤ 15) (ma mb : ℤ)
    (hdm : |mb - ma| < 2 ^ 24) (fuel : ℕ)
    (hf : (⌈((mb : ℚ) / 2 ^ k - (ma : ℚ) / 2 ^ k) / 360⌉ - 1).natAbs + 1 ≤ fuel) :
    IEEE.GetAngleDifference fuel (FP.fin ((ma : ℚ) / 2 ^ k)) (FP.fin ((mb : ℚ) / 2 ^ k)) =
      some (FP.fin (GetAngleDifference ((ma : ℚ) / 2 ^ k) ((mb : ℚ) / 2 ^ k))) := by
  by_cases heq : (ma : ℚ) / 2 ^ k = (mb : ℚ) / 2 ^ k
  · rw [heq, GetAngleDifference_self]
    simp [IEEE.GetAngleDifference, FP.eq_fin]
  have hC1 := turn_grid_lt_float k hk
  have hCq := turn_grid_cast k
  generalize (360 * 2 ^ k : ℤ) = C at hC1 hCq
  obtain ⟨b0, b1⟩ := ceil_rem_bounds ((mb : ℚ) / 2 ^ k - (ma : ℚ) / 2 ^ k)
  rw [GetAngleDifference_eq heq]
  have hd : (mb : ℚ) / 2 ^ k - (ma : ℚ) / 2 ^ k = ((mb - ma : ℤ) : ℚ) / 2 ^ k := by
    push_cast; ring
  unfold IEEE.GetAngleDifference
  rw [FP.eq_fin, decide_eq_false heq]
  simp only [Bool.false_eq_true, if_false]
  rw [FP.sub_fin, hd, round32_grid k _ (by omega) hdm]
  rw [hd] at hf b0 b1
  have ecast : ((⌈((mb - ma : ℤ) : ℚ) / 2 ^ k / 360⌉ : ℤ) : ℚ) - 1
      = ((⌈((mb - ma : ℤ) : ℚ) / 2 ^ k / 360⌉ - 1 : ℤ) : ℚ) := by
    push_cast; ring
  rw [ecast] at b0 b1 ⊢
  generalize ⌈((mb - ma : ℤ) : ℚ) / 2 ^ k / 360⌉ - 1 = j at hf b0 b1 ⊢
  generalize mb - ma = m at hdm b0 b1 ⊢
  have hr : (m : ℚ) / 2 ^ k - 360 * (j : ℚ) = ((m - C * j : ℤ) : ℚ) / 2 ^ k := by
    rw [← hCq]; push_cast; field_simp
  rw [hr] at b0 b1 ⊢
  have h0 : 0 < m - C * j := (grid_lt k 0 (m - C * j)).mp (by simpa using b0)
  have h1 : m - C * j ≤ C := (grid_le k (m - C * j) C).mp (by rw [hCq]; exact b1)
  rw [abs_lt] at hdm
  obtain ⟨f, rfl⟩ : ∃ f, fuel = f + 1 := ⟨fuel - 1, by omega⟩
  rcases le_or_lt 0 j with hj | hj
  · obtain ⟨n, rfl⟩ := Int.eq_ofNat_of_zero_le hj
    have hCn : (0 : ℤ) ≤ C * n := mul_nonneg (by omega) (Int.natCast_nonneg n)
    have hx : (0 : ℚ) < (m : ℚ) / 2 ^ k := by
      apply div_pos _ (by positivity)
      have : (0 : ℤ) < m := by omega
      exact_mod_cast this
    rw [IEEE.GetAngleDifference.loopUp_of_pos f _ hx, Option.some_bind]
    have e : (m : ℚ) / 2 ^ k = (((m - C * n) + C * n : ℤ) : ℚ) / 2 ^ k := by
      congr 2; ring
    rw [e]
    exact IEEE.GetAngleDifference.distDown_grid k (by omega) C hCq (m - C * n) h0 h1 n
      (by omega) (f + 1) (by simp at hf; omega)
  · obtain ⟨n, hn⟩ := Int.eq_ofNat_of_zero_le (le_of_lt (neg_pos.mpr hj))
    have hjn : j = -(n : ℤ) := by omega
    subst hjn
    have hmr : m - C * -(n : ℤ) = m + C * n := by ring
    rw [hmr] at h0 h1 ⊢
    have e : (m : ℚ) / 2 ^ k = (((m + C * n) - C * n : ℤ) : ℚ) / 2 ^ k := by
      congr 2; ring
    rw [e, IEEE.GetAngleDifference.distUp_grid k (by omega) C hCq hC1 (m + C * n) h0 h1 n
      (by have : m + C * n - C * n = m := by ring
          omega) (f + 1) (by simp at hf; omega), Option.some_bind]
    refine IEEE.GetAngleDifference.loopDown_of_le f _ ?_
    rw [← hCq, grid_le]
    exact h1

/-- The forward distance between two multiples of `2 ^ (-k)` of `[0, 360)` takes at most one
iteration of the first loop. -/
theorem ieee_GetAngleDifference_turn (k : ℕ) (hk : k ≤ 15) (ma mb : ℤ) (ha0 : 0 ≤ ma)
    (ha1 : ma < 360 * 2 ^ k) (hb0 : 0 ≤ mb) (hb1 : mb < 360 * 2 ^ k) (fuel : ℕ)
    (hf : 2 ≤ fuel) :
    IEEE.GetAngleDifference fuel (FP.fin ((ma : ℚ) / 2 ^ k)) (FP.fin ((mb : ℚ) / 2 ^ k)) =
      some (FP.fin (GetAngleDifference ((ma : ℚ) / 2 ^ k) ((mb : ℚ) / 2 ^ k))) := by
  have hC1 := turn_grid_lt_float k hk
  have hCq := turn_grid_cast k
  apply ieee_GetAngleDifference_grid k hk ma mb (by rw [abs_lt]; omega)
  have hd : (mb : ℚ) / 2 ^ k - (ma : ℚ) / 2 ^ k = ((mb - ma : ℤ) : ℚ) / 2 ^ k := by
    push_cast; ring
  have hlo : (-1 : ℤ) < ⌈((mb : ℚ) / 2 ^ k - (ma : ℚ) / 2 ^ k) / 360⌉ := by
    rw [Int.lt_ceil, hd, lt_div_iff₀ (by norm_num)]
    have : ((-(360 * 2 ^ k) : ℤ) : ℚ) / 2 ^ k < ((mb - ma : ℤ) : ℚ) / 2 ^ k := by
      rw [grid_lt]; omega
    have e : ((-(360 * 2 ^ k) : ℤ) : ℚ) / 2 ^ k = -360 := by
      rw [Int.cast_neg, neg_div, hCq]
    rw [e] at this
    push_cast at this ⊢
    linarith
  have hhi : ⌈((mb : ℚ) / 2 ^ k - (ma : ℚ) / 2 ^ k) / 360⌉ ≤ 1 := by
    rw [Int.ceil_le, hd, div_le_iff₀ (by norm_num)]
    have : ((mb - ma : ℤ) : ℚ) / 2 ^ k ≤ ((360 * 2 ^ k : ℤ) : ℚ) / 2 ^ k := by
      rw [grid_le]; omega
    rw [hCq] at this
    push_cast at this ⊢
    linarith
  omega

/-- The normalisation of a multiple of `2 ^ (-k)` of `[0, 720)` takes at most one iteration
of the second loop. -/
theorem ieee_NormalizeAngle_turn (k : ℕ) (hk : k ≤ 43) (m : ℤ) (h0 : 0 ≤ m)
    (h1 : m < 720 * 2 ^ k) (fuel : ℕ) (hf : 2 ≤ fuel) :
    IEEE.NormalizeAngle fuel (FP.fin ((m : ℚ) / 2 ^ k)) =
      some (FP.fin (NormalizeAngle ((m : ℚ) / 2 ^ k))) := by
  have hp : (2 : ℤ) ^ k ≤ 2 ^ 43 := pow_le_pow_right₀ (by norm_num) hk
  have e43 : (2 : ℤ) ^ 43 = 8796093022208 := by norm_num
  have e53 : (2 : ℤ) ^ 53 = 9007199254740992 := by norm_num
  apply ieee_NormalizeAngle_grid k (by omega) m (by rw [abs_lt]; omega)
  have hlo : (0 : ℤ) ≤ ⌊(m : ℚ) / 2 ^ k / 360⌋ := by
    apply Int.floor_nonneg.mpr
    apply div_nonneg (div_nonneg (by exact_mod_cast h0) (by positivity)) (by norm_num)
  have hhi : ⌊(m : ℚ) / 2 ^ k / 360⌋ < 2 := by
    rw [Int.floor_lt, div_lt_iff₀ (by norm_num)]
    have : (m : ℚ) / 2 ^ k < ((720 * 2 ^ k : ℤ) : ℚ) / 2 ^ k := by
      rw [grid_lt]; omega
    have e : ((720 * 2 ^ k : ℤ) : ℚ) / 2 ^ k = 720 := by
      push_cast; field_simp
    rw [e] at this
    push_cast
    linarith
  omega

theorem round32_of_eq (q : ℚ) (k : ℕ) (m : ℤ) (hq : q = (m : ℚ) / 2 ^ k) (hk : k ≤ 149)
    (hm : |m| < 2 ^ 24) : binary32.round q = FP.fin q := by
  rw [hq]; exact round32_grid k m hk hm

theorem round64_of_eq (q : ℚ) (k : ℕ) (m : ℤ) (hq : q = (m : ℚ) / 2 ^ k) (hk : k ≤ 1074)
    (hm : |m| < 2 ^ 53) : binary64.round q = FP.fin q := by
  rw [hq]; exact round64_grid k m hk hm

/-- The constant `0.001f`. -/
theorem round32_thousandth : binary32.round (1 / 1000) = FP.fin (8589935 / 8589934592) := by
  have h := Fmt.round_of_bounds binary32 (1 / 1000) (-10) 8589935 (by norm_num [abs_of_pos])
    (by norm_num [abs_of_pos]) (by norm_num [binary32])
    (by
      have hfl : ⌊((1 : ℚ) / 1000 / 2 ^ ((-10 : ℤ) - (((binary32.prec : ℕ) : ℤ) - 1)))⌋ = 8589934 := by
        rw [Int.floor_eq_iff]; norm_num [binary32]
      unfold roundNE
      rw [hfl]
      norm_num [binary32])
    (by norm_num [binary32, abs_of_pos])
  rw [h]
  norm_num [binary32]

theorem exactAngle_grid {p : ℚ} (hp : exactAngle p) :
    ∃ m : ℤ, 0 ≤ m ∧ m < 294912 ∧ p = ((20 * m : ℤ) : ℚ) / 2 ^ 14 := by
  obtain ⟨m, h0, h1, rfl⟩ := hp
  exact ⟨m, h0, h1, by push_cast; norm_num; ring⟩

theorem exactAngle_normalised {p : ℚ} (hp : exactAngle p) : normalised p := by
  obtain ⟨m, h0, h1, rfl⟩ := hp
  have a : (0 : ℚ) ≤ m := by exact_mod_cast h0
  have b : (m : ℚ) < 294912 := by exact_mod_cast h1
  constructor
  · positivity
  · rw [div_lt_iff₀ (by norm_num)]; linarith

theorem exactAngle_isFloat {p : ℚ} (hp : exactAngle p) : binary32.round p = FP.fin p := by
  obtain ⟨m, h0, h1, hm⟩ := exactAngle_grid hp
  exact round32_of_eq p 14 (20 * m) hm (by norm_num) (by rw [abs_lt]; omega)

/-- The forward distance between two distinct exact angles is a positive multiple of
5/4096 below 360. -/
theorem exactAngle_distance {p t : ℚ} (hp : exactAngle p) (ht : exactAngle t) (hne : p ≠ t) :
    ∃ c : ℤ, 0 < c ∧ c < 294912 ∧ GetAngleDifference p t = 5 * (c : ℚ) / 4096 := by
  have np := exactAngle_normalised hp
  have nt := exactAngle_normalised ht
  rw [GetAngleDifference_of_mem np.1 np.2 nt.1 nt.2 hne]
  obtain ⟨a, a0, a1, rfl⟩ := hp
  obtain ⟨b, b0, b1, rfl⟩ := ht
  have hab : a ≠ b := fun h => hne (by rw [h])
  by_cases hlt : 5 * (a : ℚ) / 4096 < 5 * (b : ℚ) / 4096
  · rw [if_pos hlt]
    have hlt2 : (a : ℚ) < b := by
      rw [div_lt_div_iff_of_pos_right (by norm_num)] at hlt; linarith
    have hlt3 : a < b := by exact_mod_cast hlt2
    exact ⟨b - a, by omega, by omega, by push_cast; ring⟩
  · rw [if_neg hlt]
    have hle2 : (b : ℚ) ≤ a := by
      rw [not_lt, div_le_div_iff_of_pos_right (by norm_num)] at hlt; linarith
    have hle3 : b ≤ a := by exact_mod_cast hle2
    exact ⟨b - a + 294912, by omega, by omega, by push_cast; ring⟩

/-- On exact angles and frames 0 to 20 every operation of `InterpolateHand` is exact: the
IEEE function returns the value of the exact-arithmetic function. -/
theorem ieee_InterpolateHand_exact (p t : ℚ) (hp : exactAngle p) (ht : exactAngle t) (f : Int)
    (hf0 : 0 ≤ f) (hf1 : f ≤ 20) (fuel : ℕ) (hfuel : 2 ≤ fuel) :
    IEEE.InterpolateHand fuel (FP.fin p) (FP.fin t) f = some (FP.fin (InterpolateHand p t f)) := by
  have hgad : IEEE.GetAngleDifference fuel (FP.fin p) (FP.fin t) =
      some (FP.fin (GetAngleDifference p t)) := by
    obtain ⟨a, a0, a1, ha⟩ := exactAngle_grid hp
    obtain ⟨b, b0, b1, hb⟩ := exactAngle_grid ht
    rw [ha, hb]
    exact ieee_GetAngleDifference_turn 14 (by norm_num) (20 * a) (20 * b) (by omega)
      (by norm_num; omega) (by omega) (by norm_num; omega) fuel hfuel
  unfold IEEE.InterpolateHand
  rw [hgad, Option.some_bind, round32_thousandth, FP.lt_fin]
  by_cases hpt : p = t
  · subst hpt
    rw [GetAngleDifference_self, InterpolateHand_self]
    simp
  obtain ⟨c, c0, c1, hc⟩ := exactAngle_distance hp ht hpt
  obtain ⟨a, a0, a1, ha⟩ := exactAngle_grid hp
  have hcq0 : (1 : ℚ) ≤ c := by exact_mod_cast c0
  have hge : ¬ (GetAngleDifference p t < 8589935 / 8589934592) := by
    rw [hc, not_lt, le_div_iff₀ (by norm_num)]
    linarith
  have hge2 : (1 : ℚ) / 1000 ≤ GetAngleDifference p t := by
    rw [hc, le_div_iff₀ (by norm_num)]
    linarith
  rw [decide_eq_false hge, InterpolateHand_of_ge f hge2]
  simp only [Bool.false_eq_true, if_false]
  have hw0 : 0 ≤ c * f := mul_nonneg (by omega) hf0
  have hw1 : c * f ≤ 294912 * 20 := mul_le_mul (by omega) hf1 hf0 (by norm_num)
  have estep : GetAngleDifference p t / 20 = ((c : ℤ) : ℚ) / 2 ^ 14 := by
    rw [hc]; norm_num; ring
  have emoved : GetAngleDifference p t / 20 * (f : ℚ) = ((c * f : ℤ) : ℚ) / 2 ^ 14 := by
    rw [estep]; push_cast; ring
  have esum : p + GetAngleDifference p t / 20 * (f : ℚ) = ((20 * a + c * f : ℤ) : ℚ) / 2 ^ 14 := by
    rw [emoved, ha]; push_cast; ring
  have eframe : (f : ℚ) = ((f : ℤ) : ℚ) / 2 ^ 0 := by simp
  rw [FP.div_fin _ _ _ (by norm_num),
    round32_of_eq _ 14 c estep (by norm_num) (by rw [abs_lt]; omega),
    round32_of_eq (f : ℚ) 0 f eframe (by norm_num) (by rw [abs_lt]; omega),
    FP.mul_fin, round32_of_eq _ 14 (c * f) emoved (by norm_num) (by rw [abs_lt]; omega),
    FP.add_fin, round32_of_eq _ 14 (20 * a + c * f) esum (by norm_num) (by rw [abs_lt]; omega)]
  have hna : IEEE.NormalizeAngle fuel (FP.fin (p + GetAngleDifference p t / 20 * (f : ℚ))) =
      some (FP.fin (NormalizeAngle (p + GetAngleDifference p t / 20 * (f : ℚ)))) := by
    rw [esum]
    exact ieee_NormalizeAngle_turn 14 (by norm_num) (20 * a + c * f) (by omega)
      (by norm_num; omega) fuel hfuel
  rw [hna, Option.map_some']
  congr 1
  obtain ⟨n0, n1⟩ := NormalizeAngle_bounds (p + GetAngleDifference p t / 20 * (f : ℚ))
  have hform : NormalizeAngle (p + GetAngleDifference p t / 20 * (f : ℚ)) =
      ((20 * a + c * f - 5898240 * ⌊(p + GetAngleDifference p t / 20 * (f : ℚ)) / 360⌋ : ℤ) : ℚ)
        / 2 ^ 14 := by
    rw [NormalizeAngle_eq, esum]; push_cast; ring
  generalize 20 * a + c * f - 5898240 * ⌊(p + GetAngleDifference p t / 20 * (f : ℚ)) / 360⌋ = M
    at hform
  rw [hform] at n0 n1
  have i0 : 0 ≤ M := by
    rw [le_div_iff₀ (by norm_num), zero_mul] at n0
    exact_mod_cast n0
  have i1 : M < 5898240 := by
    rw [div_lt_iff₀ (by norm_num)] at n1
    norm_num at n1
    exact_mod_cast n1
  exact round32_of_eq _ 14 M hform (by norm_num) (by rw [abs_lt]; omega)

/-! ## The display functions in IEEE arithmetic -/

/-- A loop whose body always returns behaves like the loop over the returned values. -/
theorem foldlM_some {α β : Type} (f : β → α → Option β) (g : β → α → β) (l : List α)
    (h : ∀ b a, f b a = some (g b a)) (b : β) : l.foldlM f b = some (l.foldl g b) := by
  induction l generalizing b with
  | nil => rfl
  | cons a l ih =>
    rw [List.foldlM_cons, h b a, List.foldl_cons]
    exact ih (g b a)

theorem ieee_drawHand_exact (p t : ℚ) (hp : exactAngle p) (ht : exactAngle t) (f : Int)
    (hf0 : 0 ≤ f) (hf1 : f ≤ 20) (fuel : ℕ) (hfuel : 2 ≤ fuel) :
    IEEE.drawHand fuel p t f = some (InterpolateHand p t f) := by
  unfold IEEE.drawHand FP.toFloat
  simp only [exactAngle_isFloat hp, exactAngle_isFloat ht]
  rw [ieee_InterpolateHand_exact p t hp ht f hf0 hf1 fuel hfuel]
  rfl

/-- On displays of exact angles the IEEE interpolation of a cell returns the cell of the
exact-arithmetic loops. -/
theorem ieee_cell_exact (oldCell newCell : Cell)
    (ho : ∀ x y, exactAngle (oldCell.analog_clocks x y).hours_hand_angle ∧
      exactAngle (oldCell.analog_clocks x y).minutes_hand_angle)
    (hn : ∀ x y, exactAngle (newCell.analog_clocks x y).hours_hand_angle ∧
      exactAngle (newCell.analog_clocks x y).minutes_hand_angle)
    (f : Int) (hf0 : 0 ≤ f) (hf1 : f ≤ 20) (fuel : ℕ) (hfuel : 2 ≤ fuel) :
    IEEE.GetClockToDraw.cell fuel oldCell newCell f =
      some ((List.finRange 4).foldl
        (fun c x =>
          (List.finRange 6).foldl (fun c y => GetClockToDraw.body oldCell newCell f c x y) c)
        { Cell.zero with value := newCell.value }) := by
  unfold IEEE.GetClockToDraw.cell
  apply foldlM_some
  intro c x
  apply foldlM_some
  intro c y
  unfold IEEE.GetClockToDraw.body GetClockToDraw.body
  simp only [ieee_drawHand_exact _ _ (ho x y).1 (hn x y).1 f hf0 hf1 fuel hfuel,
    ieee_drawHand_exact _ _ (ho x y).2 (hn x y).2 f hf0 hf1 fuel hfuel, Option.some_bind]

/-- On displays of exact angles and frames from 0 on, `GetClockToDraw` in IEEE arithmetic
returns the display of the exact-arithmetic function. -/
theorem ieee_GetClockToDraw_exact (previous target : DigitalClock) (hp : previous.exact)
    (ht : target.exact) (f : Int) (hf0 : 0 ≤ f) (fuel : ℕ) (hfuel : 2 ≤ fuel) :
    IEEE.GetClockToDraw fuel previous target f = some (GetClockToDraw previous target f) := by
  unfold IEEE.GetClockToDraw GetClockToDraw
  by_cases hc : f ≥ castInt ANIM_DURATION
  · rw [if_pos hc, if_pos hc]
  · rw [if_neg hc, if_neg hc]
    have hf1 : f ≤ 20 := by
      rw [castInt_ANIM_DURATION] at hc; omega
    apply foldlM_some
    intro result i
    rw [ieee_cell_exact _ _ (hp i) (ht i) f hf0 hf1 fuel hfuel]
    rfl

theorem tableAngle_exact {a : ℚ} (h : tableAngle a) : exactAngle a := by
  rcases h with h | h | h | h | h <;> subst h
  · exact ⟨0, by norm_num, by norm_num, by norm_num⟩
  · exact ⟨73728, by norm_num, by norm_num, by norm_num⟩
  · exact ⟨147456, by norm_num, by norm_num, by norm_num⟩
  · exact ⟨184320, by norm_num, by norm_num, by norm_num⟩
  · exact ⟨221184, by norm_num, by norm_num, by norm_num⟩

/-- Every display produced by `build` has only exact angles. -/
theorem build_exact (hours minutes seconds : Int) : (build hours minutes seconds).exact := by
  intro i x y
  rw [build_cells]
  exact ⟨tableAngle_exact (GetCellForNumber_tableAngle _ x y).1,
    tableAngle_exact (GetCellForNumber_tableAngle _ x y).2⟩

theorem mainInit_exact (hours minutes seconds : Int) :
    (mainInit hours minutes seconds).exact := by
  unfold mainInit LoopState.exact
  simp only [UpdateDigitalClock_eq_build]
  exact ⟨build_exact _ _ _, build_exact _ _ _, le_rfl⟩

theorem mainLoopBody_exact (s : LoopState) (inp : LoopInput) (hs : s.exact) :
    (mainLoopBody s inp).exact := by
  by_cases h : inp.cur_sec = s.last_second
  · rw [mainLoopBody_of_same s inp h]
    exact ⟨hs.1, hs.2.1, by have := hs.2.2; show 0 ≤ s.frame_counter + 1; omega⟩
  · rw [mainLoopBody_of_change s inp h]
    exact ⟨build_exact inp.tm_hour inp.tm_min inp.tm_sec, hs.1, (by decide : (0 : Int) ≤ 1)⟩

/-- On a state with exact displays one iteration of the loop in IEEE arithmetic returns the
state of the exact-arithmetic iteration. -/
theorem ieee_mainLoopBody_exact (s : LoopState) (inp : LoopInput) (hs : s.exact) (fuel : ℕ)
    (hfuel : 2 ≤ fuel) : IEEE.mainLoopBody fuel s inp = some (mainLoopBody s inp) := by
  unfold IEEE.mainLoopBody mainLoopBody
  by_cases h : inp.cur_sec ≠ s.last_second
  · simp only [if_pos h, UpdateDigitalClock_eq_build]
    rw [ieee_GetClockToDraw_exact s.current_clock
      (build inp.tm_hour inp.tm_min inp.tm_sec) hs.1
      (build_exact inp.tm_hour inp.tm_min inp.tm_sec) 0 le_rfl fuel hfuel]
    rfl
  · simp only [if_neg h]
    rw [ieee_GetClockToDraw_exact s.old_clock s.current_clock hs.2.1 hs.1 s.frame_counter
      hs.2.2 fuel hfuel]
    rfl

/-- Every run of the loop from the state in which `main` enters it returns in IEEE arithmetic
the state of the exact-arithmetic run. -/
theorem ieee_mainRun_exact (inputs : List LoopInput) (s : LoopState) (hs : s.exact) (fuel : ℕ)
    (hfuel : 2 ≤ fuel) : IEEE.mainRun fuel s inputs = some (mainRun s inputs) := by
  induction inputs generalizing s with
  | nil => rfl
  | cons inp l ih =>
    unfold IEEE.mainRun
    rw [List.foldlM_cons, ieee_mainLoopBody_exact s inp hs fuel hfuel, mainRun_cons]
    exact ih (mainLoopBody s inp) (mainLoopBody_exact s inp hs)

/-! ## Cells that do not change -/

/-- A hand whose two angles are the same `float` is drawn at that angle, whatever the
frame. -/
theorem ieee_drawHand_same (q : ℚ) (hq : isFloat q) (fuel : ℕ) (f : Int) :
    IEEE.drawHand fuel q q f = some q := by
  unfold IEEE.drawHand FP.toFloat
  simp only [show binary32.round q = FP.fin q from hq]
  unfold IEEE.InterpolateHand IEEE.GetAngleDifference
  rw [FP.eq_fin, decide_eq_true rfl, if_pos rfl, Option.some_bind, round32_thousandth,
    FP.lt_fin, decide_eq_true (by norm_num), if_pos rfl]
  rfl

/-- A cell whose hands are all `float` values is drawn unchanged when previous and target
hold it both. -/
theorem ieee_cell_same (c : Cell)
    (hc : ∀ x y, isFloat (c.analog_clocks x y).hours_hand_angle ∧
      isFloat (c.analog_clocks x y).minutes_hand_angle) (fuel : ℕ) (f : Int) :
    IEEE.GetClockToDraw.cell fuel c c f = some c := by
  unfold IEEE.GetClockToDraw.cell
  have h := foldlM_some
    (fun d x =>
      (List.finRange 6).foldlM (fun d y => IEEE.GetClockToDraw.body fuel c c f d x y) d)
    (fun d x =>
      (List.finRange 6).foldl
        (fun d y =>
          (d.setHours x y (c.analog_clocks x y).hours_hand_angle).setMinutes x y
            (c.analog_clocks x y).minutes_hand_angle) d)
    (List.finRange 4)
    (fun d x => by
      apply foldlM_some
      intro d y
      unfold IEEE.GetClockToDraw.body
      simp only [ieee_drawHand_same _ (hc x y).1, ieee_drawHand_same _ (hc x y).2,
        Option.some_bind])
    { Cell.zero with value := c.value }
  rw [h]
  refine congrArg some ?_
  refine (fold_grid_full
    (fun d x y => (d.setHours x y (c.analog_clocks x y).hours_hand_angle).setMinutes x y
      (c.analog_clocks x y).minutes_hand_angle)
    (fun x y => ⟨(c.analog_clocks x y).hours_hand_angle, (c.analog_clocks x y).minutes_hand_angle⟩)
    (fun d x y => Cell.setHours_setMinutes_value d x y _ _)
    (fun d x y a b => Cell.setHours_setMinutes_apply d x y _ _ a b) _).trans ?_
  exact Cell.eq_of_fields rfl (fun _ _ => rfl)

/-- When the loop over the cells returns a display, each cell of that display is the cell
returned for its index. -/
theorem foldlM_cells_inv (h : Fin 6 → Option Cell) (l : List (Fin 6)) (c0 out : DigitalClock)
    (hout : l.foldlM (fun result i => (h i).map fun c => result.setCell i c) c0 = some out) :
    (∀ i ∈ l, h i = some (out.cells i)) ∧ (∀ i, i ∉ l → out.cells i = c0.cells i) := by
  induction l generalizing c0 with
  | nil =>
    simp only [List.foldlM_nil] at hout
    have : c0 = out := by simpa using hout
    subst this
    simp
  | cons a l ih =>
    rw [List.foldlM_cons] at hout
    cases ha : h a with
    | none => simp [ha] at hout
    | some ca =>
      simp only [ha, Option.map_some', Option.some_bind] at hout
      obtain ⟨ih1, ih2⟩ := ih (c0.setCell a ca) hout
      constructor
      · intro i hi
        rcases List.mem_cons.mp hi with rfl | hi2
        · by_cases hmem : i ∈ l
          · exact ih1 i hmem
          · rw [ih2 i hmem, ha]
            simp [DigitalClock.setCell]
        · exact ih1 i hi2
      · intro i hi
        have hia : i ≠ a := fun e => hi (by rw [e]; exact List.mem_cons_self _ _)
        have hil : i ∉ l := fun e => hi (List.mem_cons_of_mem _ e)
        rw [ih2 i hil]
        simp [DigitalClock.setCell, Function.update_noteq hia]

/-- When `GetClockToDraw` returns a display before the end of the animation, each cell of it
is the cell returned by the interpolation of that cell. -/
theorem ieee_GetClockToDraw_cells (fuel : ℕ) (old_clock new_clock out : DigitalClock) (f : Int)
    (hf : f < 20) (hout : IEEE.GetClockToDraw fuel old_clock new_clock f = some out)
    (i : Fin 6) :
    IEEE.GetClockToDraw.cell fuel (old_clock.cells i) (new_clock.cells i) f =
      some (out.cells i) := by
  unfold IEEE.GetClockToDraw at hout
  rw [if_neg (by rw [castInt_ANIM_DURATION]; omega)] at hout
  exact (foldlM_cells_inv
    (fun i => IEEE.GetClockToDraw.cell fuel (old_clock.cells i) (new_clock.cells i) f)
    (List.finRange 6) DigitalClock.zero out hout).1 i (List.mem_finRange i)

/-! ## Constant velocity in exact arithmetic -/

/-- In exact arithmetic the hand moves at constant angular velocity up to and including its
arrival: the angle at a frame `f` in 0..19 is `NormalizeAngle (p + D / 20 * f)`, the angle at
frame 20 is `t`, and every two consecutive frames are at forward distance `D / 20`. -/
theorem exact_constant_velocity (previous target : DigitalClock) (i : Fin 6) (x : Fin 4)
    (y : Fin 6) (minutes : Bool)
    (hp : normalised (((previous.cells i).analog_clocks x y).hand minutes))
    (ht : normalised (((target.cells i).analog_clocks x y).hand minutes))
    (hne : ((previous.cells i).analog_clocks x y).hand minutes ≠
      ((target.cells i).analog_clocks x y).hand minutes)
    (heps : 1 / 1000 ≤ GetAngleDifference (((previous.cells i).analog_clocks x y).hand minutes)
      (((target.cells i).analog_clocks x y).hand minutes)) :
    (∀ f : Int, 0 ≤ f → f < 20 →
      handOut previous target i x y minutes f =
        NormalizeAngle (((previous.cells i).analog_clocks x y).hand minutes +
          GetAngleDifference (((previous.cells i).analog_clocks x y).hand minutes)
            (((target.cells i).analog_clocks x y).hand minutes) / 20 * (f : ℚ))) ∧
    handOut previous target i x y minutes 20 =
      ((target.cells i).analog_clocks x y).hand minutes ∧
    (∀ f : Int, 0 ≤ f → f < 20 →
      GetAngleDifference (handOut previous target i x y minutes f)
        (handOut previous target i x y minutes (f + 1)) =
      GetAngleDifference (((previous.cells i).analog_clocks x y).hand minutes)
        (((target.cells i).analog_clocks x y).hand minutes) / 20) := by
  have hfr : ∀ f : Int, f < 20 → handOut previous target i x y minutes f =
      InterpolateHand (((previous.cells i).analog_clocks x y).hand minutes)
        (((target.cells i).analog_clocks x y).hand minutes) f :=
    fun f hf => handOut_of_lt previous target i x y minutes f hf
  have h20 : handOut previous target i x y minutes 20 =
      ((target.cells i).analog_clocks x y).hand minutes :=
    handOut_of_ge previous target i x y minutes 20 le_rfl
  generalize handOut previous target i x y minutes = out at hfr h20 ⊢
  generalize ((previous.cells i).analog_clocks x y).hand minutes = p at hp hne heps hfr ⊢
  generalize ((target.cells i).analog_clocks x y).hand minutes = t at ht hne heps hfr h20 ⊢
  have hD : GetAngleDifference p t < 360 := by
    rw [GetAngleDifference_of_mem hp.1 hp.2 ht.1 ht.2 hne]
    rcases lt_or_gt_of_ne hne with h | h
    · rw [if_pos h]; linarith [hp.1, ht.2]
    · rw [if_neg (not_lt.mpr h.le)]; linarith
  have hD0 : 0 < GetAngleDifference p t := by linarith
  have hout : ∀ f : Int, 0 ≤ f → f < 20 →
      out f = NormalizeAngle (p + GetAngleDifference p t / 20 * (f : ℚ)) := by
    intro f _ hf
    rw [hfr f hf, InterpolateHand_of_ge f heps]
  refine ⟨hout, h20, fun f hf0 hf1 => ?_⟩
  have key := GetAngleDifference_step p (GetAngleDifference p t / 20) f (by positivity)
    (by linarith)
  rw [hout f hf0 hf1]
  rcases lt_or_eq_of_le (show f + 1 ≤ 20 by omega) with h | h
  · rw [hout (f + 1) (by omega) h]
    exact key
  · have e : p + GetAngleDifference p t / 20 * ((f + 1 : Int) : ℚ) = p + GetAngleDifference p t := by
      rw [h]; push_cast; ring
    rw [e, NormalizeAngle_add_distance hp ht hne] at key
    rw [h, h20]
    exact key

/-! ## Exact angles: the interpolation in IEEE arithmetic is the exact one -/

theorem exactAngle_ge_eps {p t : ℚ} (hp : exactAngle p) (ht : exactAngle t) (hne : p ≠ t) :
    1 / 1000 ≤ GetAngleDifference p t := by
  obtain ⟨c, c0, c1, hc⟩ := exactAngle_distance hp ht hne
  have hcq0 : (1 : ℚ) ≤ c := by exact_mod_cast c0
  rw [hc, le_div_iff₀ (by norm_num)]
  linarith

/-- The angle interpolated between two exact angles at any frame is a multiple of
`2 ^ (-14)` in `[0, 360)`. -/
theorem exact_InterpolateHand_grid (p t : ℚ) (hp : exactAngle p) (ht : exactAngle t)
    (f : Int) :
    ∃ M : ℤ, 0 ≤ M ∧ M < 360 * 2 ^ 14 ∧ InterpolateHand p t f = (M : ℚ) / 2 ^ 14 := by
  by_cases hpt : p = t
  · subst hpt
    rw [InterpolateHand_self]
    obtain ⟨a, a0, a1, ha⟩ := exactAngle_grid hp
    exact ⟨20 * a, by omega, by norm_num; omega, ha⟩
  obtain ⟨c, c0, c1, hc⟩ := exactAngle_distance hp ht hpt
  obtain ⟨a, a0, a1, ha⟩ := exactAngle_grid hp
  rw [InterpolateHand_of_ge f (exactAngle_ge_eps hp ht hpt)]
  have esum : p + GetAngleDifference p t / 20 * (f : ℚ) = ((20 * a + c * f : ℤ) : ℚ) / 2 ^ 14 := by
    rw [hc, ha]; push_cast; ring
  obtain ⟨n0, n1⟩ := NormalizeAngle_bounds (p + GetAngleDifference p t / 20 * (f : ℚ))
  have hform : NormalizeAngle (p + GetAngleDifference p t / 20 * (f : ℚ)) =
      ((20 * a + c * f - 5898240 * ⌊(p + GetAngleDifference p t / 20 * (f : ℚ)) / 360⌋ : ℤ) : ℚ)
        / 2 ^ 14 := by
    rw [NormalizeAngle_eq, esum]; push_cast; ring
  generalize 20 * a + c * f - 5898240 * ⌊(p + GetAngleDifference p t / 20 * (f : ℚ)) / 360⌋ = M
    at hform
  rw [hform] at n0 n1
  have i0 : 0 ≤ M := by
    rw [le_div_iff₀ (by norm_num), zero_mul] at n0
    exact_mod_cast n0
  have i1 : M < 5898240 := by
    rw [div_lt_iff₀ (by norm_num)] at n1
    norm_num at n1
    exact_mod_cast n1
  exact ⟨M, i0, by norm_num; exact i1, hform⟩

/-- At frame 0 the exact interpolation between two exact angles is the previous angle. -/
theorem exact_InterpolateHand_zero (p t : ℚ) (hp : exactAngle p) (ht : exactAngle t) :
    InterpolateHand p t 0 = p := by
  by_cases hpt : p = t
  · subst hpt; exact InterpolateHand_self p 0
  · rw [InterpolateHand_of_ge 0 (exactAngle_ge_eps hp ht hpt)]
    simp only [Int.cast_zero, mul_zero, add_zero]
    exact NormalizeAngle_of_mem (exactAngle_normalised hp).1 (exactAngle_normalised hp).2

/-- The forward distance from an exact angle to the angle interpolated at a frame in 0..20,
computed in IEEE arithmetic, is the exact one. -/
theorem ieee_arc_exact (p t : ℚ) (hp : exactAngle p) (ht : exactAngle t) (f : Int)
    (hf0 : 0 ≤ f) (hf1 : f ≤ 20) (fuel : ℕ) (hfuel : 2 ≤ fuel) :
    IEEE.arc fuel (FP.fin p) (FP.fin t) f =
      some (FP.fin (GetAngleDifference p (InterpolateHand p t f))) := by
  unfold IEEE.arc
  rw [ieee_InterpolateHand_exact p t hp ht f hf0 hf1 fuel hfuel, Option.some_bind]
  obtain ⟨M, m0, m1, hM⟩ := exact_InterpolateHand_grid p t hp ht f
  obtain ⟨a, a0, a1, ha⟩ := exactAngle_grid hp
  rw [hM, ha]
  exact ieee_GetAngleDifference_turn 14 (by norm_num) (20 * a) M (by omega) (by norm_num; omega)
    m0 m1 fuel hfuel

theorem ieee_GetAngleDifference_exact (p t : ℚ) (hp : exactAngle p) (ht : exactAngle t)
    (fuel : ℕ) (hfuel : 2 ≤ fuel) :
    IEEE.GetAngleDifference fuel (FP.fin p) (FP.fin t) =
      some (FP.fin (GetAngleDifference p t)) := by
  obtain ⟨a, a0, a1, ha⟩ := exactAngle_grid hp
  obtain ⟨b, b0, b1, hb⟩ := exactAngle_grid ht
  rw [ha, hb]
  exact ieee_GetAngleDifference_turn 14 (by norm_num) (20 * a) (20 * b) (by omega)
    (by norm_num; omega) (by omega) (by norm_num; omega) fuel hfuel

theorem ieee_handOut_exact (previous target : DigitalClock) (hp : previous.exact)
    (ht : target.exact) (i : Fin 6) (x : Fin 4) (y : Fin 6) (minutes : Bool) (f : Int)
    (hf0 : 0 ≤ f) (fuel : ℕ) (hfuel : 2 ≤ fuel) :
    IEEE.handOut fuel previous target i x y minutes f =
      some (handOut previous target i x y minutes f) := by
  unfold IEEE.handOut handOut
  rw [ieee_GetClockToDraw_exact previous target hp ht f hf0 fuel hfuel]
  rfl

theorem DigitalClock.exact_hand {clock : DigitalClock} (h : clock.exact) (i : Fin 6)
    (x : Fin 4) (y : Fin 6) (minutes : Bool) :
    exactAngle (((clock.cells i).analog_clocks x y).hand minutes) := by
  cases minutes
  · exact (h i x y).1
  · exact (h i x y).2

/-- A multiple of `2 ^ (-14)` in `[0, 360)` for each exact angle. -/
theorem exactAngle_turn {p : ℚ} (hp : exactAngle p) :
    ∃ M : ℤ, 0 ≤ M ∧ M < 360 * 2 ^ 14 ∧ p = (M : ℚ) / 2 ^ 14 := by
  obtain ⟨a, a0, a1, ha⟩ := exactAngle_grid hp
  exact ⟨20 * a, by omega, by norm_num; omega, ha⟩

/-! ## Evaluation of single roundings and of the angle functions -/

theorem roundNE_of_near (x : ℚ) (n : ℤ) (h1 : (n : ℚ) - 1 / 2 < x) (h2 : x < (n : ℚ) + 1 / 2) :
    roundNE x = n := by
  unfold roundNE
  rcases le_or_lt (n : ℚ) x with h | h
  · have hfl : ⌊x⌋ = n := by
      rw [Int.floor_eq_iff]; constructor <;> linarith
    rw [hfl, if_pos (by linarith)]
  · have hfl : ⌊x⌋ = n - 1 := by
      rw [Int.floor_eq_iff]; push_cast; constructor <;> linarith
    rw [hfl, if_neg (by push_cast; linarith), if_pos (by push_cast; linarith)]
    ring

theorem roundNE_of_tie (x : ℚ) (n : ℤ) (hx : x = (n : ℚ) + 1 / 2) (he : n % 2 = 0) :
    roundNE x = n := by
  unfold roundNE
  have hfl : ⌊x⌋ = n := by
    rw [Int.floor_eq_iff]; constructor <;> linarith
  rw [hfl, if_neg (by linarith), if_neg (by linarith), if_pos he]

/-- Rounding of `q` with exponent `e` and spacing `u` when `q / u` is nearer to `n` than to
any other integer. -/
theorem Fmt.round_near (fmt : Fmt) (q u r : ℚ) (e n : ℤ)
    (hu : u = 2 ^ (e - ((fmt.prec : ℤ) - 1))) (hlo : (2 : ℚ) ^ e ≤ |q|)
    (hhi : |q| < (2 : ℚ) ^ (e + 1)) (hmin : fmt.emin ≤ e)
    (h1 : (n : ℚ) - 1 / 2 < q / u) (h2 : q / u < (n : ℚ) + 1 / 2) (hr : r = (n : ℚ) * u)
    (hov : |r| < 2 ^ (fmt.emax + 1)) : fmt.round q = FP.fin r := by
  subst hu
  rw [hr]
  rw [hr] at hov
  exact Fmt.round_of_bounds fmt q e n hlo hhi hmin (roundNE_of_near _ n h1 h2) hov

/-- Rounding of `q` with exponent `e` and spacing `u` when `q / u` is halfway between the
even integer `n` and `n + 1`. -/
theorem Fmt.round_tie (fmt : Fmt) (q u r : ℚ) (e n : ℤ)
    (hu : u = 2 ^ (e - ((fmt.prec : ℤ) - 1))) (hlo : (2 : ℚ) ^ e ≤ |q|)
    (hhi : |q| < (2 : ℚ) ^ (e + 1)) (hmin : fmt.emin ≤ e)
    (h1 : q / u = (n : ℚ) + 1 / 2) (he : n % 2 = 0) (hr : r = (n : ℚ) * u)
    (hov : |r| < 2 ^ (fmt.emax + 1)) : fmt.round q = FP.fin r := by
  subst hu
  rw [hr]
  rw [hr] at hov
  exact Fmt.round_of_bounds fmt q e n hlo hhi hmin (roundNE_of_tie _ n h1 he) hov

theorem round32_turn_less_20 : binary32.round (360 - 1 / 2 ^ 20) = FP.fin 360 :=
  Fmt.round_near binary32 _ (1 / 2 ^ 15) 360 8 11796480 (by norm_num [binary32])
    (by norm_num [abs_of_pos]) (by norm_num [abs_of_pos]) (by norm_num [binary32])
    (by norm_num) (by norm_num) (by norm_num) (by norm_num [binary32, abs_of_pos])

theorem round32_turn_less_30 : binary32.round (360 - 1 / 2 ^ 30) = FP.fin 360 :=
  Fmt.round_near binary32 _ (1 / 2 ^ 15) 360 8 11796480 (by norm_num [binary32])
    (by norm_num [abs_of_pos]) (by norm_num [abs_of_pos]) (by norm_num [binary32])
    (by norm_num) (by norm_num) (by norm_num) (by norm_num [binary32, abs_of_pos])

theorem round32_one_less_30 : binary32.round (1 - 1 / 2 ^ 30) = FP.fin 1 :=
  Fmt.round_near binary32 _ (1 / 2 ^ 24) 1 (-1) 16777216 (by norm_num [binary32])
    (by norm_num [abs_of_pos]) (by norm_num [abs_of_pos]) (by norm_num [binary32])
    (by norm_num) (by norm_num) (by norm_num) (by norm_num [binary32, abs_of_pos])

theorem round32_one_more_30 : binary32.round (1 + 1 / 2 ^ 30) = FP.fin 1 :=
  Fmt.round_near binary32 _ (1 / 2 ^ 23) 1 0 8388608 (by norm_num [binary32])
    (by norm_num [abs_of_pos]) (by norm_num [abs_of_pos]) (by norm_num [binary32])
    (by norm_num) (by norm_num) (by norm_num) (by norm_num [binary32, abs_of_pos])

theorem round32_five_more_30 : binary32.round (5 + 1 / 2 ^ 30) = FP.fin 5 :=
  Fmt.round_near binary32 _ (1 / 2 ^ 21) 5 2 10485760 (by norm_num [binary32])
    (by norm_num [abs_of_pos]) (by norm_num [abs_of_pos]) (by norm_num [binary32])
    (by norm_num) (by norm_num) (by norm_num) (by norm_num [binary32, abs_of_pos])

theorem round32_huge_less_turn : binary32.round (2 ^ 40 - 360) = FP.fin (2 ^ 40) :=
  Fmt.round_near binary32 _ (2 ^ 16) (2 ^ 40) 39 16777216 (by norm_num [binary32])
    (by norm_num [abs_of_pos]) (by norm_num [abs_of_pos]) (by norm_num [binary32])
    (by norm_num) (by norm_num) (by norm_num) (by norm_num [binary32, abs_of_pos])

theorem round64_turn_less_70 : binary64.round (-(1 / 2 ^ 70) + 360) = FP.fin 360 :=
  Fmt.round_near binary64 _ (1 / 2 ^ 44) 360 8 6333186975989760 (by norm_num [binary64])
    (by norm_num [abs_of_pos]) (by norm_num [abs_of_pos]) (by norm_num [binary64])
    (by norm_num) (by norm_num) (by norm_num) (by norm_num [binary64, abs_of_pos])

theorem round64_huge_less_turn : binary64.round (10 ^ 20 - 360) = FP.fin (10 ^ 20) :=
  Fmt.round_near binary64 _ (2 ^ 14) (10 ^ 20) 66 6103515625000000 (by norm_num [binary64])
    (by norm_num [abs_of_pos]) (by norm_num [abs_of_pos]) (by norm_num [binary64])
    (by norm_num) (by norm_num) (by norm_num) (by norm_num [binary64, abs_of_pos])

theorem round32_huge : binary32.round (2 ^ 40) = FP.fin (2 ^ 40) := by
  have := Fmt.round_exact binary32 1 40 (by norm_num [binary32]) (by norm_num [binary32])
    (by norm_num [binary32])
  have e : ((1 : ℤ) : ℚ) * 2 ^ (40 : ℤ) = 2 ^ 40 := by norm_num
  rwa [e] at this

theorem round32_zero : binary32.round 0 = FP.fin 0 :=
  round32_of_eq 0 0 0 (by norm_num) (by norm_num) (by norm_num)

theorem round64_zero : binary64.round 0 = FP.fin 0 :=
  round64_of_eq 0 0 0 (by norm_num) (by norm_num) (by norm_num)

/-- A nonzero value of absolute value below 360 is not an integer multiple of 360. -/
theorem not_multiple_of_small (x : ℚ) (h0 : x ≠ 0) (h1 : |x| < 360) :
    ¬ ∃ j : ℤ, x = 360 * (j : ℚ) := by
  rintro ⟨j, hj⟩
  rw [abs_lt] at h1
  have hj1 : (-1 : ℚ) < (j : ℚ) := by linarith
  have hj2 : (j : ℚ) < 1 := by linarith
  have hj1i : (-1 : ℤ) < j := by exact_mod_cast hj1
  have hj2i : j < (1 : ℤ) := by exact_mod_cast hj2
  have : j = 0 := by omega
  subst this
  simp at hj
  exact h0 hj

theorem ieee_gad_up_step (fuel : ℕ) (x : ℚ) (hx : x ≤ 0) :
    IEEE.GetAngleDifference.loopUp (fuel + 1) (FP.fin x) =
      IEEE.GetAngleDifference.loopUp fuel (binary32.round (x + 360)) := by
  rw [IEEE.GetAngleDifference.loopUp, FP.le_fin, decide_eq_true hx, if_pos rfl, FP.add_fin]

theorem ieee_gad_down_step (fuel : ℕ) (x : ℚ) (hx : 360 < x) :
    IEEE.GetAngleDifference.loopDown (fuel + 1) (FP.fin x) =
      IEEE.GetAngleDifference.loopDown fuel (binary32.round (x - 360)) := by
  rw [IEEE.GetAngleDifference.loopDown, FP.lt_fin, decide_eq_true hx, if_pos rfl, FP.sub_fin]

theorem ieee_norm_up_step (fuel : ℕ) (x : ℚ) (hx : x < 0) :
    IEEE.NormalizeAngle.loopUp (fuel + 1) (FP.fin x) =
      IEEE.NormalizeAngle.loopUp fuel (binary64.round (x + 360)) := by
  rw [IEEE.NormalizeAngle.loopUp, FP.lt_fin, decide_eq_true hx, if_pos rfl, FP.add_fin]

theorem ieee_norm_down_step (fuel : ℕ) (x : ℚ) (hx : 360 ≤ x) :
    IEEE.NormalizeAngle.loopDown (fuel + 1) (FP.fin x) =
      IEEE.NormalizeAngle.loopDown fuel (binary64.round (x - 360)) := by
  rw [IEEE.NormalizeAngle.loopDown, FP.le_fin, decide_eq_true hx, if_pos rfl, FP.sub_fin]

theorem ieee_norm_down_stop (fuel : ℕ) (x : ℚ) (hx : x < 360) :
    IEEE.NormalizeAngle.loopDown (fuel + 1) (FP.fin x) = some (FP.fin x) := by
  simp [IEEE.NormalizeAngle.loopDown, FP.le_fin, not_le.mpr hx]

/-- An angle of `[0, 360)` is returned unchanged by `NormalizeAngle`. -/
theorem ieee_NormalizeAngle_of_mem (fuel : ℕ) (hfuel : 1 ≤ fuel) (x : ℚ) (h0 : 0 ≤ x)
    (h1 : x < 360) : IEEE.NormalizeAngle fuel (FP.fin x) = some (FP.fin x) := by
  obtain ⟨n, rfl⟩ : ∃ n, fuel = n + 1 := ⟨fuel - 1, by omega⟩
  unfold IEEE.NormalizeAngle
  rw [IEEE.NormalizeAngle.normUp_of_nonneg n x h0, Option.some_bind,
    ieee_norm_down_stop n x h1]

/-- The forward distance when the rounded difference lies in (0, 360]: no loop runs. -/
theorem ieee_GetAngleDifference_small (fuel : ℕ) (hfuel : 1 ≤ fuel) (a b d : ℚ) (hne : a ≠ b)
    (hd : binary32.round (b - a) = FP.fin d) (h0 : 0 < d) (h1 : d ≤ 360) :
    IEEE.GetAngleDifference fuel (FP.fin a) (FP.fin b) = some (FP.fin d) := by
  obtain ⟨n, rfl⟩ : ∃ n, fuel = n + 1 := ⟨fuel - 1, by omega⟩
  unfold IEEE.GetAngleDifference
  rw [FP.eq_fin, decide_eq_false hne, if_neg (by simp)]
  simp only
  rw [FP.sub_fin, hd, IEEE.GetAngleDifference.loopUp_of_pos n d h0, Option.some_bind,
    IEEE.GetAngleDifference.loopDown_of_le n d h1]

/-- The forward distance when the rounded difference `d ≤ 0` comes into (0, 360] by one
rounded addition of 360. -/
theorem ieee_GetAngleDifference_wrap (fuel : ℕ) (hfuel : 2 ≤ fuel) (a b d e : ℚ) (hne : a ≠ b)
    (hd : binary32.round (b - a) = FP.fin d) (hd0 : d ≤ 0)
    (he : binary32.round (d + 360) = FP.fin e) (h0 : 0 < e) (h1 : e ≤ 360) :
    IEEE.GetAngleDifference fuel (FP.fin a) (FP.fin b) = some (FP.fin e) := by
  obtain ⟨n, rfl⟩ : ∃ n, fuel = n + 2 := ⟨fuel - 2, by omega⟩
  unfold IEEE.GetAngleDifference
  rw [FP.eq_fin, decide_eq_false hne, if_neg (by simp)]
  simp only
  rw [FP.sub_fin, hd, ieee_gad_up_step (n + 1) d hd0, he,
    IEEE.GetAngleDifference.loopUp_of_pos n e h0, Option.some_bind,
    IEEE.GetAngleDifference.loopDown_of_le (n + 1) e h1]

/-! ## Evaluation of `InterpolateHand` -/

/-- The snap branch of `InterpolateHand`: a forward distance below `0.001f`. -/
theorem ieee_InterpolateHand_snap (fuel : ℕ) (p t D : ℚ) (f : Int)
    (hD : IEEE.GetAngleDifference fuel (FP.fin p) (FP.fin t) = some (FP.fin D))
    (hlt : D < 8589935 / 8589934592) :
    IEEE.InterpolateHand fuel (FP.fin p) (FP.fin t) f = some (FP.fin t) := by
  unfold IEEE.InterpolateHand
  rw [hD, Option.some_bind, round32_thousandth, FP.lt_fin, decide_eq_true hlt, if_pos rfl]

/-- The moving branch of `InterpolateHand`, one rounding after the other. -/
theorem ieee_InterpolateHand_eval (fuel : ℕ) (p t D step fr moved s r out : ℚ) (f : Int)
    (hD : IEEE.GetAngleDifference fuel (FP.fin p) (FP.fin t) = some (FP.fin D))
    (hge : 8589935 / 8589934592 ≤ D)
    (hstep : binary32.round (D / 20) = FP.fin step)
    (hfr : binary32.round (f : ℚ) = FP.fin fr)
    (hmoved : binary32.round (step * fr) = FP.fin moved)
    (hs : binary32.round (p + moved) = FP.fin s)
    (hn : IEEE.NormalizeAngle fuel (FP.fin s) = some (FP.fin r))
    (hout : binary32.round r = FP.fin out) :
    IEEE.InterpolateHand fuel (FP.fin p) (FP.fin t) f = some (FP.fin out) := by
  unfold IEEE.InterpolateHand
  rw [hD, Option.some_bind, round32_thousandth, FP.lt_fin, decide_eq_false (not_lt.mpr hge)]
  simp only [Bool.false_eq_true, if_false]
  rw [FP.div_fin _ _ _ (by norm_num), hstep, hfr, FP.mul_fin, hmoved, FP.add_fin, hs, hn,
    Option.map_some']
  exact congrArg some hout

/-- Rounding to binary32 of an expression whose value `r` is a `float`. -/
theorem round32_is (q r : ℚ) (k : ℕ) (m : ℤ) (hr : q = r) (hq : r = (m : ℚ) / 2 ^ k)
    (hk : k ≤ 149) (hm : |m| < 2 ^ 24) : binary32.round q = FP.fin r := by
  rw [hr]; exact round32_of_eq r k m hq hk hm

/-- Rounding to binary64 of an expression whose value `r` is a `double`. -/
theorem round64_is (q r : ℚ) (k : ℕ) (m : ℤ) (hr : q = r) (hq : r = (m : ℚ) / 2 ^ k)
    (hk : k ≤ 1074) (hm : |m| < 2 ^ 53) : binary64.round q = FP.fin r := by
  rw [hr]; exact round64_of_eq r k m hq hk hm

/-- An angle of `[360, 720)` that loses 360 in one rounded subtraction. -/
theorem ieee_NormalizeAngle_once (fuel : ℕ) (hfuel : 2 ≤ fuel) (x r : ℚ) (h0 : 360 ≤ x)
    (hr : binary64.round (x - 360) = FP.fin r) (h1 : r < 360) :
    IEEE.NormalizeAngle fuel (FP.fin x) = some (FP.fin r) := by
  obtain ⟨n, rfl⟩ : ∃ n, fuel = n + 2 := ⟨fuel - 2, by omega⟩
  unfold IEEE.NormalizeAngle
  rw [IEEE.NormalizeAngle.normUp_of_nonneg (n + 1) x (by linarith), Option.some_bind,
    ieee_norm_down_step (n + 1) x h0, hr, ieee_norm_down_stop n r h1]

theorem ieee_GetAngleDifference_self (fuel : ℕ) (a : ℚ) :
    IEEE.GetAngleDifference fuel (FP.fin a) (FP.fin a) = some (FP.fin 0) := by
  simp [IEEE.GetAngleDifference, FP.eq]

/-- The forward distance from 0 to `2 ^ (-11)`. -/
theorem ieee_distance_tiny (fuel : ℕ) (hfuel : 1 ≤ fuel) :
    IEEE.GetAngleDifference fuel (FP.fin 0) (FP.fin (1 / 2048)) = some (FP.fin (1 / 2048)) :=
  ieee_GetAngleDifference_small fuel hfuel 0 (1 / 2048) (1 / 2048) (by norm_num)
    (round32_is _ _ 11 1 (by norm_num) (by norm_num) (by norm_num) (by norm_num))
    (by norm_num) (by norm_num)

/-- The hand going from 0 to `2 ^ (-11)` stands at its target at every frame. -/
theorem ieee_arc_tiny (fuel : ℕ) (hfuel : 1 ≤ fuel) (f : Int) :
    IEEE.arc fuel (FP.fin 0) (FP.fin (1 / 2048)) f = some (FP.fin (1 / 2048)) := by
  unfold IEEE.arc
  rw [ieee_InterpolateHand_snap fuel 0 (1 / 2048) (1 / 2048) f (ieee_distance_tiny fuel hfuel)
    (by norm_num), Option.some_bind]
  exact ieee_distance_tiny fuel hfuel

/-- The forward distance from `2 ^ (-10)` to `2 ^ (-10) - 2 ^ (-30)` rounds to a full turn. -/
theorem ieee_distance_back (fuel : ℕ) (hfuel : 2 ≤ fuel) :
    IEEE.GetAngleDifference fuel (FP.fin (1 / 1024)) (FP.fin (1 / 1024 - 1 / 2 ^ 30)) =
      some (FP.fin 360) := by
  refine ieee_GetAngleDifference_wrap fuel hfuel _ _ (-(1 / 2 ^ 30)) 360 (by norm_num)
    (round32_is _ _ 30 (-1) (by norm_num) (by norm_num) (by norm_num) (by norm_num))
    (by norm_num) ?_ (by norm_num) le_rfl
  have e : (-(1 / 2 ^ 30) + 360 : ℚ) = 360 - 1 / 2 ^ 30 := by ring
  rw [e]
  exact round32_turn_less_30

theorem round32_tenth_step :
    binary32.round (13421773 / 134217728 / 20) = FP.fin (5368709 / 1073741824) :=
  Fmt.round_near binary32 _ (1 / 2 ^ 31) _ (-8) 10737418 (by norm_num [binary32])
    (by norm_num [abs_of_pos]) (by norm_num [abs_of_pos]) (by norm_num [binary32])
    (by norm_num) (by norm_num) (by norm_num) (by norm_num [binary32, abs_of_pos])

theorem round32_tenth_moved :
    binary32.round (5368709 / 1073741824 * 10) = FP.fin (3355443 / 67108864) :=
  Fmt.round_tie binary32 _ (1 / 2 ^ 28) _ (-5) 13421772 (by norm_num [binary32])
    (by norm_num [abs_of_pos]) (by norm_num [abs_of_pos]) (by norm_num [binary32])
    (by norm_num) (by norm_num) (by norm_num) (by norm_num [binary32, abs_of_pos])

/-- The forward distance from 0 to `0.1f`. -/
theorem ieee_distance_tenth (fuel : ℕ) (hfuel : 1 ≤ fuel) :
    IEEE.GetAngleDifference fuel (FP.fin 0) (FP.fin (13421773 / 134217728)) =
      some (FP.fin (13421773 / 134217728)) :=
  ieee_GetAngleDifference_small fuel hfuel 0 _ _ (by norm_num)
    (round32_is _ _ 27 13421773 (by norm_num) (by norm_num) (by norm_num) (by norm_num))
    (by norm_num) (by norm_num)

/-! ## Displays with one hand moved -/

/-- The interpolation of a cell when every call of `InterpolateHand` returns. -/
theorem ieee_cell_of_hands (fuel : ℕ) (oldCell newCell : Cell) (f : Int)
    (H M : Fin 4 → Fin 6 → ℚ)
    (hH : ∀ x y, IEEE.drawHand fuel (oldCell.analog_clocks x y).hours_hand_angle
      (newCell.analog_clocks x y).hours_hand_angle f = some (H x y))
    (hM : ∀ x y, IEEE.drawHand fuel (oldCell.analog_clocks x y).minutes_hand_angle
      (newCell.analog_clocks x y).minutes_hand_angle f = some (M x y)) :
    IEEE.GetClockToDraw.cell fuel oldCell newCell f =
      some { value := newCell.value, analog_clocks := fun x y => ⟨H x y, M x y⟩ } := by
  unfold IEEE.GetClockToDraw.cell
  have h := foldlM_some
    (fun d x =>
      (List.finRange 6).foldlM
        (fun d y => IEEE.GetClockToDraw.body fuel oldCell newCell f d x y) d)
    (fun d x =>
      (List.finRange 6).foldl
        (fun d y => (d.setHours x y (H x y)).setMinutes x y (M x y)) d)
    (List.finRange 4)
    (fun d x => by
      apply foldlM_some
      intro d y
      unfold IEEE.GetClockToDraw.body
      simp only [hH x y, hM x y, Option.some_bind])
    { Cell.zero with value := newCell.value }
  rw [h]
  refine congrArg some ?_
  exact fold_grid_full
    (fun d x y => (d.setHours x y (H x y)).setMinutes x y (M x y))
    (fun x y => ⟨H x y, M x y⟩)
    (fun d x y => Cell.setHours_setMinutes_value d x y _ _)
    (fun d x y a b => Cell.setHours_setMinutes_apply d x y _ _ a b) _

/-- Before the end of the animation `GetClockToDraw` returns the display of the interpolated
cells when the interpolation of every cell returns. -/
theorem ieee_GetClockToDraw_of_cells (fuel : ℕ) (old_clock new_clock : DigitalClock) (f : Int)
    (hf : f < 20) (C : Fin 6 → Cell)
    (h : ∀ i, IEEE.GetClockToDraw.cell fuel (old_clock.cells i) (new_clock.cells i) f =
      some (C i)) :
    IEEE.GetClockToDraw fuel old_clock new_clock f = some ⟨C⟩ := by
  unfold IEEE.GetClockToDraw
  rw [if_neg (by rw [castInt_ANIM_DURATION]; omega)]
  have h2 := foldlM_some
    (fun result cellIdx =>
      (IEEE.GetClockToDraw.cell fuel (old_clock.cells cellIdx) (new_clock.cells cellIdx)
        f).map fun interpolated => DigitalClock.setCell result cellIdx interpolated)
    (fun result cellIdx => DigitalClock.setCell result cellIdx (C cellIdx))
    (List.finRange 6)
    (fun result i => by simp only [h i, Option.map_some'])
    DigitalClock.zero
  rw [h2]
  refine congrArg some ?_
  exact DigitalClock.eq_of_cells fun i => fold_cells_full C DigitalClock.zero i

theorem DigitalClock.withHand_cells_of_ne (clock : DigitalClock) (v : ℚ) (i : Fin 6)
    (hi : i ≠ 5) : (clock.withHand v).cells i = clock.cells i := by
  simp [DigitalClock.withHand, DigitalClock.setCell, Function.update_noteq hi]

theorem DigitalClock.withHand_cells_last (clock : DigitalClock) (v : ℚ) :
    (clock.withHand v).cells 5 = (clock.cells 5).setHours 0 0 v := by
  simp [DigitalClock.withHand, DigitalClock.setCell]

theorem Cell.setHours_apply (c : Cell) (x : Fin 4) (y : Fin 6) (v : ℚ) (i : Fin 4)
    (j : Fin 6) :
    (c.setHours x y v).analog_clocks i j =
      if i = x ∧ j = y then ⟨v, (c.analog_clocks x y).minutes_hand_angle⟩
      else c.analog_clocks i j := by
  unfold Cell.setHours
  rw [Cell.setAC_apply]

/-- The moved hand of the display. -/
theorem DigitalClock.withHand_hand (clock : DigitalClock) (v : ℚ) :
    (((clock.withHand v).cells 5).analog_clocks 0 0).hours_hand_angle = v := by
  rw [DigitalClock.withHand_cells_last, Cell.setHours_apply]
  simp

theorem DigitalClock.withHand_normalised (clock : DigitalClock) (v : ℚ)
    (hc : clock.normalised) (hv : Clock.normalised v) : (clock.withHand v).normalised := by
  intro i x y
  by_cases hi : i = 5
  · subst hi
    rw [DigitalClock.withHand_cells_last, Cell.setHours_apply]
    by_cases hxy : x = 0 ∧ y = 0
    · rw [if_pos hxy]
      exact ⟨hv, (hc 5 0 0).2⟩
    · rw [if_neg hxy]
      exact hc 5 x y
  · rw [DigitalClock.withHand_cells_of_ne clock v i hi]
    exact hc i x y

/-- The frame drawn between two displays that differ in the moved hand only: every other
hand, a `float` at rest, is drawn as it is, and the moved hand is drawn where
`InterpolateHand` puts it. -/
theorem ieee_GetClockToDraw_withHand (base : DigitalClock)
    (hb : ∀ i x y, isFloat ((base.cells i).analog_clocks x y).hours_hand_angle ∧
      isFloat ((base.cells i).analog_clocks x y).minutes_hand_angle)
    (v w r : ℚ) (fuel : ℕ) (f : Int) (hf : f < 20)
    (h : IEEE.drawHand fuel v w f = some r) :
    IEEE.GetClockToDraw fuel (base.withHand v) (base.withHand w) f =
      some (base.withHand r) := by
  have hc : ∀ i, IEEE.GetClockToDraw.cell fuel ((base.withHand v).cells i)
      ((base.withHand w).cells i) f = some ((base.withHand r).cells i) := by
    intro i
    by_cases hi : i = 5
    · subst hi
      rw [DigitalClock.withHand_cells_last, DigitalClock.withHand_cells_last,
        DigitalClock.withHand_cells_last]
      rw [ieee_cell_of_hands fuel _ _ f
        (fun x y => (((base.cells 5).setHours 0 0 r).analog_clocks x y).hours_hand_angle)
        (fun x y => (((base.cells 5).setHours 0 0 r).analog_clocks x y).minutes_hand_angle)
        (fun x y => by
          simp only [Cell.setHours_apply]
          by_cases hxy : x = 0 ∧ y = 0
          · simp only [if_pos hxy]; exact h
          · simp only [if_neg hxy]; exact ieee_drawHand_same _ (hb 5 x y).1 fuel f)
        (fun x y => by
          simp only [Cell.setHours_apply]
          by_cases hxy : x = 0 ∧ y = 0
          · simp only [if_pos hxy]; exact ieee_drawHand_same _ (hb 5 0 0).2 fuel f
          · simp only [if_neg hxy]; exact ieee_drawHand_same _ (hb 5 x y).2 fuel f)]
      exact congrArg some (Cell.eq_of_fields rfl (fun _ _ => rfl))
    · rw [DigitalClock.withHand_cells_of_ne base v i hi,
        DigitalClock.withHand_cells_of_ne base w i hi,
        DigitalClock.withHand_cells_of_ne base r i hi]
      exact ieee_cell_same (base.cells i) (hb i) fuel f
  rw [ieee_GetClockToDraw_of_cells fuel _ _ f hf (fun i => (base.withHand r).cells i) hc]

/-- The hands of a display produced by `build` are `float`s. -/
theorem build_isFloat (hours minutes seconds : Int) (i : Fin 6) (x : Fin 4) (y : Fin 6) :
    isFloat (((build hours minutes seconds).cells i).analog_clocks x y).hours_hand_angle ∧
    isFloat (((build hours minutes seconds).cells i).analog_clocks x y).minutes_hand_angle :=
  ⟨exactAngle_isFloat (build_exact hours minutes seconds i x y).1,
    exactAngle_isFloat (build_exact hours minutes seconds i x y).2⟩

/-- A hand whose two angles are the same `double` is drawn at the `float` nearest to it. -/
theorem ieee_drawHand_narrow (q r : ℚ) (hq : binary32.round q = FP.fin r) (fuel : ℕ)
    (f : Int) : IEEE.drawHand fuel q q f = some r := by
  unfold IEEE.drawHand FP.toFloat
  simp only [hq]
  rw [ieee_InterpolateHand_snap fuel r r 0 f (ieee_GetAngleDifference_self fuel r)
    (by norm_num)]
  rfl

/-- A call of `InterpolateHand` from `GetClockToDraw`, once the two `double` fields are
narrowed. -/
theorem ieee_drawHand_of (fuel : ℕ) (p t p1 t1 out : ℚ) (f : Int)
    (hp : binary32.round p = FP.fin p1) (ht : binary32.round t = FP.fin t1)
    (h : IEEE.InterpolateHand fuel (FP.fin p1) (FP.fin t1) f = some (FP.fin out)) :
    IEEE.drawHand fuel p t f = some out := by
  unfold IEEE.drawHand FP.toFloat
  simp only [hp, ht]
  rw [h]
  rfl

theorem ieee_handOut_withHand (base : DigitalClock)
    (hb : ∀ i x y, isFloat ((base.cells i).analog_clocks x y).hours_hand_angle ∧
      isFloat ((base.cells i).analog_clocks x y).minutes_hand_angle)
    (v w r : ℚ) (fuel : ℕ) (f : Int) (hf : f < 20)
    (h : IEEE.drawHand fuel v w f = some r) :
    IEEE.handOut fuel (base.withHand v) (base.withHand w) 5 0 0 false f = some r := by
  unfold IEEE.handOut
  rw [ieee_GetClockToDraw_withHand base hb v w r fuel f hf h, Option.map_some']
  exact congrArg some (DigitalClock.withHand_hand base r)

theorem DigitalClock.withHand_ne (clock : DigitalClock) (v w : ℚ) (h : v ≠ w) :
    clock.withHand v ≠ clock.withHand w := by
  intro e
  have h1 := DigitalClock.withHand_hand clock v
  rw [e, DigitalClock.withHand_hand] at h1
  exact h h1.symm

/-! ## The hand going from 0 to 1 -/

theorem round32_twentieth : binary32.round (1 / 20) = FP.fin (13421773 / 268435456) :=
  Fmt.round_near binary32 _ (1 / 2 ^ 28) _ (-5) 13421773 (by norm_num [binary32])
    (by norm_num [abs_of_pos]) (by norm_num [abs_of_pos]) (by norm_num [binary32])
    (by norm_num) (by norm_num) (by norm_num) (by norm_num [binary32, abs_of_pos])

theorem round32_three_twentieths :
    binary32.round (13421773 / 268435456 * 3) = FP.fin (5033165 / 33554432) :=
  Fmt.round_near binary32 _ (1 / 2 ^ 26) _ (-3) 10066330 (by norm_num [binary32])
    (by norm_num [abs_of_pos]) (by norm_num [abs_of_pos]) (by norm_num [binary32])
    (by norm_num) (by norm_num) (by norm_num) (by norm_num [binary32, abs_of_pos])

/-- The forward distance from 0 to 1. -/
theorem ieee_distance_one (fuel : ℕ) (hfuel : 1 ≤ fuel) :
    IEEE.GetAngleDifference fuel (FP.fin 0) (FP.fin 1) = some (FP.fin 1) :=
  ieee_GetAngleDifference_small fuel hfuel 0 1 1 (by norm_num)
    (round32_is _ _ 0 1 (by norm_num) (by norm_num) (by norm_num) (by norm_num))
    (by norm_num) (by norm_num)

/-- The hand going from 0 to 1 at a frame `f` for which `step * f` rounds to `moved`. -/
theorem ieee_drawHand_unit (fuel : ℕ) (hfuel : 1 ≤ fuel) (f : Int) (fr moved : ℚ) (k : ℕ)
    (m : ℤ) (hfr : binary32.round (f : ℚ) = FP.fin fr)
    (hmoved : binary32.round (13421773 / 268435456 * fr) = FP.fin moved)
    (hm : moved = (m : ℚ) / 2 ^ k) (hk : k ≤ 149) (hm1 : |m| < 2 ^ 24) (h0 : 0 ≤ moved)
    (h1 : moved < 360) : IEEE.drawHand fuel 0 1 f = some moved :=
  ieee_drawHand_of fuel 0 1 0 1 moved f round32_zero
    (round32_is _ _ 0 1 (by norm_num) (by norm_num) (by norm_num) (by norm_num))
    (ieee_InterpolateHand_eval fuel 0 1 1 (13421773 / 268435456) fr moved moved moved moved f
      (ieee_distance_one fuel hfuel) (by norm_num)
      round32_twentieth hfr hmoved
      (by rw [zero_add]; exact round32_of_eq moved k m hm hk hm1)
      (ieee_NormalizeAngle_of_mem fuel hfuel moved h0 h1)
      (round32_of_eq moved k m hm hk hm1))

/-! ## The claims

Claims about structure copies, integer fields, the digit table and the loop state are stated
on the exact-arithmetic functions.  Claims about the values that the angle arithmetic
produces are stated on the IEEE functions. -/

/-- C1: for every previous display, every target display and every elapsed-frame count
`f ≥ 20` (the animation duration), `GetClockToDraw previous target f` is exactly the target
display: the whole `DigitalClock` value, hence every digit value and every hand angle of
all six cells. -/
theorem C1_clamp_to_target (previous target : DigitalClock) (f : Int) (hf : 20 ≤ f) :
    GetClockToDraw previous target f = target := by
  unfold GetClockToDraw
  rw [castInt_ANIM_DURATION, if_pos hf]

/-- C1 at the displays of 10:00:00 and 10:00:01, frame 20. -/
theorem C1_clamp_to_target_witness :
    (20 : Int) ≤ 20 ∧ GetClockToDraw (build 10 0 0) (build 10 0 1) 20 = build 10 0 1 :=
  ⟨by decide, C1_clamp_to_target (build 10 0 0) (build 10 0 1) 20 (by decide)⟩

/-- C2 (as amended): for a previous and a target display whose hand angles are all integer
multiples of 5/4096 in `[0, 360)` (as all angles of the digit table are), `GetClockToDraw`
at frame 0 returns, in IEEE arithmetic, a display in which each cell carries the digit value
of the target cell and the hand angles of the previous cell. -/
theorem C2_frame_zero (previous target : DigitalClock) (hp : previous.exact)
    (ht : target.exact) (fuel : ℕ) (hfuel : 2 ≤ fuel) :
    ∃ out, IEEE.GetClockToDraw fuel previous target 0 = some out ∧
      ∀ i, (out.cells i).value = (target.cells i).value ∧
        (out.cells i).analog_clocks = (previous.cells i).analog_clocks := by
  refine ⟨GetClockToDraw previous target 0,
    ieee_GetClockToDraw_exact previous target hp ht 0 le_rfl fuel hfuel, fun i => ?_⟩
  rw [GetClockToDraw_cells previous target 0 (by decide) i]
  refine ⟨rfl, ?_⟩
  funext x y
  simp only [exact_InterpolateHand_zero _ _ (hp i x y).1 (ht i x y).1,
    exact_InterpolateHand_zero _ _ (hp i x y).2 (ht i x y).2]

/-- C2 at the displays of 10:00:00 and 10:00:01: frame 0 is returned, its last cell carries
the target digit 1 and, at position `[3][0]`, the previous hands at 180 and 270. -/
theorem C2_frame_zero_witness :
    ∃ out, IEEE.GetClockToDraw 2 (build 10 0 0) (build 10 0 1) 0 = some out ∧
      (out.cells 5).value = 1 ∧ (out.cells 5).analog_clocks 3 0 = ⟨180, 270⟩ := by
  obtain ⟨out, h1, h2⟩ := C2_frame_zero (build 10 0 0) (build 10 0 1) (build_exact 10 0 0)
    (build_exact 10 0 1) 2 le_rfl
  refine ⟨out, h1, ?_, ?_⟩
  · rw [(h2 5).1, build_10_0_1_cell5, GetCellForNumber_value]
  · rw [(h2 5).2, build_10_0_0_cell5, zero_3_0]

/-- C2 as stated fails in IEEE arithmetic.  First input: previous 10:00:00, target 10:00:01;
the frame drawn at frame 0 carries the digit 1 of the target in its last cell, not the digit
0 of previous.  Second input: the display of 00:00:00 with one hand at the `double`
`5 + 2 ^ (-30)` as previous and the same hand at 90 as target; the hand is narrowed to
`float` at the call of `InterpolateHand` and is drawn at 5.  Third input: the same hand at 0
in previous and at `2 ^ (-11)` in the target; the distance is below `0.001f` and the hand is
drawn at the target angle. -/
theorem C2_counterexample :
    ((build 10 0 0).normalised ∧ (build 10 0 1).normalised ∧ build 10 0 0 ≠ build 10 0 1 ∧
      ∀ fuel : ℕ, 2 ≤ fuel →
        ∃ out, IEEE.GetClockToDraw fuel (build 10 0 0) (build 10 0 1) 0 = some out ∧
          (out.cells 5).value = 1 ∧ ((build 10 0 0).cells 5).value = 0) ∧
    (((build 0 0 0).withHand (5 + 1 / 2 ^ 30)).normalised ∧
      ((build 0 0 0).withHand 90).normalised ∧
      (build 0 0 0).withHand (5 + 1 / 2 ^ 30) ≠ (build 0 0 0).withHand 90 ∧
      isDouble (5 + 1 / 2 ^ 30) ∧
      ∀ fuel : ℕ, 2 ≤ fuel →
        ∃ out, IEEE.GetClockToDraw fuel ((build 0 0 0).withHand (5 + 1 / 2 ^ 30))
            ((build 0 0 0).withHand 90) 0 = some out ∧
          ((out.cells 5).analog_clocks 0 0).hours_hand_angle = 5 ∧
          ((((build 0 0 0).withHand (5 + 1 / 2 ^ 30)).cells 5).analog_clocks 0
            0).hours_hand_angle = 5 + 1 / 2 ^ 30) ∧
    (((build 0 0 0).withHand 0).normalised ∧ ((build 0 0 0).withHand (1 / 2048)).normalised ∧
      (build 0 0 0).withHand 0 ≠ (build 0 0 0).withHand (1 / 2048) ∧
      ∀ fuel : ℕ, 1 ≤ fuel →
        ∃ out, IEEE.GetClockToDraw fuel ((build 0 0 0).withHand 0)
            ((build 0 0 0).withHand (1 / 2048)) 0 = some out ∧
          ((out.cells 5).analog_clocks 0 0).hours_hand_angle = 1 / 2048 ∧
          ((((build 0 0 0).withHand 0).cells 5).analog_clocks 0 0).hours_hand_angle = 0) := by
  have hv0 : ((build 10 0 0).cells 5).value = 0 := by
    rw [build_10_0_0_cell5, GetCellForNumber_value]
  have hv1 : ((build 10 0 1).cells 5).value = 1 := by
    rw [build_10_0_1_cell5, GetCellForNumber_value]
  have e5 : exactAngle 5 := ⟨4096, by norm_num, by norm_num, by norm_num⟩
  have e90 : exactAngle 90 := ⟨73728, by norm_num, by norm_num, by norm_num⟩
  have n1 : ((build 0 0 0).withHand (5 + 1 / 2 ^ 30)).normalised :=
    DigitalClock.withHand_normalised (build 0 0 0) (5 + 1 / 2 ^ 30) (build_normalised 0 0 0)
      ⟨by norm_num, by norm_num⟩
  have n2 : ((build 0 0 0).withHand 90).normalised :=
    DigitalClock.withHand_normalised (build 0 0 0) 90 (build_normalised 0 0 0)
      ⟨by norm_num, by norm_num⟩
  have n3 : ((build 0 0 0).withHand 0).normalised :=
    DigitalClock.withHand_normalised (build 0 0 0) 0 (build_normalised 0 0 0)
      ⟨by norm_num, by norm_num⟩
  have n4 : ((build 0 0 0).withHand (1 / 2048)).normalised :=
    DigitalClock.withHand_normalised (build 0 0 0) (1 / 2048) (build_normalised 0 0 0)
      ⟨by norm_num, by norm_num⟩
  have d1 : (build 0 0 0).withHand (5 + 1 / 2 ^ 30) ≠ (build 0 0 0).withHand 90 :=
    DigitalClock.withHand_ne (build 0 0 0) (5 + 1 / 2 ^ 30) 90 (by norm_num)
  have d2 : (build 0 0 0).withHand 0 ≠ (build 0 0 0).withHand (1 / 2048) :=
    DigitalClock.withHand_ne (build 0 0 0) 0 (1 / 2048) (by norm_num)
  have hdb : isDouble (5 + 1 / 2 ^ 30) :=
    round64_of_eq (5 + 1 / 2 ^ 30) 30 5368709121 (by norm_num) (by norm_num) (by norm_num)
  refine ⟨⟨build_normalised 10 0 0, build_normalised 10 0 1, ?_, fun fuel hfuel => ?_⟩,
    ⟨n1, n2, d1, hdb, fun fuel hfuel => ?_⟩, ⟨n3, n4, d2, fun fuel hfuel => ?_⟩⟩
  · intro e
    rw [e, hv1] at hv0
    exact absurd hv0 (by decide)
  · refine ⟨GetClockToDraw (build 10 0 0) (build 10 0 1) 0,
      ieee_GetClockToDraw_exact _ _ (build_exact 10 0 0) (build_exact 10 0 1) 0 le_rfl fuel
        hfuel, ?_, hv0⟩
    rw [GetClockToDraw_value (build 10 0 0) (build 10 0 1) 0 5]
    exact hv1
  · have hd : IEEE.drawHand fuel (5 + 1 / 2 ^ 30) 90 0 = some 5 := by
      refine ieee_drawHand_of fuel _ _ 5 90 5 0 round32_five_more_30 (exactAngle_isFloat e90) ?_
      rw [ieee_InterpolateHand_exact 5 90 e5 e90 0 le_rfl (by decide) fuel hfuel,
        exact_InterpolateHand_zero 5 90 e5 e90]
    exact ⟨(build 0 0 0).withHand 5,
      ieee_GetClockToDraw_withHand (build 0 0 0) (build_isFloat 0 0 0) (5 + 1 / 2 ^ 30) 90 5
        fuel 0 (by decide) hd,
      DigitalClock.withHand_hand (build 0 0 0) 5,
      DigitalClock.withHand_hand (build 0 0 0) (5 + 1 / 2 ^ 30)⟩
  · have hd : IEEE.drawHand fuel 0 (1 / 2048) 0 = some (1 / 2048) :=
      ieee_drawHand_of fuel _ _ 0 (1 / 2048) (1 / 2048) 0 round32_zero
        (round32_of_eq _ 11 1 (by norm_num) (by norm_num) (by norm_num))
        (ieee_InterpolateHand_snap fuel 0 (1 / 2048) (1 / 2048) 0
          (ieee_distance_tiny fuel hfuel) (by norm_num))
    exact ⟨(build 0 0 0).withHand (1 / 2048),
      ieee_GetClockToDraw_withHand (build 0 0 0) (build_isFloat 0 0 0) 0 (1 / 2048) (1 / 2048)
        fuel 0 (by decide) hd,
      DigitalClock.withHand_hand (build 0 0 0) (1 / 2048),
      DigitalClock.withHand_hand (build 0 0 0) 0⟩

/-- C3 (as amended): for hand angles `p ≠ t` that are integer multiples of 5/4096 in
`[0, 360)`, in IEEE arithmetic the angle interpolated at a frame `f` with `0 < f < 20` lies
strictly inside the forward arc from `p` to `t`, and the forward distance from `p` to the
interpolated angle is strictly increasing in `f` over 0..20. -/
theorem C3_forward_arc (p t : ℚ) (hp : exactAngle p) (ht : exactAngle t) (hne : p ≠ t)
    (fuel : ℕ) (hfuel : 2 ≤ fuel) :
    (∀ f : Int, 0 < f → f < 20 →
      ∃ d D : ℚ, IEEE.arc fuel (FP.fin p) (FP.fin t) f = some (FP.fin d) ∧
        IEEE.GetAngleDifference fuel (FP.fin p) (FP.fin t) = some (FP.fin D) ∧
        0 < d ∧ d < D) ∧
    (∀ f g : Int, 0 ≤ f → f < g → g ≤ 20 →
      ∃ d e : ℚ, IEEE.arc fuel (FP.fin p) (FP.fin t) f = some (FP.fin d) ∧
        IEEE.arc fuel (FP.fin p) (FP.fin t) g = some (FP.fin e) ∧ d < e) := by
  have np := exactAngle_normalised hp
  have nt := exactAngle_normalised ht
  have heps := exactAngle_ge_eps hp ht hne
  have hD0 : 0 < GetAngleDifference p t := by linarith
  constructor
  · intro f hf0 hf1
    refine ⟨_, _, ieee_arc_exact p t hp ht f hf0.le hf1.le fuel hfuel,
      ieee_GetAngleDifference_exact p t hp ht fuel hfuel, ?_⟩
    rw [GetAngleDifference_InterpolateHand np.1 np.2 nt.1 nt.2 hne heps f hf0.le hf1.le]
    have hf0q : (0 : ℚ) < (f : ℚ) := by exact_mod_cast hf0
    have hf1q : (f : ℚ) < 20 := by exact_mod_cast hf1
    constructor
    · positivity
    · nlinarith
  · intro f g hf hfg hg
    refine ⟨_, _, ieee_arc_exact p t hp ht f hf (by omega) fuel hfuel,
      ieee_arc_exact p t hp ht g (by omega) hg fuel hfuel, ?_⟩
    rw [GetAngleDifference_InterpolateHand np.1 np.2 nt.1 nt.2 hne heps f hf (by omega),
      GetAngleDifference_InterpolateHand np.1 np.2 nt.1 nt.2 hne heps g (by omega) hg]
    have hfgq : (f : ℚ) < (g : ℚ) := by exact_mod_cast hfg
    have hpos : 0 < GetAngleDifference p t / 20 := by positivity
    exact mul_lt_mul_of_pos_left hfgq hpos

/-- C3 for the hand going from 180 to 225: at frame 10 it is strictly inside the arc, and
it is farther along at frame 11 than at frame 10. -/
theorem C3_forward_arc_witness :
    (∃ d D : ℚ, IEEE.arc 2 (FP.fin 180) (FP.fin 225) 10 = some (FP.fin d) ∧
      IEEE.GetAngleDifference 2 (FP.fin 180) (FP.fin 225) = some (FP.fin D) ∧ 0 < d ∧ d < D) ∧
    (∃ d e : ℚ, IEEE.arc 2 (FP.fin 180) (FP.fin 225) 10 = some (FP.fin d) ∧
      IEEE.arc 2 (FP.fin 180) (FP.fin 225) 11 = some (FP.fin e) ∧ d < e) :=
  have h := C3_forward_arc 180 225 (tableAngle_exact (by norm_num [tableAngle]))
    (tableAngle_exact (by norm_num [tableAngle])) (by norm_num) 2 le_rfl
  ⟨h.1 10 (by decide) (by decide), h.2 10 11 (by decide) (by decide) (by decide)⟩

/-- C3 as stated fails in IEEE arithmetic.  First input: `p = 0`, `t = 2 ^ (-11)`; the
distance is below `0.001f`, the hand stands at `t` at every frame, so its distance from `p`
is the whole distance at frame 1 and does not increase from frame 1 to frame 2.  Second
input: `p = 2 ^ (-10)`, `t = 2 ^ (-10) - 2 ^ (-30)`; the forward distance rounds to 360, the
hand is 342 away from `p` at frame 19 and back at `p`, distance 0, at frame 20. -/
theorem C3_counterexample :
    (normalised 0 ∧ normalised (1 / 2048) ∧ isFloat 0 ∧ isFloat (1 / 2048) ∧
      (0 : ℚ) ≠ 1 / 2048 ∧
      ∀ fuel : ℕ, 1 ≤ fuel →
        IEEE.GetAngleDifference fuel (FP.fin 0) (FP.fin (1 / 2048)) =
          some (FP.fin (1 / 2048)) ∧
        IEEE.arc fuel (FP.fin 0) (FP.fin (1 / 2048)) 1 = some (FP.fin (1 / 2048)) ∧
        IEEE.arc fuel (FP.fin 0) (FP.fin (1 / 2048)) 2 = some (FP.fin (1 / 2048))) ∧
    (normalised (1 / 1024) ∧ normalised (1 / 1024 - 1 / 2 ^ 30) ∧ isFloat (1 / 1024) ∧
      isFloat (1 / 1024 - 1 / 2 ^ 30) ∧ (1 / 1024 : ℚ) ≠ 1 / 1024 - 1 / 2 ^ 30 ∧
      ∀ fuel : ℕ, 2 ≤ fuel →
        IEEE.arc fuel (FP.fin (1 / 1024)) (FP.fin (1 / 1024 - 1 / 2 ^ 30)) 19 =
          some (FP.fin 342) ∧
        IEEE.arc fuel (FP.fin (1 / 1024)) (FP.fin (1 / 1024 - 1 / 2 ^ 30)) 20 =
          some (FP.fin 0)) := by
  refine ⟨⟨⟨by norm_num, by norm_num⟩, ⟨by norm_num, by norm_num⟩, round32_zero,
      round32_of_eq _ 11 1 (by norm_num) (by norm_num) (by norm_num), by norm_num,
      fun fuel hfuel => ⟨ieee_distance_tiny fuel hfuel, ieee_arc_tiny fuel hfuel 1,
        ieee_arc_tiny fuel hfuel 2⟩⟩,
    ⟨by norm_num, by norm_num⟩, ⟨by norm_num, by norm_num⟩,
    round32_of_eq _ 10 1 (by norm_num) (by norm_num) (by norm_num),
    round32_of_eq _ 30 1048575 (by norm_num) (by norm_num) (by norm_num), by norm_num,
    fun fuel hfuel => ⟨?_, ?_⟩⟩
  · have h19 : IEEE.InterpolateHand fuel (FP.fin (1 / 1024)) (FP.fin (1 / 1024 - 1 / 2 ^ 30))
        19 = some (FP.fin (350209 / 1024)) :=
      ieee_InterpolateHand_eval fuel _ _ 360 18 19 342 (350209 / 1024) (350209 / 1024)
        (350209 / 1024) 19 (ieee_distance_back fuel hfuel) (by norm_num)
        (round32_is _ _ 0 18 (by norm_num) (by norm_num) (by norm_num) (by norm_num))
        (round32_is _ _ 0 19 (by norm_num) (by norm_num) (by norm_num) (by norm_num))
        (round32_is _ _ 0 342 (by norm_num) (by norm_num) (by norm_num) (by norm_num))
        (round32_is _ _ 10 350209 (by norm_num) (by norm_num) (by norm_num) (by norm_num))
        (ieee_NormalizeAngle_of_mem fuel (by omega) _ (by norm_num) (by norm_num))
        (round32_is _ _ 10 350209 (by norm_num) (by norm_num) (by norm_num) (by norm_num))
    unfold IEEE.arc
    rw [h19, Option.some_bind]
    exact ieee_GetAngleDifference_small fuel (by omega) _ _ 342 (by norm_num)
      (round32_is _ _ 0 342 (by norm_num) (by norm_num) (by norm_num) (by norm_num))
      (by norm_num) (by norm_num)
  · have h20 : IEEE.InterpolateHand fuel (FP.fin (1 / 1024)) (FP.fin (1 / 1024 - 1 / 2 ^ 30))
        20 = some (FP.fin (1 / 1024)) :=
      ieee_InterpolateHand_eval fuel _ _ 360 18 20 360 (368641 / 1024) (1 / 1024)
        (1 / 1024) 20 (ieee_distance_back fuel hfuel) (by norm_num)
        (round32_is _ _ 0 18 (by norm_num) (by norm_num) (by norm_num) (by norm_num))
        (round32_is _ _ 0 20 (by norm_num) (by norm_num) (by norm_num) (by norm_num))
        (round32_is _ _ 0 360 (by norm_num) (by norm_num) (by norm_num) (by norm_num))
        (round32_is _ _ 10 368641 (by norm_num) (by norm_num) (by norm_num) (by norm_num))
        (ieee_NormalizeAngle_once fuel hfuel _ _ (by norm_num)
          (round64_is _ (1 / 1024) 10 1 (by norm_num) (by norm_num) (by norm_num)
            (by norm_num)) (by norm_num))
        (round32_is _ _ 10 1 (by norm_num) (by norm_num) (by norm_num) (by norm_num))
    unfold IEEE.arc
    rw [h20, Option.some_bind]
    exact ieee_GetAngleDifference_self fuel _

/-- C4 (as amended): for every `double` `x` that is an integer multiple of `2 ^ (-k)` with
`k ≤ 44` and a numerator below `2 ^ 53` in absolute value, `NormalizeAngle x` in IEEE
arithmetic terminates and returns the unique value `r` with `0 ≤ r < 360` such that `x - r`
is an integer multiple of 360, which is `x - 360 * floor (x / 360)`; hence it returns the
same value for two such `x` that differ by a multiple of 360. -/
theorem C4_NormalizeAngle_spec (k : ℕ) (hk : k ≤ 44) (m : ℤ) (hm : |m| < 2 ^ 53) :
    (∃ N : ℕ, ∀ fuel : ℕ, N ≤ fuel →
      IEEE.NormalizeAngle fuel (FP.fin ((m : ℚ) / 2 ^ k)) =
        some (FP.fin ((m : ℚ) / 2 ^ k - 360 * (⌊(m : ℚ) / 2 ^ k / 360⌋ : ℚ)))) ∧
    (0 ≤ (m : ℚ) / 2 ^ k - 360 * (⌊(m : ℚ) / 2 ^ k / 360⌋ : ℚ) ∧
      (m : ℚ) / 2 ^ k - 360 * (⌊(m : ℚ) / 2 ^ k / 360⌋ : ℚ) < 360) ∧
    (∀ r : ℚ, 0 ≤ r ∧ r < 360 ∧ (∃ j : ℤ, (m : ℚ) / 2 ^ k - r = 360 * (j : ℚ)) →
      r = (m : ℚ) / 2 ^ k - 360 * (⌊(m : ℚ) / 2 ^ k / 360⌋ : ℚ)) ∧
    (∀ n j : ℤ, |n| < 2 ^ 53 → (n : ℚ) / 2 ^ k = (m : ℚ) / 2 ^ k + 360 * (j : ℚ) →
      ∃ N : ℕ, ∀ fuel : ℕ, N ≤ fuel →
        IEEE.NormalizeAngle fuel (FP.fin ((n : ℚ) / 2 ^ k)) =
          some (FP.fin ((m : ℚ) / 2 ^ k - 360 * (⌊(m : ℚ) / 2 ^ k / 360⌋ : ℚ)))) := by
  obtain ⟨b0, b1⟩ := floor_rem_bounds ((m : ℚ) / 2 ^ k)
  refine ⟨⟨(⌊(m : ℚ) / 2 ^ k / 360⌋).natAbs + 1, fun fuel hf => ?_⟩, ⟨b0, b1⟩, ?_, ?_⟩
  · rw [ieee_NormalizeAngle_grid k hk m hm fuel hf, NormalizeAngle_eq]
  · rintro r ⟨r0, r1, j, hj⟩
    refine eq_of_congr_mem r0 r1 b0 b1 (⌊(m : ℚ) / 2 ^ k / 360⌋ - j) ?_
    push_cast
    linarith
  · intro n j hn hnj
    refine ⟨(⌊(n : ℚ) / 2 ^ k / 360⌋).natAbs + 1, fun fuel hf => ?_⟩
    rw [ieee_NormalizeAngle_grid k hk n hn fuel hf, hnj, NormalizeAngle_add_mul,
      NormalizeAngle_eq]

/-- C4 at `x = -725`: the function returns 355, as it does at 355 itself. -/
theorem C4_NormalizeAngle_spec_witness :
    (∃ N : ℕ, ∀ fuel : ℕ, N ≤ fuel →
      IEEE.NormalizeAngle fuel (FP.fin (-725)) = some (FP.fin 355)) ∧
    (∃ N : ℕ, ∀ fuel : ℕ, N ≤ fuel →
      IEEE.NormalizeAngle fuel (FP.fin 355) = some (FP.fin 355)) := by
  have h := C4_NormalizeAngle_spec 0 (by norm_num) (-725) (by norm_num [abs_of_neg])
  have hfl : ⌊((-725 : ℤ) : ℚ) / 2 ^ 0 / 360⌋ = -3 := by
    rw [Int.floor_eq_iff]; norm_num
  rw [hfl] at h
  have e1 : ((-725 : ℤ) : ℚ) / 2 ^ 0 = -725 := by norm_num
  have e2 : (-725 : ℚ) - 360 * ((-3 : ℤ) : ℚ) = 355 := by norm_num
  rw [e1, e2] at h
  refine ⟨h.1, ?_⟩
  have h3 := h.2.2.2 355 3 (by norm_num [abs_of_pos]) (by norm_num)
  have e3 : ((355 : ℤ) : ℚ) / 2 ^ 0 = 355 := by norm_num
  rw [e3] at h3
  exact h3

/-- C4 as stated fails in IEEE arithmetic.  First input: the `double` `x = -2 ^ (-70)`;
`x + 360` rounds to 360, the second loop subtracts 360 and the code returns 0, so that
`x - r` is not a multiple of 360.  Second input: the `double` `x = 10 ^ 20`; `x - 360`
rounds back to `x`, so the second loop never ends. -/
theorem C4_counterexample :
    (isDouble (-(1 / 2 ^ 70)) ∧
      (∀ fuel : ℕ, 2 ≤ fuel →
        IEEE.NormalizeAngle fuel (FP.fin (-(1 / 2 ^ 70))) = some (FP.fin 0)) ∧
      ¬ ∃ j : ℤ, (-(1 / 2 ^ 70) : ℚ) - 0 = 360 * (j : ℚ)) ∧
    (isDouble (10 ^ 20) ∧
      ∀ fuel : ℕ, IEEE.NormalizeAngle fuel (FP.fin (10 ^ 20)) = none) := by
  have h20 : binary64.round (10 ^ 20) = FP.fin (10 ^ 20) := by
    have := Fmt.round_exact binary64 95367431640625 20 (by norm_num [binary64])
      (by norm_num [binary64]) (by norm_num [binary64])
    have e : ((95367431640625 : ℤ) : ℚ) * 2 ^ (20 : ℤ) = 10 ^ 20 := by norm_num
    rwa [e] at this
  refine ⟨⟨?_, fun fuel hfuel => ?_, ?_⟩, h20, fun fuel => ?_⟩
  · exact round64_of_eq _ 70 (-1) (by norm_num) (by norm_num) (by norm_num)
  · obtain ⟨n, rfl⟩ : ∃ n, fuel = n + 2 := ⟨fuel - 2, by omega⟩
    unfold IEEE.NormalizeAngle
    rw [ieee_norm_up_step (n + 1) _ (by norm_num), round64_turn_less_70,
      IEEE.NormalizeAngle.normUp_of_nonneg n 360 (by norm_num), Option.some_bind,
      ieee_norm_down_step (n + 1) 360 le_rfl, sub_self, round64_zero,
      ieee_norm_down_stop n 0 (by norm_num)]
  · exact not_multiple_of_small _ (by norm_num) (by norm_num [abs_of_neg])
  · have hdown : ∀ n : ℕ, IEEE.NormalizeAngle.loopDown n (FP.fin (10 ^ 20)) = none := by
      intro n
      induction n with
      | zero => rfl
      | succ n ih =>
        rw [ieee_norm_down_step n _ (by norm_num), round64_huge_less_turn]
        exact ih
    unfold IEEE.NormalizeAngle
    cases fuel with
    | zero => rfl
    | succ n =>
      rw [IEEE.NormalizeAngle.normUp_of_nonneg n _ (by norm_num), Option.some_bind]
      exact hdown (n + 1)

/-- C5 (as amended): in IEEE arithmetic `GetAngleDifference (a, a)` is 0 for every `float`
`a` that is not a NaN; and for all `float`s `a ≠ b` that are integer multiples of
`2 ^ (-k)`, `k ≤ 15`, with numerators below `2 ^ 23` in absolute value,
`GetAngleDifference (a, b)` terminates with the value
`d = (b - a) - 360 * (ceil ((b - a) / 360) - 1)`, which lies in the half-open interval
(0, 360], differs from `b - a` by an integer multiple of 360, and is 360 when `b - a` is
itself a multiple of 360. -/
theorem C5_GetAngleDifference_spec :
    (∀ (fuel : ℕ) (a : FP), a ≠ FP.nan → IEEE.GetAngleDifference fuel a a = some (FP.fin 0)) ∧
    (∀ (k : ℕ) (ma mb : ℤ), k ≤ 15 → |ma| < 2 ^ 23 → |mb| < 2 ^ 23 → ma ≠ mb →
      (∃ N : ℕ, ∀ fuel : ℕ, N ≤ fuel →
        IEEE.GetAngleDifference fuel (FP.fin ((ma : ℚ) / 2 ^ k)) (FP.fin ((mb : ℚ) / 2 ^ k)) =
          some (FP.fin (((mb : ℚ) / 2 ^ k - (ma : ℚ) / 2 ^ k) -
            360 * ((⌈((mb : ℚ) / 2 ^ k - (ma : ℚ) / 2 ^ k) / 360⌉ : ℚ) - 1)))) ∧
      0 < ((mb : ℚ) / 2 ^ k - (ma : ℚ) / 2 ^ k) -
            360 * ((⌈((mb : ℚ) / 2 ^ k - (ma : ℚ) / 2 ^ k) / 360⌉ : ℚ) - 1) ∧
      ((mb : ℚ) / 2 ^ k - (ma : ℚ) / 2 ^ k) -
            360 * ((⌈((mb : ℚ) / 2 ^ k - (ma : ℚ) / 2 ^ k) / 360⌉ : ℚ) - 1) ≤ 360 ∧
      (∃ j : ℤ, ((mb : ℚ) / 2 ^ k - (ma : ℚ) / 2 ^ k) -
          (((mb : ℚ) / 2 ^ k - (ma : ℚ) / 2 ^ k) -
            360 * ((⌈((mb : ℚ) / 2 ^ k - (ma : ℚ) / 2 ^ k) / 360⌉ : ℚ) - 1)) =
          360 * (j : ℚ)) ∧
      ((∃ j : ℤ, (mb : ℚ) / 2 ^ k - (ma : ℚ) / 2 ^ k = 360 * (j : ℚ)) →
        ((mb : ℚ) / 2 ^ k - (ma : ℚ) / 2 ^ k) -
            360 * ((⌈((mb : ℚ) / 2 ^ k - (ma : ℚ) / 2 ^ k) / 360⌉ : ℚ) - 1) = 360)) := by
  refine ⟨fun fuel a ha => ?_, fun k ma mb hk hma hmb hne => ?_⟩
  · cases a with
    | fin q => simp [IEEE.GetAngleDifference, FP.eq]
    | inf s => simp [IEEE.GetAngleDifference, FP.eq]
    | nan => exact absurd rfl ha
  · have hneq : (ma : ℚ) / 2 ^ k ≠ (mb : ℚ) / 2 ^ k := by
      intro h
      have h1 := (grid_le k ma mb).mp h.le
      have h2 := (grid_le k mb ma).mp h.ge
      exact hne (le_antisymm h1 h2)
    obtain ⟨b0, b1⟩ := ceil_rem_bounds ((mb : ℚ) / 2 ^ k - (ma : ℚ) / 2 ^ k)
    refine ⟨⟨(⌈((mb : ℚ) / 2 ^ k - (ma : ℚ) / 2 ^ k) / 360⌉ - 1).natAbs + 1,
      fun fuel hf => ?_⟩, b0, b1,
      ⟨⌈((mb : ℚ) / 2 ^ k - (ma : ℚ) / 2 ^ k) / 360⌉ - 1, by push_cast; ring⟩, ?_⟩
    · rw [ieee_GetAngleDifference_grid k hk ma mb
        (by rw [abs_lt] at hma hmb ⊢; constructor <;> omega) fuel hf,
        GetAngleDifference_eq hneq]
    · rintro ⟨j, hj⟩
      rw [hj]
      have e : (360 * (j : ℚ)) / 360 = ((j : ℤ) : ℚ) := by field_simp
      rw [e, Int.ceil_intCast]
      ring

/-- C5 from 350 to 10 and from 0 to 720: the forward distances are 20 and 360. -/
theorem C5_GetAngleDifference_spec_witness :
    (∃ N : ℕ, ∀ fuel : ℕ, N ≤ fuel →
      IEEE.GetAngleDifference fuel (FP.fin 350) (FP.fin 10) = some (FP.fin 20)) ∧
    (∃ N : ℕ, ∀ fuel : ℕ, N ≤ fuel →
      IEEE.GetAngleDifference fuel (FP.fin 0) (FP.fin 720) = some (FP.fin 360)) := by
  have h1 := (C5_GetAngleDifference_spec.2 0 350 10 (by norm_num) (by norm_num [abs_of_pos])
    (by norm_num [abs_of_pos]) (by norm_num)).1
  have h2 := (C5_GetAngleDifference_spec.2 0 0 720 (by norm_num) (by norm_num)
    (by norm_num [abs_of_pos]) (by norm_num)).1
  have c1 : ⌈(((10 : ℤ) : ℚ) / 2 ^ 0 - ((350 : ℤ) : ℚ) / 2 ^ 0) / 360⌉ = 0 := by
    rw [Int.ceil_eq_iff]; norm_num
  have c2 : ⌈(((720 : ℤ) : ℚ) / 2 ^ 0 - ((0 : ℤ) : ℚ) / 2 ^ 0) / 360⌉ = 2 := by
    rw [Int.ceil_eq_iff]; norm_num
  rw [c1] at h1
  rw [c2] at h2
  have e1 : (((10 : ℤ) : ℚ) / 2 ^ 0 - ((350 : ℤ) : ℚ) / 2 ^ 0) - 360 * (((0 : ℤ) : ℚ) - 1) = 20 := by
    norm_num
  have e2 : (((720 : ℤ) : ℚ) / 2 ^ 0 - ((0 : ℤ) : ℚ) / 2 ^ 0) - 360 * (((2 : ℤ) : ℚ) - 1) = 360 := by
    norm_num
  rw [e1] at h1
  rw [e2] at h2
  have a1 : ((350 : ℤ) : ℚ) / 2 ^ 0 = 350 := by norm_num
  have a2 : ((10 : ℤ) : ℚ) / 2 ^ 0 = 10 := by norm_num
  have a3 : ((0 : ℤ) : ℚ) / 2 ^ 0 = 0 := by norm_num
  have a4 : ((720 : ℤ) : ℚ) / 2 ^ 0 = 720 := by norm_num
  rw [a1, a2] at h1
  rw [a3, a4] at h2
  exact ⟨h1, h2⟩

/-- C5 as stated fails in IEEE arithmetic.  First input: `a = 0`, `b = 2 ^ 40`; the
subtraction `d -= 360.0f` rounds back to `2 ^ 40`, so the second loop never ends.  Second
input: `a = 2 ^ (-30)`, `b = 1`; `b - a` rounds to 1 and the code returns 1, so that
`(b - a) - d = -2 ^ (-30)` is not a multiple of 360.  Third input: a NaN, for which
`a == a` is false and the code returns the NaN, not 0. -/
theorem C5_counterexample :
    (isFloat (2 ^ 40) ∧
      ∀ fuel : ℕ, IEEE.GetAngleDifference fuel (FP.fin 0) (FP.fin (2 ^ 40)) = none) ∧
    (isFloat (1 / 2 ^ 30) ∧ isFloat 1 ∧
      (∀ fuel : ℕ, 1 ≤ fuel →
        IEEE.GetAngleDifference fuel (FP.fin (1 / 2 ^ 30)) (FP.fin 1) = some (FP.fin 1)) ∧
      ¬ ∃ j : ℤ, ((1 : ℚ) - 1 / 2 ^ 30) - 1 = 360 * (j : ℚ)) ∧
    (∀ fuel : ℕ, 1 ≤ fuel → IEEE.GetAngleDifference fuel FP.nan FP.nan = some FP.nan) := by
  refine ⟨⟨?_, fun fuel => ?_⟩, ⟨?_, ?_, fun fuel hfuel => ?_, ?_⟩, fun fuel hfuel => ?_⟩
  · exact round32_huge
  · have hdown : ∀ n : ℕ, IEEE.GetAngleDifference.loopDown n (FP.fin (2 ^ 40)) = none := by
      intro n
      induction n with
      | zero => rfl
      | succ n ih =>
        rw [ieee_gad_down_step n _ (by norm_num), round32_huge_less_turn]
        exact ih
    have h40 : binary32.round (2 ^ 40 - 0) = FP.fin (2 ^ 40) := by
      rw [sub_zero]
      exact round32_huge
    unfold IEEE.GetAngleDifference
    rw [FP.eq_fin, decide_eq_false (by norm_num), if_neg (by simp)]
    simp only
    rw [FP.sub_fin, h40]
    cases fuel with
    | zero => rfl
    | succ n =>
      rw [IEEE.GetAngleDifference.loopUp_of_pos n _ (by norm_num), Option.some_bind]
      exact hdown (n + 1)
  · exact round32_of_eq _ 30 1 (by norm_num) (by norm_num) (by norm_num)
  · exact round32_of_eq _ 0 1 (by norm_num) (by norm_num) (by norm_num)
  · exact ieee_GetAngleDifference_small fuel hfuel _ _ 1 (by norm_num) round32_one_less_30
      (by norm_num) (by norm_num)
  · exact not_multiple_of_small _ (by norm_num) (by norm_num [abs_of_neg])
  · obtain ⟨n, rfl⟩ : ∃ n, fuel = n + 1 := ⟨fuel - 1, by omega⟩
    rfl

/-- C6: for hours in 0..23 and minutes, seconds in 0..59 the display built from the time
fields has six cells whose digit values are, in order, hours/10, hours%10, minutes/10,
minutes%10, seconds/10, seconds%10, each in 0..9, and cell `i` is `GetCellForNumber` of
digit `i`. -/
theorem C6_build_digits (hours minutes seconds : Int) (hh : 0 ≤ hours ∧ hours ≤ 23)
    (hm : 0 ≤ minutes ∧ minutes ≤ 59) (hs : 0 ≤ seconds ∧ seconds ≤ 59) :
    (build hours minutes seconds).values =
      [hours / 10, hours % 10, minutes / 10, minutes % 10, seconds / 10, seconds % 10] ∧
    (∀ d ∈ (build hours minutes seconds).values, 0 ≤ d ∧ d ≤ 9) ∧
    (∀ i : Fin 6, (build hours minutes seconds).cells i =
      GetCellForNumber (![hours / 10, hours % 10, minutes / 10, minutes % 10,
        seconds / 10, seconds % 10] i)) := by
  have e : UpdateDigitalClock.digits hours minutes seconds =
      ![hours / 10, hours % 10, minutes / 10, minutes % 10, seconds / 10, seconds % 10] := by
    unfold UpdateDigitalClock.digits
    rw [Int.tdiv_eq_ediv hh.1 (by norm_num), Int.tmod_eq_emod hh.1 (by norm_num),
      Int.tdiv_eq_ediv hm.1 (by norm_num), Int.tmod_eq_emod hm.1 (by norm_num),
      Int.tdiv_eq_ediv hs.1 (by norm_num), Int.tmod_eq_emod hs.1 (by norm_num)]
  have hv : (build hours minutes seconds).values =
      [hours / 10, hours % 10, minutes / 10, minutes % 10, seconds / 10, seconds % 10] := by
    simp [DigitalClock.values, List.finRange, build_cells, GetCellForNumber_value, e]
  refine ⟨hv, ?_, fun i => by rw [build_cells, e]⟩
  intro d hd
  rw [hv] at hd
  simp only [List.mem_cons, List.mem_singleton, List.not_mem_nil, or_false] at hd
  omega

/-- C6 at 01:02:03 and at 23:59:59. -/
theorem C6_build_digits_witness :
    (build 1 2 3).values = [0, 1, 0, 2, 0, 3] ∧ (build 23 59 59).values = [2, 3, 5, 9, 5, 9] :=
  ⟨(C6_build_digits 1 2 3 (by decide) (by decide) (by decide)).1,
   (C6_build_digits 23 59 59 (by decide) (by decide) (by decide)).1⟩

/-- C7 (as amended): if cell `i` of the previous display equals cell `i` of the target
display and every hand angle of that cell is a `float` (as every angle of the digit table
is), then in IEEE arithmetic the interpolation of that cell returns exactly that cell, and
cell `i` of every display returned by `GetClockToDraw` is exactly that cell, at every
frame. -/
theorem C7_unchanged_cell (previous target : DigitalClock) (i : Fin 6)
    (h : previous.cells i = target.cells i)
    (hfl : ∀ x y, isFloat ((previous.cells i).analog_clocks x y).hours_hand_angle ∧
      isFloat ((previous.cells i).analog_clocks x y).minutes_hand_angle)
    (fuel : ℕ) (f : Int) :
    (f < 20 → IEEE.GetClockToDraw.cell fuel (previous.cells i) (target.cells i) f =
      some (previous.cells i)) ∧
    (∀ out, IEEE.GetClockToDraw fuel previous target f = some out →
      out.cells i = previous.cells i) := by
  have hcell : IEEE.GetClockToDraw.cell fuel (previous.cells i) (target.cells i) f =
      some (previous.cells i) := by
    rw [← h]
    exact ieee_cell_same (previous.cells i) hfl fuel f
  refine ⟨fun _ => hcell, fun out hout => ?_⟩
  rcases le_or_lt 20 f with hf | hf
  · unfold IEEE.GetClockToDraw at hout
    rw [castInt_ANIM_DURATION, if_pos hf] at hout
    injection hout with hout
    rw [← hout, h]
  · have := ieee_GetClockToDraw_cells fuel previous target out f hf hout i
    rw [hcell] at this
    injection this with this
    exact this.symm

/-- C7 for the displays of 10:00:00 and 10:00:01 at frame 10: the frame is returned and its
cells of the hours, the minutes and the tens of seconds are exactly those of the previous
display. -/
theorem C7_unchanged_cell_witness :
    ∃ out, IEEE.GetClockToDraw 2 (build 10 0 0) (build 10 0 1) 10 = some out ∧
      out.cells 0 = (build 10 0 0).cells 0 ∧ out.cells 1 = (build 10 0 0).cells 1 ∧
      out.cells 2 = (build 10 0 0).cells 2 ∧ out.cells 3 = (build 10 0 0).cells 3 ∧
      out.cells 4 = (build 10 0 0).cells 4 := by
  have hout := ieee_GetClockToDraw_exact (build 10 0 0) (build 10 0 1) (build_exact 10 0 0)
    (build_exact 10 0 1) 10 (by decide) 2 le_rfl
  have hfl : ∀ i x y, isFloat (((build 10 0 0).cells i).analog_clocks x y).hours_hand_angle ∧
      isFloat (((build 10 0 0).cells i).analog_clocks x y).minutes_hand_angle :=
    fun i x y => ⟨exactAngle_isFloat (build_exact 10 0 0 i x y).1,
      exactAngle_isFloat (build_exact 10 0 0 i x y).2⟩
  exact ⟨_, hout,
    (C7_unchanged_cell _ _ 0 (by rw [build_cells, build_cells]
                                 exact congrArg GetCellForNumber (by decide))
      (hfl 0) 2 10).2 _ hout,
    (C7_unchanged_cell _ _ 1 (by rw [build_cells, build_cells]
                                 exact congrArg GetCellForNumber (by decide))
      (hfl 1) 2 10).2 _ hout,
    (C7_unchanged_cell _ _ 2 (by rw [build_cells, build_cells]
                                 exact congrArg GetCellForNumber (by decide))
      (hfl 2) 2 10).2 _ hout,
    (C7_unchanged_cell _ _ 3 (by rw [build_cells, build_cells]
                                 exact congrArg GetCellForNumber (by decide))
      (hfl 3) 2 10).2 _ hout,
    (C7_unchanged_cell _ _ 4 (by rw [build_cells, build_cells]
                                 exact congrArg GetCellForNumber (by decide))
      (hfl 4) 2 10).2 _ hout⟩

/-- C7 as stated fails in IEEE arithmetic.  Input: previous and target both the display of
00:00:00 with one hand of the last cell at the `double` `1 + 2 ^ (-30)`, so that the last
cell of previous equals the last cell of the target.  At every frame before the end of the
animation that hand is narrowed to `float` and drawn at 1: the drawn cell is not the cell of
previous. -/
theorem C7_counterexample :
    isDouble (1 + 1 / 2 ^ 30) ∧
    ((build 0 0 0).withHand (1 + 1 / 2 ^ 30)).cells 5 =
      ((build 0 0 0).withHand (1 + 1 / 2 ^ 30)).cells 5 ∧
    ∀ (fuel : ℕ) (f : Int), 0 ≤ f → f < 20 →
      ∃ out, IEEE.GetClockToDraw fuel ((build 0 0 0).withHand (1 + 1 / 2 ^ 30))
          ((build 0 0 0).withHand (1 + 1 / 2 ^ 30)) f = some out ∧
        ((out.cells 5).analog_clocks 0 0).hours_hand_angle = 1 ∧
        out.cells 5 ≠ ((build 0 0 0).withHand (1 + 1 / 2 ^ 30)).cells 5 := by
  refine ⟨round64_of_eq _ 30 1073741825 (by norm_num) (by norm_num) (by norm_num), rfl,
    fun fuel f _ hf => ?_⟩
  refine ⟨(build 0 0 0).withHand 1,
    ieee_GetClockToDraw_withHand (build 0 0 0) (build_isFloat 0 0 0) (1 + 1 / 2 ^ 30)
      (1 + 1 / 2 ^ 30) 1 fuel f hf
      (ieee_drawHand_narrow (1 + 1 / 2 ^ 30) 1 round32_one_more_30 fuel f),
    DigitalClock.withHand_hand (build 0 0 0) 1, ?_⟩
  intro e
  have h1 := DigitalClock.withHand_hand (build 0 0 0) 1
  rw [e, DigitalClock.withHand_hand] at h1
  norm_num at h1

/-- C8 (as amended): for hand angles `p ≠ t` that are integer multiples of 5/4096 in
`[0, 360)`, in IEEE arithmetic `InterpolateHand p t 10` is exactly halfway along the forward
arc.  In particular this holds for every hand that differs between the units-of-seconds
cells of the displays of 10:00:00 (digit 0) and 10:00:01 (digit 1); position `[3][0]` goes
from (180, 270) to (225, 225) and reads (202.5, 67.5) at frame 10. -/
theorem C8_halfway :
    (∀ p t : ℚ, exactAngle p → exactAngle t → p ≠ t → ∀ fuel : ℕ, 2 ≤ fuel →
      ∃ D : ℚ, IEEE.GetAngleDifference fuel (FP.fin p) (FP.fin t) = some (FP.fin D) ∧
        IEEE.arc fuel (FP.fin p) (FP.fin t) 10 = some (FP.fin (D / 2))) ∧
    (∀ fuel : ℕ, 2 ≤ fuel →
      ∃ out, IEEE.GetClockToDraw fuel (build 10 0 0) (build 10 0 1) 10 = some out ∧
        ((build 10 0 0).cells 5).analog_clocks 3 0 = ⟨180, 270⟩ ∧
        ((build 10 0 1).cells 5).analog_clocks 3 0 = ⟨225, 225⟩ ∧
        (out.cells 5).analog_clocks 3 0 = ⟨405 / 2, 135 / 2⟩ ∧
        ∀ (x : Fin 4) (y : Fin 6) (minutes : Bool),
          (((build 10 0 0).cells 5).analog_clocks x y).hand minutes ≠
            (((build 10 0 1).cells 5).analog_clocks x y).hand minutes →
          ∃ D : ℚ,
            IEEE.GetAngleDifference fuel
              (FP.fin ((((build 10 0 0).cells 5).analog_clocks x y).hand minutes))
              (FP.fin ((((build 10 0 1).cells 5).analog_clocks x y).hand minutes))
              = some (FP.fin D) ∧
            IEEE.GetAngleDifference fuel
              (FP.fin ((((build 10 0 0).cells 5).analog_clocks x y).hand minutes))
              (FP.fin (((out.cells 5).analog_clocks x y).hand minutes))
              = some (FP.fin (D / 2))) := by
  have half : ∀ p t : ℚ, exactAngle p → exactAngle t → p ≠ t →
      GetAngleDifference p (InterpolateHand p t 10) = GetAngleDifference p t / 2 :=
    fun p t hp ht hne => halfway_of_ge (exactAngle_normalised hp) (exactAngle_normalised ht) hne
      (exactAngle_ge_eps hp ht hne)
  constructor
  · intro p t hp ht hne fuel hfuel
    refine ⟨_, ieee_GetAngleDifference_exact p t hp ht fuel hfuel, ?_⟩
    rw [ieee_arc_exact p t hp ht 10 (by decide) (by decide) fuel hfuel, half p t hp ht hne]
  · intro fuel hfuel
    refine ⟨GetClockToDraw (build 10 0 0) (build 10 0 1) 10,
      ieee_GetClockToDraw_exact _ _ (build_exact 10 0 0) (build_exact 10 0 1) 10 (by decide)
        fuel hfuel,
      by rw [build_10_0_0_cell5, zero_3_0], by rw [build_10_0_1_cell5, one_3_0], ?_, ?_⟩
    · rw [GetClockToDraw_cells _ _ 10 (by decide) 5, build_10_0_0_cell5, build_10_0_1_cell5]
      simp only [zero_3_0, one_3_0]
      rw [InterpolateHand_of_ge 10 (by rw [GetAngleDifference_180_225]; norm_num),
        InterpolateHand_of_ge 10 (by rw [GetAngleDifference_270_225]; norm_num),
        GetAngleDifference_180_225, GetAngleDifference_270_225]
      have e1 : (180 : ℚ) + 45 / 20 * ((10 : ℤ) : ℚ) = 405 / 2 := by norm_num
      have e2 : (270 : ℚ) + 315 / 20 * ((10 : ℤ) : ℚ) = 135 / 2 + 360 * ((1 : ℤ) : ℚ) := by
        norm_num
      rw [e1, e2, NormalizeAngle_of_mem (by norm_num) (by norm_num),
        NormalizeAngle_of_congr (135 / 2) 1 (by norm_num) (by norm_num)]
    · intro x y minutes hne
      have hp : exactAngle ((((build 10 0 0).cells 5).analog_clocks x y).hand minutes) := by
        cases minutes
        · exact (build_exact 10 0 0 5 x y).1
        · exact (build_exact 10 0 0 5 x y).2
      have ht : exactAngle ((((build 10 0 1).cells 5).analog_clocks x y).hand minutes) := by
        cases minutes
        · exact (build_exact 10 0 1 5 x y).1
        · exact (build_exact 10 0 1 5 x y).2
      have ho : ((((GetClockToDraw (build 10 0 0) (build 10 0 1) 10).cells 5).analog_clocks
          x y).hand minutes) =
          InterpolateHand ((((build 10 0 0).cells 5).analog_clocks x y).hand minutes)
            ((((build 10 0 1).cells 5).analog_clocks x y).hand minutes) 10 := by
        rw [GetClockToDraw_cells _ _ 10 (by decide) 5]
        cases minutes <;> rfl
      refine ⟨_, ieee_GetAngleDifference_exact _ _ hp ht fuel hfuel, ?_⟩
      rw [ho, ← half _ _ hp ht hne]
      have h := ieee_arc_exact _ _ hp ht 10 (by decide) (by decide) fuel hfuel
      unfold IEEE.arc at h
      rw [ieee_InterpolateHand_exact _ _ hp ht 10 (by decide) (by decide) fuel hfuel,
        Option.some_bind] at h
      exact h

/-- C8 for the two hands of position `[3][0]`: from 180 to 225 and from 270 to 225. -/
theorem C8_halfway_witness :
    (∃ D : ℚ, IEEE.GetAngleDifference 2 (FP.fin 180) (FP.fin 225) = some (FP.fin D) ∧
      IEEE.arc 2 (FP.fin 180) (FP.fin 225) 10 = some (FP.fin (D / 2))) ∧
    (∃ D : ℚ, IEEE.GetAngleDifference 2 (FP.fin 270) (FP.fin 225) = some (FP.fin D) ∧
      IEEE.arc 2 (FP.fin 270) (FP.fin 225) 10 = some (FP.fin (D / 2))) :=
  ⟨C8_halfway.1 180 225 (tableAngle_exact (by norm_num [tableAngle]))
      (tableAngle_exact (by norm_num [tableAngle])) (by norm_num) 2 le_rfl,
   C8_halfway.1 270 225 (tableAngle_exact (by norm_num [tableAngle]))
      (tableAngle_exact (by norm_num [tableAngle])) (by norm_num) 2 le_rfl⟩

/-- C8 as stated fails in IEEE arithmetic.  First input: `p = 0`, `t = 2 ^ (-11)`; the
distance is below `0.001f` and the hand stands at `t` at frame 10, the whole distance away
from `p`.  Second input: `p = 0`, `t = 0.1f = 13421773 / 2 ^ 27`, a distance above 0.001;
`diff / 20` rounds to `5368709 / 2 ^ 30` and ten times that rounds to `3355443 / 2 ^ 26`, which
is not half the distance. -/
theorem C8_counterexample :
    (normalised 0 ∧ normalised (1 / 2048) ∧ isFloat 0 ∧ isFloat (1 / 2048) ∧
      (0 : ℚ) ≠ 1 / 2048 ∧
      (∀ fuel : ℕ, 1 ≤ fuel →
        IEEE.GetAngleDifference fuel (FP.fin 0) (FP.fin (1 / 2048)) =
          some (FP.fin (1 / 2048)) ∧
        IEEE.arc fuel (FP.fin 0) (FP.fin (1 / 2048)) 10 = some (FP.fin (1 / 2048))) ∧
      (1 / 2048 : ℚ) ≠ 1 / 2048 / 2) ∧
    (normalised (13421773 / 134217728) ∧ isFloat (13421773 / 134217728) ∧
      (0 : ℚ) ≠ 13421773 / 134217728 ∧ (1 / 1000 : ℚ) ≤ 13421773 / 134217728 ∧
      (∀ fuel : ℕ, 1 ≤ fuel →
        IEEE.GetAngleDifference fuel (FP.fin 0) (FP.fin (13421773 / 134217728)) =
          some (FP.fin (13421773 / 134217728)) ∧
        IEEE.arc fuel (FP.fin 0) (FP.fin (13421773 / 134217728)) 10 =
          some (FP.fin (3355443 / 67108864))) ∧
      (3355443 / 67108864 : ℚ) ≠ 13421773 / 134217728 / 2) := by
  refine ⟨⟨⟨by norm_num, by norm_num⟩, ⟨by norm_num, by norm_num⟩, round32_zero,
      round32_of_eq _ 11 1 (by norm_num) (by norm_num) (by norm_num), by norm_num,
      fun fuel hfuel => ⟨ieee_distance_tiny fuel hfuel, ieee_arc_tiny fuel hfuel 10⟩,
      by norm_num⟩,
    ⟨by norm_num, by norm_num⟩,
    round32_of_eq _ 27 13421773 (by norm_num) (by norm_num) (by norm_num), by norm_num,
    by norm_num, fun fuel hfuel => ⟨ieee_distance_tenth fuel hfuel, ?_⟩, by norm_num⟩
  have h10 : IEEE.InterpolateHand fuel (FP.fin 0) (FP.fin (13421773 / 134217728)) 10 =
      some (FP.fin (3355443 / 67108864)) :=
    ieee_InterpolateHand_eval fuel _ _ (13421773 / 134217728) (5368709 / 1073741824) 10
      (3355443 / 67108864) (3355443 / 67108864) (3355443 / 67108864) (3355443 / 67108864) 10
      (ieee_distance_tenth fuel hfuel) (by norm_num) round32_tenth_step
      (round32_is _ _ 0 10 (by norm_num) (by norm_num) (by norm_num) (by norm_num))
      round32_tenth_moved
      (round32_is _ _ 26 3355443 (by norm_num) (by norm_num) (by norm_num) (by norm_num))
      (ieee_NormalizeAngle_of_mem fuel hfuel _ (by norm_num) (by norm_num))
      (round32_is _ _ 26 3355443 (by norm_num) (by norm_num) (by norm_num) (by norm_num))
  unfold IEEE.arc
  rw [h10, Option.some_bind]
  exact ieee_GetAngleDifference_small fuel hfuel _ _ _ (by norm_num)
    (round32_is _ _ 26 3355443 (by norm_num) (by norm_num) (by norm_num) (by norm_num))
    (by norm_num) (by norm_num)

/-- C9 (as amended): `GetCellForNumber` has no error path.  For every integer `d` outside
0..9 it returns the cell with value `d` whose 24 positions all hold the initial pose, both
hands at 225. -/
theorem C9_lookup_total (d : Int) (h : d < 0 ∨ 9 < d) :
    GetCellForNumber d = restingCell d ∧
    Except.ok (GetCellForNumber d) ≠ specLookup d := by
  refine ⟨GetCellForNumber_of_not_digit d h, ?_⟩
  have hd : ¬ (0 ≤ d ∧ d ≤ 9) := by omega
  simp [specLookup, hd]

/-- C9 at the input -3. -/
theorem C9_lookup_total_witness :
    GetCellForNumber (-3) = restingCell (-3) ∧
    Except.ok (GetCellForNumber (-3)) ≠ specLookup (-3) :=
  C9_lookup_total (-3) (Or.inl (by decide))

/-- C9 as stated fails at the input 10: the specification asks for the error
`InvalidDigit`, the code returns the cell with value 10 and every position at (225, 225). -/
theorem C9_counterexample :
    specLookup 10 = Except.error CoreError.InvalidDigit ∧
    GetCellForNumber 10 = restingCell 10 ∧
    (Except.ok (GetCellForNumber 10) : Except CoreError Cell) ≠ Except.error CoreError.InvalidDigit :=
  ⟨by simp [specLookup], GetCellForNumber_of_not_digit 10 (Or.inr (by decide)),
    by simp⟩

/-- C10 (as amended): the construction of a display validates nothing.  For all integer time
fields it returns the six cells of the digits obtained by truncating division and remainder
by 10, each looked up with `GetCellForNumber`. -/
theorem C10_build_total (hours minutes seconds : Int) :
    (build hours minutes seconds).values =
      [Int.tdiv hours 10, Int.tmod hours 10, Int.tdiv minutes 10, Int.tmod minutes 10,
        Int.tdiv seconds 10, Int.tmod seconds 10] ∧
    (∀ i : Fin 6, (build hours minutes seconds).cells i =
      GetCellForNumber (![Int.tdiv hours 10, Int.tmod hours 10, Int.tdiv minutes 10,
        Int.tmod minutes 10, Int.tdiv seconds 10, Int.tmod seconds 10] i)) :=
  ⟨build_values hours minutes seconds, fun i => build_cells hours minutes seconds i⟩

/-- C10 as stated fails at the input (24, 0, 0): the specification asks for the error
`InvalidTimeComponent`, the code decomposes the fields into the digits 2, 4, 0, 0, 0, 0 and
returns their six table cells. -/
theorem C10_counterexample :
    specBuild 24 0 0 = Except.error CoreError.InvalidTimeComponent ∧
    (build 24 0 0).values = [2, 4, 0, 0, 0, 0] ∧
    (build 24 0 0).cells 0 = GetCellForNumber 2 ∧
    (build 24 0 0).cells 1 = GetCellForNumber 4 ∧
    (Except.ok (build 24 0 0) : Except CoreError DigitalClock)
      ≠ Except.error CoreError.InvalidTimeComponent := by
  refine ⟨by simp [specBuild], ?_, ?_, ?_, by simp⟩
  · rw [build_values]; decide
  · rw [build_cells]; exact congrArg GetCellForNumber (by decide)
  · rw [build_cells]; exact congrArg GetCellForNumber (by decide)

/-- C11 (as amended): at every grid position that the table of `GetCellForNumber` does not
explicitly set for `d` (for every integer `d`, in particular every digit 0..9), the hour
angle and the minute angle are equal and both are 225 degrees. -/
theorem C11_unset_pose (d : Int) (x : Fin 4) (y : Fin 6) (h : explicitlySet d x y = false) :
    ((GetCellForNumber d).analog_clocks x y).hours_hand_angle =
      ((GetCellForNumber d).analog_clocks x y).minutes_hand_angle ∧
    ((GetCellForNumber d).analog_clocks x y).hours_hand_angle = 225 ∧
    ((GetCellForNumber d).analog_clocks x y).minutes_hand_angle = 225 := by
  rw [GetCellForNumber_of_unset d x y h]
  exact ⟨rfl, rfl, rfl⟩

/-- C11 at position `[3][0]` of digit 1, which the table does not set. -/
theorem C11_unset_pose_witness :
    explicitlySet 1 3 0 = false ∧
    ((GetCellForNumber 1).analog_clocks 3 0).hours_hand_angle =
      ((GetCellForNumber 1).analog_clocks 3 0).minutes_hand_angle ∧
    ((GetCellForNumber 1).analog_clocks 3 0).hours_hand_angle = 225 ∧
    ((GetCellForNumber 1).analog_clocks 3 0).minutes_hand_angle = 225 :=
  ⟨by decide, C11_unset_pose 1 3 0 (by decide)⟩

/-- C11 as stated fails at position `[0][2]` of digit 7: the table does not set it, and both
hands stand at 225 degrees, not at 45. -/
theorem C11_counterexample :
    explicitlySet 7 0 2 = false ∧
    (GetCellForNumber 7).analog_clocks 0 2 = ⟨225, 225⟩ ∧
    ((GetCellForNumber 7).analog_clocks 0 2).hours_hand_angle ≠ 45 ∧
    ((GetCellForNumber 7).analog_clocks 0 2).minutes_hand_angle ≠ 45 := by
  have hu : explicitlySet 7 0 2 = false := by decide
  rw [GetCellForNumber_of_unset 7 0 2 hu]
  exact ⟨hu, rfl, by norm_num, by norm_num⟩

/-- C12: one iteration of the render loop.  When the observed second differs from
`last_second`, the new `old_clock` is exactly the prior `current_clock`, the new
`current_clock` is built from the time read in the iteration, and the frame drawn is
`GetClockToDraw` at frame 0.  When the second is unchanged, `old_clock` and `current_clock`
are unchanged, the frame drawn is the one of the current counter, and `frame_counter` grows
by exactly 1. -/
theorem C12_loop_step (s : LoopState) (inp : LoopInput) :
    (inp.cur_sec ≠ s.last_second →
      (mainLoopBody s inp).old_clock = s.current_clock ∧
      (mainLoopBody s inp).current_clock = build inp.tm_hour inp.tm_min inp.tm_sec ∧
      (mainLoopBody s inp).draw_clock =
        GetClockToDraw s.current_clock (build inp.tm_hour inp.tm_min inp.tm_sec) 0 ∧
      (mainLoopBody s inp).last_second = inp.cur_sec ∧
      (mainLoopBody s inp).frame_counter = 1) ∧
    (inp.cur_sec = s.last_second →
      (mainLoopBody s inp).old_clock = s.old_clock ∧
      (mainLoopBody s inp).current_clock = s.current_clock ∧
      (mainLoopBody s inp).draw_clock =
        GetClockToDraw s.old_clock s.current_clock s.frame_counter ∧
      (mainLoopBody s inp).last_second = s.last_second ∧
      (mainLoopBody s inp).frame_counter = s.frame_counter + 1) := by
  constructor
  · intro h
    rw [mainLoopBody_of_change s inp h]
    exact ⟨rfl, rfl, rfl, rfl, rfl⟩
  · intro h
    rw [mainLoopBody_of_same s inp h]
    exact ⟨rfl, rfl, rfl, rfl, rfl⟩

/-- C12 on the state reached by the slow run (second 1, counter 11): an iteration in second 2
snapshots the target 10:00:01 and draws frame 0; an iteration still in second 1 keeps both
displays and moves the counter to 12. -/
theorem C12_loop_step_witness :
    ((mainLoopBody slowRunState slowRunNext).old_clock = slowRunState.current_clock ∧
      (mainLoopBody slowRunState slowRunNext).frame_counter = 1) ∧
    ((mainLoopBody slowRunState ⟨1, 10, 0, 1⟩).old_clock = slowRunState.old_clock ∧
      (mainLoopBody slowRunState ⟨1, 10, 0, 1⟩).current_clock = slowRunState.current_clock ∧
      (mainLoopBody slowRunState ⟨1, 10, 0, 1⟩).frame_counter = 12) := by
  have hsec : slowRunState.last_second = 1 := by rw [slowRunState_eq]
  have hfc : slowRunState.frame_counter = 11 := by rw [slowRunState_eq]
  have h1 := (C12_loop_step slowRunState slowRunNext).1
    (by rw [hsec]; exact (by decide : (2 : Int) ≠ 1))
  have h2 := (C12_loop_step slowRunState ⟨1, 10, 0, 1⟩).2 (by rw [hsec])
  refine ⟨⟨h1.1, h1.2.2.2.2⟩, h2.1, h2.2.1, ?_⟩
  rw [h2.2.2.2.2, hfc]
  rfl

/-- C13 (as amended): when a change of second arrives, also while an animation is still in
flight, the previous display of the fresh animation is the prior target `current_clock`,
whatever the last drawn frame `draw_clock` was, and the first frame drawn is frame 0 of the
animation from that prior target to the newly built display. -/
theorem C13_restart_from_target (s : LoopState) (inp : LoopInput)
    (hsec : inp.cur_sec ≠ s.last_second) :
    (mainLoopBody s inp).old_clock = s.current_clock ∧
    (mainLoopBody s inp).draw_clock =
      GetClockToDraw s.current_clock (build inp.tm_hour inp.tm_min inp.tm_sec) 0 := by
  rw [mainLoopBody_of_change s inp hsec]
  exact ⟨rfl, rfl⟩

/-- C13 on the slow run: second 2 arrives at counter 11, and the fresh animation starts from
the target 10:00:01. -/
theorem C13_restart_from_target_witness :
    slowRunNext.cur_sec ≠ slowRunState.last_second ∧
    (mainLoopBody slowRunState slowRunNext).old_clock = slowRunState.current_clock ∧
    (mainLoopBody slowRunState slowRunNext).draw_clock =
      GetClockToDraw slowRunState.current_clock (build 10 0 2) 0 :=
  have hsec : slowRunNext.cur_sec ≠ slowRunState.last_second := by
    rw [slowRunState_eq]; exact (by decide : (2 : Int) ≠ 1)
  ⟨hsec, C13_restart_from_target slowRunState slowRunNext hsec⟩

/-- C13 as stated fails on the slow run.  The loop starts at 10:00:00 and draws only frames
0 to 10 of the animation toward 10:00:01 (counter 11, below 20) before second 2 arrives.
The previous display of the fresh animation is then the target 10:00:01, not the last drawn
frame: at position `[3][0]` of the last cell the hours hand was last drawn at 202.5 and the
fresh animation starts it from 225. -/
theorem C13_counterexample :
    slowRunState.frame_counter = 11 ∧
    slowRunState.draw_clock = GetClockToDraw (build 10 0 0) (build 10 0 1) 10 ∧
    slowRunNext.cur_sec ≠ slowRunState.last_second ∧
    (mainLoopBody slowRunState slowRunNext).old_clock = build 10 0 1 ∧
    (((slowRunState.draw_clock).cells 5).analog_clocks 3 0).hours_hand_angle = 405 / 2 ∧
    ((((mainLoopBody slowRunState slowRunNext).old_clock).cells 5).analog_clocks 3 0).hours_hand_angle
      = 225 ∧
    (mainLoopBody slowRunState slowRunNext).old_clock ≠ slowRunState.draw_clock := by
  have hne : slowRunNext.cur_sec ≠ slowRunState.last_second := by
    rw [slowRunState_eq]; exact (by decide : (2 : Int) ≠ 1)
  have hold : (mainLoopBody slowRunState slowRunNext).old_clock = build 10 0 1 := by
    rw [mainLoopBody_of_change _ _ hne, slowRunState_eq]
  have hdraw : slowRunState.draw_clock = GetClockToDraw (build 10 0 0) (build 10 0 1) 10 := by
    rw [slowRunState_eq]
  have h1 : (((slowRunState.draw_clock).cells 5).analog_clocks 3 0).hours_hand_angle
      = 405 / 2 := by
    rw [hdraw, GetClockToDraw_cells _ _ 10 (by decide) 5, build_10_0_0_cell5,
      build_10_0_1_cell5]
    simp only [zero_3_0, one_3_0]
    rw [InterpolateHand_of_ge 10 (by rw [GetAngleDifference_180_225]; norm_num),
      GetAngleDifference_180_225]
    have e1 : (180 : ℚ) + 45 / 20 * ((10 : ℤ) : ℚ) = 405 / 2 := by norm_num
    rw [e1, NormalizeAngle_of_mem (by norm_num) (by norm_num)]
  have h2 : ((((mainLoopBody slowRunState slowRunNext).old_clock).cells 5).analog_clocks
      3 0).hours_hand_angle = 225 := by
    rw [hold, build_10_0_1_cell5, one_3_0]
  refine ⟨by rw [slowRunState_eq], hdraw, hne, hold, h1, h2, ?_⟩
  intro h
  rw [h, h1] at h2
  norm_num at h2

/-- C15 (as amended): constant angular velocity up to and including arrival.  For displays
whose hand angles are all integer multiples of 5/4096 in `[0, 360)` and a hand whose previous
angle `p` and target angle `t` differ, at forward distance `D`, the angle drawn by
`GetClockToDraw` in IEEE arithmetic at a frame `f` in 0..19 is `p + D / 20 * f` reduced
modulo 360, the angle drawn at frame 20 is `t`, and every two consecutive frames `f`,
`f + 1` with `0 ≤ f < 20` are at forward distance exactly `D / 20`. -/
theorem C15_constant_velocity (previous target : DigitalClock) (hp : previous.exact)
    (ht : target.exact) (i : Fin 6) (x : Fin 4) (y : Fin 6) (minutes : Bool)
    (hne : ((previous.cells i).analog_clocks x y).hand minutes ≠
      ((target.cells i).analog_clocks x y).hand minutes)
    (fuel : ℕ) (hfuel : 2 ≤ fuel) :
    ∃ D : ℚ,
      IEEE.GetAngleDifference fuel (FP.fin (((previous.cells i).analog_clocks x y).hand minutes))
        (FP.fin (((target.cells i).analog_clocks x y).hand minutes)) = some (FP.fin D) ∧
      (∀ f : Int, 0 ≤ f → f < 20 →
        IEEE.handOut fuel previous target i x y minutes f =
          some (((previous.cells i).analog_clocks x y).hand minutes + D / 20 * (f : ℚ) -
            360 * (⌊(((previous.cells i).analog_clocks x y).hand minutes + D / 20 * (f : ℚ))
              / 360⌋ : ℚ))) ∧
      IEEE.handOut fuel previous target i x y minutes 20 =
        some (((target.cells i).analog_clocks x y).hand minutes) ∧
      (∀ f : Int, 0 ≤ f → f < 20 →
        ∃ o1 o2 : ℚ, IEEE.handOut fuel previous target i x y minutes f = some o1 ∧
          IEEE.handOut fuel previous target i x y minutes (f + 1) = some o2 ∧
          IEEE.GetAngleDifference fuel (FP.fin o1) (FP.fin o2) = some (FP.fin (D / 20))) := by
  have ep := DigitalClock.exact_hand hp i x y minutes
  have et := DigitalClock.exact_hand ht i x y minutes
  obtain ⟨h1, h2, h3⟩ := exact_constant_velocity previous target i x y minutes
    (exactAngle_normalised ep) (exactAngle_normalised et) hne (exactAngle_ge_eps ep et hne)
  have hgrid : ∀ f : Int, 0 ≤ f → f ≤ 20 →
      ∃ M : ℤ, 0 ≤ M ∧ M < 360 * 2 ^ 14 ∧
        handOut previous target i x y minutes f = (M : ℚ) / 2 ^ 14 := by
    intro f hf0 hf1
    rcases lt_or_eq_of_le hf1 with hlt | heq
    · rw [handOut_of_lt previous target i x y minutes f hlt]
      exact exact_InterpolateHand_grid _ _ ep et f
    · rw [heq, h2]
      exact exactAngle_turn et
  refine ⟨_, ieee_GetAngleDifference_exact _ _ ep et fuel hfuel, ?_, ?_, ?_⟩
  · intro f hf0 hf1
    rw [ieee_handOut_exact previous target hp ht i x y minutes f hf0 fuel hfuel, h1 f hf0 hf1,
      NormalizeAngle_eq]
  · rw [ieee_handOut_exact previous target hp ht i x y minutes 20 (by decide) fuel hfuel, h2]
  · intro f hf0 hf1
    refine ⟨_, _, ieee_handOut_exact previous target hp ht i x y minutes f hf0 fuel hfuel,
      ieee_handOut_exact previous target hp ht i x y minutes (f + 1) (by omega) fuel hfuel, ?_⟩
    rw [← h3 f hf0 hf1]
    obtain ⟨M, m0, m1, hM⟩ := hgrid f hf0 (by omega)
    obtain ⟨N, n0, n1, hN⟩ := hgrid (f + 1) (by omega) (by omega)
    rw [hM, hN]
    exact ieee_GetAngleDifference_turn 14 (by norm_num) M N m0 m1 n0 n1 fuel hfuel

/-- C15 for the hours hand at position `[3][0]` of the last cell, from 10:00:00 to 10:00:01:
the hand goes from 180 to 225, arrives at 225 at frame 20, and the last step, from frame 19
to frame 20, is 45 / 20 = 2.25 degrees like the first one. -/
theorem C15_constant_velocity_witness :
    IEEE.GetAngleDifference 2 (FP.fin 180) (FP.fin 225) = some (FP.fin 45) ∧
    IEEE.handOut 2 (build 10 0 0) (build 10 0 1) 5 3 0 false 20 = some 225 ∧
    (∃ o1 o2 : ℚ, IEEE.handOut 2 (build 10 0 0) (build 10 0 1) 5 3 0 false 19 = some o1 ∧
      IEEE.handOut 2 (build 10 0 0) (build 10 0 1) 5 3 0 false 20 = some o2 ∧
      IEEE.GetAngleDifference 2 (FP.fin o1) (FP.fin o2) = some (FP.fin (9 / 4))) ∧
    (∃ o1 o2 : ℚ, IEEE.handOut 2 (build 10 0 0) (build 10 0 1) 5 3 0 false 0 = some o1 ∧
      IEEE.handOut 2 (build 10 0 0) (build 10 0 1) 5 3 0 false 1 = some o2 ∧
      IEEE.GetAngleDifference 2 (FP.fin o1) (FP.fin o2) = some (FP.fin (9 / 4))) := by
  have hP : (((build 10 0 0).cells 5).analog_clocks 3 0).hand false = 180 := by
    rw [build_10_0_0_cell5, zero_3_0]; rfl
  have hT : (((build 10 0 1).cells 5).analog_clocks 3 0).hand false = 225 := by
    rw [build_10_0_1_cell5, one_3_0]; rfl
  obtain ⟨D, hD, -, h20, hstep⟩ := C15_constant_velocity (build 10 0 0) (build 10 0 1)
    (build_exact 10 0 0) (build_exact 10 0 1) 5 3 0 false (by rw [hP, hT]; norm_num) 2 le_rfl
  rw [hP, hT] at hD
  rw [hT] at h20
  have h45 : IEEE.GetAngleDifference 2 (FP.fin 180) (FP.fin 225) = some (FP.fin 45) := by
    rw [ieee_GetAngleDifference_exact 180 225 (tableAngle_exact (by norm_num [tableAngle]))
      (tableAngle_exact (by norm_num [tableAngle])) 2 le_rfl, GetAngleDifference_180_225]
  have hDv : D = 45 := by
    rw [h45] at hD
    injection hD with h
    injection h with h
    exact h.symm
  subst hDv
  have e : (45 : ℚ) / 20 = 9 / 4 := by norm_num
  rw [e] at hstep
  exact ⟨h45, h20, hstep 19 (by decide) (by decide), hstep 0 (by decide) (by decide)⟩

/-- C15 as stated fails in IEEE arithmetic.  Input: the display of 00:00:00 with one hand at
0 as previous and the same hand at 1 as target, forward distance `D = 1`.  `D / 20` rounds to
`13421773 / 2 ^ 28`, and the hand is drawn at that angle at frame 1, not at 1/20; it is drawn
at `13421773 / 2 ^ 27` at frame 2 and at `5033165 / 2 ^ 25` at frame 3.  The step from frame 0
to frame 1 is `13421773 / 2 ^ 28`, the step from frame 2 to frame 3 is `6710887 / 2 ^ 27`:
the two steps differ and neither is `D / 20`. -/
theorem C15_counterexample :
    (((build 0 0 0).withHand 0).normalised ∧ ((build 0 0 0).withHand 1).normalised ∧
      ((((build 0 0 0).withHand 0).cells 5).analog_clocks 0 0).hand false = 0 ∧
      ((((build 0 0 0).withHand 1).cells 5).analog_clocks 0 0).hand false = 1) ∧
    (∀ fuel : ℕ, 1 ≤ fuel →
      IEEE.GetAngleDifference fuel (FP.fin 0) (FP.fin 1) = some (FP.fin 1) ∧
      IEEE.handOut fuel ((build 0 0 0).withHand 0) ((build 0 0 0).withHand 1) 5 0 0 false 0 =
        some 0 ∧
      IEEE.handOut fuel ((build 0 0 0).withHand 0) ((build 0 0 0).withHand 1) 5 0 0 false 1 =
        some (13421773 / 268435456) ∧
      IEEE.handOut fuel ((build 0 0 0).withHand 0) ((build 0 0 0).withHand 1) 5 0 0 false 2 =
        some (13421773 / 134217728) ∧
      IEEE.handOut fuel ((build 0 0 0).withHand 0) ((build 0 0 0).withHand 1) 5 0 0 false 3 =
        some (5033165 / 33554432) ∧
      IEEE.GetAngleDifference fuel (FP.fin 0) (FP.fin (13421773 / 268435456)) =
        some (FP.fin (13421773 / 268435456)) ∧
      IEEE.GetAngleDifference fuel (FP.fin (13421773 / 134217728))
        (FP.fin (5033165 / 33554432)) = some (FP.fin (6710887 / 134217728))) ∧
    (13421773 / 268435456 : ℚ) ≠ 1 / 20 ∧ (6710887 / 134217728 : ℚ) ≠ 1 / 20 ∧
    (13421773 / 268435456 : ℚ) ≠ 6710887 / 134217728 := by
  have n0 : ((build 0 0 0).withHand 0).normalised :=
    DigitalClock.withHand_normalised (build 0 0 0) 0 (build_normalised 0 0 0)
      ⟨by norm_num, by norm_num⟩
  have n1 : ((build 0 0 0).withHand 1).normalised :=
    DigitalClock.withHand_normalised (build 0 0 0) 1 (build_normalised 0 0 0)
      ⟨by norm_num, by norm_num⟩
  refine ⟨⟨n0, n1, DigitalClock.withHand_hand (build 0 0 0) 0,
      DigitalClock.withHand_hand (build 0 0 0) 1⟩,
    fun fuel hfuel => ⟨ieee_distance_one fuel hfuel, ?_, ?_, ?_, ?_, ?_, ?_⟩,
    by norm_num, by norm_num, by norm_num⟩
  · exact ieee_handOut_withHand (build 0 0 0) (build_isFloat 0 0 0) 0 1 0 fuel 0 (by decide)
      (ieee_drawHand_unit fuel hfuel 0 0 0 0 0
        (round32_is _ _ 0 0 (by norm_num) (by norm_num) (by norm_num) (by norm_num))
        (round32_is _ _ 0 0 (by norm_num) (by norm_num) (by norm_num) (by norm_num))
        (by norm_num) (by norm_num) (by norm_num) (by norm_num) (by norm_num))
  · exact ieee_handOut_withHand (build 0 0 0) (build_isFloat 0 0 0) 0 1 _ fuel 1 (by decide)
      (ieee_drawHand_unit fuel hfuel 1 1 (13421773 / 268435456) 28 13421773
        (round32_is _ _ 0 1 (by norm_num) (by norm_num) (by norm_num) (by norm_num))
        (round32_is _ _ 28 13421773 (by norm_num) (by norm_num) (by norm_num) (by norm_num))
        (by norm_num) (by norm_num) (by norm_num) (by norm_num) (by norm_num))
  · exact ieee_handOut_withHand (build 0 0 0) (build_isFloat 0 0 0) 0 1 _ fuel 2 (by decide)
      (ieee_drawHand_unit fuel hfuel 2 2 (13421773 / 134217728) 27 13421773
        (round32_is _ _ 0 2 (by norm_num) (by norm_num) (by norm_num) (by norm_num))
        (round32_is _ _ 27 13421773 (by norm_num) (by norm_num) (by norm_num) (by norm_num))
        (by norm_num) (by norm_num) (by norm_num) (by norm_num) (by norm_num))
  · exact ieee_handOut_withHand (build 0 0 0) (build_isFloat 0 0 0) 0 1 _ fuel 3 (by decide)
      (ieee_drawHand_unit fuel hfuel 3 3 (5033165 / 33554432) 25 5033165
        (round32_is _ _ 0 3 (by norm_num) (by norm_num) (by norm_num) (by norm_num))
        round32_three_twentieths
        (by norm_num) (by norm_num) (by norm_num) (by norm_num) (by norm_num))
  · exact ieee_GetAngleDifference_small fuel hfuel _ _ _ (by norm_num)
      (round32_is _ _ 28 13421773 (by norm_num) (by norm_num) (by norm_num) (by norm_num))
      (by norm_num) (by norm_num)
  · exact ieee_GetAngleDifference_small fuel hfuel _ _ _ (by norm_num)
      (round32_is _ _ 27 6710887 (by norm_num) (by norm_num) (by norm_num) (by norm_num))
      (by norm_num) (by norm_num)

/-- C16 (as amended): a frame drawn by `GetClockToDraw` in IEEE arithmetic from two displays
whose hand angles are all integer multiples of 5/4096 in `[0, 360)` is returned and has all
its angles in `[0, 360)`, at every frame from 0 on; all angles of the digit table are of that
kind; and every run of the render loop, from the state in which `main` enters it, returns a
state whose three displays have only angles of `[0, 360)`. -/
theorem C16_normalised_invariant :
    (∀ previous target : DigitalClock, previous.exact → target.exact →
      ∀ f : Int, 0 ≤ f → ∀ fuel : ℕ, 2 ≤ fuel →
        ∃ out, IEEE.GetClockToDraw fuel previous target f = some out ∧ out.normalised) ∧
    (∀ (d : Int) (x : Fin 4) (y : Fin 6),
      (exactAngle ((GetCellForNumber d).analog_clocks x y).hours_hand_angle ∧
        normalised ((GetCellForNumber d).analog_clocks x y).hours_hand_angle) ∧
      (exactAngle ((GetCellForNumber d).analog_clocks x y).minutes_hand_angle ∧
        normalised ((GetCellForNumber d).analog_clocks x y).minutes_hand_angle)) ∧
    (∀ (tm_hour tm_min tm_sec : Int) (inputs : List LoopInput) (fuel : ℕ), 2 ≤ fuel →
      ∃ s, IEEE.mainRun fuel (mainInit tm_hour tm_min tm_sec) inputs = some s ∧
        s.normalised) := by
  refine ⟨fun previous target hp ht f hf0 fuel hfuel => ?_, fun d x y => ?_,
    fun tm_hour tm_min tm_sec inputs fuel hfuel => ?_⟩
  · refine ⟨_, ieee_GetClockToDraw_exact previous target hp ht f hf0 fuel hfuel, ?_⟩
    exact GetClockToDraw_normalised previous
      (fun i x y => ⟨exactAngle_normalised (ht i x y).1, exactAngle_normalised (ht i x y).2⟩) f
  · exact ⟨⟨tableAngle_exact (GetCellForNumber_tableAngle d x y).1,
        (GetCellForNumber_normalised d x y).1⟩,
      ⟨tableAngle_exact (GetCellForNumber_tableAngle d x y).2,
        (GetCellForNumber_normalised d x y).2⟩⟩
  · exact ⟨_, ieee_mainRun_exact inputs _ (mainInit_exact tm_hour tm_min tm_sec) fuel hfuel,
      mainRun_normalised inputs _ (mainInit_normalised tm_hour tm_min tm_sec)⟩

/-- C16 on frame 10 of the animation from 10:00:00 to 10:00:01 and on the slow run. -/
theorem C16_normalised_invariant_witness :
    (∃ out, IEEE.GetClockToDraw 2 (build 10 0 0) (build 10 0 1) 10 = some out ∧
      out.normalised) ∧
    (∃ s, IEEE.mainRun 2 (mainInit 10 0 0) slowRunInputs = some s ∧ s.normalised) :=
  ⟨C16_normalised_invariant.1 (build 10 0 0) (build 10 0 1) (build_exact 10 0 0)
      (build_exact 10 0 1) 10 (by decide) 2 le_rfl,
   C16_normalised_invariant.2.2 10 0 0 slowRunInputs 2 le_rfl⟩

/-- C16 as stated fails in IEEE arithmetic.  Input: previous and target both the display of
00:00:00 with one hand at the `double` `360 - 2 ^ (-30)`, all angles in `[0, 360)`.  At every
frame before the end of the animation that hand is narrowed to `float`, which gives 360, and
is drawn at 360, outside `[0, 360)`. -/
theorem C16_counterexample :
    isDouble (360 - 1 / 2 ^ 30) ∧
    ((build 0 0 0).withHand (360 - 1 / 2 ^ 30)).normalised ∧
    ∀ (fuel : ℕ) (f : Int), 0 ≤ f → f < 20 →
      ∃ out, IEEE.GetClockToDraw fuel ((build 0 0 0).withHand (360 - 1 / 2 ^ 30))
          ((build 0 0 0).withHand (360 - 1 / 2 ^ 30)) f = some out ∧
        ((out.cells 5).analog_clocks 0 0).hours_hand_angle = 360 ∧
        ¬ out.normalised := by
  refine ⟨round64_of_eq _ 30 386547056639 (by norm_num) (by norm_num) (by norm_num),
    DigitalClock.withHand_normalised (build 0 0 0) (360 - 1 / 2 ^ 30) (build_normalised 0 0 0)
      ⟨by norm_num, by norm_num⟩,
    fun fuel f _ hf => ?_⟩
  refine ⟨(build 0 0 0).withHand 360,
    ieee_GetClockToDraw_withHand (build 0 0 0) (build_isFloat 0 0 0) (360 - 1 / 2 ^ 30)
      (360 - 1 / 2 ^ 30) 360 fuel f hf
      (ieee_drawHand_narrow (360 - 1 / 2 ^ 30) 360 round32_turn_less_30 fuel f),
    DigitalClock.withHand_hand (build 0 0 0) 360, ?_⟩
  intro hn
  have h := (hn 5 0 0).1
  rw [DigitalClock.withHand_hand] at h
  exact absurd h.2 (by norm_num)

/-- C17: for every integer `d` (in particular every digit 0..9) `GetCellForNumber d` is a
grid of 4 columns by 6 rows with value `d` in which every position is either one the table
does not set, whose two hands are equal, or one the table sets, whose hour and minute
angles are two distinct values out of 0, 90, 180, 270 with the hour angle below the minute
angle. -/
theorem C17_grid_shape (d : Int) :
    (GetCellForNumber d).value = d ∧
    ∀ (x : Fin 4) (y : Fin 6),
      (explicitlySet d x y = false ∧
        ((GetCellForNumber d).analog_clocks x y).hours_hand_angle =
          ((GetCellForNumber d).analog_clocks x y).minutes_hand_angle) ∨
      (explicitlySet d x y = true ∧ onPose ((GetCellForNumber d).analog_clocks x y)) := by
  refine ⟨GetCellForNumber_value d, fun x y => ?_⟩
  cases h : explicitlySet d x y with
  | false =>
    left
    rw [GetCellForNumber_of_unset d x y h]
    exact ⟨rfl, rfl⟩
  | true =>
    right
    exact ⟨rfl, GetCellForNumber_of_set d x y h⟩

/-- C18 (as amended): for all `float`s `a ≠ b` in [0,360) that are integer multiples of
`2 ^ (-k)`, `k ≤ 15`, `GetAngleDifference (a, b)` in IEEE arithmetic is `b - a` if `b > a`
and `b - a + 360` otherwise, and the distances of the two directions add up to 360. -/
theorem C18_always_forward (k : ℕ) (hk : k ≤ 15) (ma mb : ℤ) (ha0 : 0 ≤ ma)
    (ha1 : ma < 360 * 2 ^ k) (hb0 : 0 ≤ mb) (hb1 : mb < 360 * 2 ^ k) (hne : ma ≠ mb)
    (fuel : ℕ) (hfuel : 2 ≤ fuel) :
    IEEE.GetAngleDifference fuel (FP.fin ((ma : ℚ) / 2 ^ k)) (FP.fin ((mb : ℚ) / 2 ^ k)) =
      some (FP.fin (if (ma : ℚ) / 2 ^ k < (mb : ℚ) / 2 ^ k
        then (mb : ℚ) / 2 ^ k - (ma : ℚ) / 2 ^ k
        else (mb : ℚ) / 2 ^ k - (ma : ℚ) / 2 ^ k + 360)) ∧
    ∃ d e : ℚ,
      IEEE.GetAngleDifference fuel (FP.fin ((ma : ℚ) / 2 ^ k)) (FP.fin ((mb : ℚ) / 2 ^ k)) =
        some (FP.fin d) ∧
      IEEE.GetAngleDifference fuel (FP.fin ((mb : ℚ) / 2 ^ k)) (FP.fin ((ma : ℚ) / 2 ^ k)) =
        some (FP.fin e) ∧
      d + e = 360 := by
  have hCq := turn_grid_cast k
  have hneq : (ma : ℚ) / 2 ^ k ≠ (mb : ℚ) / 2 ^ k := by
    intro h
    have h1 := (grid_le k ma mb).mp h.le
    have h2 := (grid_le k mb ma).mp h.ge
    exact hne (le_antisymm h1 h2)
  have a0 : (0 : ℚ) ≤ (ma : ℚ) / 2 ^ k := by
    have := (grid_le k 0 ma).mpr ha0
    simpa using this
  have b0 : (0 : ℚ) ≤ (mb : ℚ) / 2 ^ k := by
    have := (grid_le k 0 mb).mpr hb0
    simpa using this
  have a1 : (ma : ℚ) / 2 ^ k < 360 := by
    have := (grid_lt k ma (360 * 2 ^ k)).mpr ha1
    rwa [hCq] at this
  have b1 : (mb : ℚ) / 2 ^ k < 360 := by
    have := (grid_lt k mb (360 * 2 ^ k)).mpr hb1
    rwa [hCq] at this
  have hab := ieee_GetAngleDifference_turn k hk ma mb ha0 ha1 hb0 hb1 fuel hfuel
  have hba := ieee_GetAngleDifference_turn k hk mb ma hb0 hb1 ha0 ha1 fuel hfuel
  rw [GetAngleDifference_of_mem a0 a1 b0 b1 hneq] at hab
  rw [GetAngleDifference_of_mem b0 b1 a0 a1 (Ne.symm hneq)] at hba
  refine ⟨hab, _, _, hab, hba, ?_⟩
  rcases lt_or_gt_of_ne hneq with h | h
  · rw [if_pos h, if_neg (not_lt.mpr h.le)]
    ring
  · rw [if_neg (not_lt.mpr h.le), if_pos h]
    ring

/-- C18 from 90 to 0: the hand sweeps 270 degrees forward, and 90 the other way. -/
theorem C18_always_forward_witness :
    IEEE.GetAngleDifference 2 (FP.fin 90) (FP.fin 0) = some (FP.fin 270) ∧
    IEEE.GetAngleDifference 2 (FP.fin 0) (FP.fin 90) = some (FP.fin 90) := by
  have h1 := (C18_always_forward 0 (by norm_num) 90 0 (by norm_num) (by norm_num)
    (by norm_num) (by norm_num) (by norm_num) 2 le_rfl).1
  have h2 := (C18_always_forward 0 (by norm_num) 0 90 (by norm_num) (by norm_num)
    (by norm_num) (by norm_num) (by norm_num) 2 le_rfl).1
  norm_num at h1 h2
  exact ⟨h1, h2⟩

/-- C18 as stated fails in IEEE arithmetic.  Input: `a = 2 ^ (-20)` and `b = 0`, two `float`s
of `[0, 360)`.  The code computes `d = -2 ^ (-20)`, then `d + 360.0f`, which rounds to 360:
the distance from `a` to `b` is 360, not `b - a + 360`; the distance from `b` to `a` is
`2 ^ (-20)`, so the two directions add up to more than 360. -/
theorem C18_counterexample :
    (normalised (1 / 2 ^ 20) ∧ normalised 0 ∧ isFloat (1 / 2 ^ 20) ∧ isFloat 0) ∧
    (∀ fuel : ℕ, 2 ≤ fuel →
      IEEE.GetAngleDifference fuel (FP.fin (1 / 2 ^ 20)) (FP.fin 0) = some (FP.fin 360) ∧
      IEEE.GetAngleDifference fuel (FP.fin 0) (FP.fin (1 / 2 ^ 20)) =
        some (FP.fin (1 / 2 ^ 20))) ∧
    (360 : ℚ) ≠ 0 - 1 / 2 ^ 20 + 360 ∧ (360 : ℚ) + 1 / 2 ^ 20 ≠ 360 := by
  have hf : isFloat (1 / 2 ^ 20) :=
    round32_of_eq _ 20 1 (by norm_num) (by norm_num) (by norm_num)
  refine ⟨⟨⟨by norm_num, by norm_num⟩, ⟨by norm_num, by norm_num⟩, hf, round32_zero⟩,
    fun fuel hfuel => ⟨?_, ?_⟩, by norm_num, by norm_num⟩
  · have hd : binary32.round (0 - 1 / 2 ^ 20) = FP.fin (-(1 / 2 ^ 20)) := by
      rw [zero_sub]
      exact round32_of_eq _ 20 (-1) (by norm_num) (by norm_num) (by norm_num)
    refine ieee_GetAngleDifference_wrap fuel hfuel _ _ (-(1 / 2 ^ 20)) 360 (by norm_num)
      hd (by norm_num) ?_ (by norm_num) le_rfl
    have e : (-(1 / 2 ^ 20) + 360 : ℚ) = 360 - 1 / 2 ^ 20 := by ring
    rw [e]
    exact round32_turn_less_20
  · refine ieee_GetAngleDifference_small fuel (by omega) _ _ (1 / 2 ^ 20) (by norm_num) ?_
      (by norm_num) (by norm_num)
    rw [sub_zero]
    exact hf

/-- C19: for every previous display, target display and frame `f`, each cell of
`GetClockToDraw previous target f` carries the digit value of the target cell. -/
theorem C19_target_digit (previous target : DigitalClock) (f : Int) (i : Fin 6) :
    ((GetClockToDraw previous target f).cells i).value = (target.cells i).value :=
  GetClockToDraw_value previous target f i

end Clock
